/-
  Verification of the civiphrases pipeline against its natural-language
  specification.

  Each section embeds one Python module of the civiphrases package as Lean
  definitions (shallow embedding: strings become String / List Char, file
  contents become lists of lines, dicts become insertion-ordered association
  lists, and the fallible parts return Option).  The theorems at the end of
  the file settle the specification claims against these definitions.
-/
import Mathlib

set_option linter.unusedVariables false
set_option maxRecDepth 100000

/-! ## MD5 (model of hashlib.md5 used by civitai.calculate_item_checksum)

The checksum in civitai.py is hashlib.md5 over the UTF-8 encoding of the
string "positive|negative".  We model MD5 itself (RFC 1321) over byte lists;
bytes and 32-bit words are Nat with explicit reduction mod 2^32. -/

namespace Md5

def M32 : Nat := 4294967296

/-- The 64 round constants, K[i] = floor(abs(sin(i+1)) * 2^32). -/
def K : List Nat := [3614090360, 3905402710, 606105819, 3250441966, 4118548399,
  1200080426, 2821735955, 4249261313, 1770035416, 2336552879, 4294925233,
  2304563134, 1804603682, 4254626195, 2792965006, 1236535329, 4129170786,
  3225465664, 643717713, 3921069994, 3593408605, 38016083, 3634488961,
  3889429448, 568446438, 3275163606, 4107603335, 1163531501, 2850285829,
  4243563512, 1735328473, 2368359562, 4294588738, 2272392833, 1839030562,
  4259657740, 2763975236, 1272893353, 4139469664, 3200236656, 681279174,
  3936430074, 3572445317, 76029189, 3654602809, 3873151461, 530742520,
  3299628645, 4096336452, 1126891415, 2878612391, 4237533241, 1700485571,
  2399980690, 4293915773, 2240044497, 1873313359, 4264355552, 2734768916,
  1309151649, 4149444226, 3174756917, 718787259, 3951481745]

/-- Per-round left-rotation amounts. -/
def S : List Nat := [7, 12, 17, 22, 7, 12, 17, 22, 7, 12, 17, 22, 7, 12, 17,
  22, 5, 9, 14, 20, 5, 9, 14, 20, 5, 9, 14, 20, 5, 9, 14, 20, 4, 11, 16, 23,
  4, 11, 16, 23, 4, 11, 16, 23, 4, 11, 16, 23, 6, 10, 15, 21, 6, 10, 15, 21,
  6, 10, 15, 21, 6, 10, 15, 21]

/-- 32-bit left rotation (the two parts occupy disjoint bit ranges). -/
def rotl (x s : Nat) : Nat := (x * 2 ^ s) % M32 + x / 2 ^ (32 - s)

/-- Bitwise complement within 32 bits (valid for x < 2^32). -/
def notW (x : Nat) : Nat := 4294967295 - x

def funF (b c d : Nat) : Nat := Nat.lor (Nat.land b c) (Nat.land (notW b) d)
def funG (b c d : Nat) : Nat := Nat.lor (Nat.land d b) (Nat.land (notW d) c)
def funH (b c d : Nat) : Nat := Nat.xor b (Nat.xor c d)
def funI (b c d : Nat) : Nat := Nat.xor c (Nat.lor b (notW d))

/-- One MD5 round on state (a, b, c, d) with message words M. -/
def md5Round (M : List Nat) (st : Nat × Nat × Nat × Nat) (i : Nat) :
    Nat × Nat × Nat × Nat :=
  let (a, b, c, d) := st
  let f := if i < 16 then funF b c d
           else if i < 32 then funG b c d
           else if i < 48 then funH b c d
           else funI b c d
  let g := if i < 16 then i
           else if i < 32 then (5 * i + 1) % 16
           else if i < 48 then (3 * i + 5) % 16
           else (7 * i) % 16
  let tmp := (f + a + K.getD i 0 + M.getD g 0) % M32
  (d, (b + rotl tmp (S.getD i 0)) % M32, b, c)

/-- Little-endian word extraction from a 64-byte block. -/
def wordAt (block : List Nat) (j : Nat) : Nat :=
  block.getD (4 * j) 0 + 256 * block.getD (4 * j + 1) 0 +
    65536 * block.getD (4 * j + 2) 0 + 16777216 * block.getD (4 * j + 3) 0

def processBlock (st : Nat × Nat × Nat × Nat) (block : List Nat) :
    Nat × Nat × Nat × Nat :=
  let M := (List.range 16).map (wordAt block)
  let (a, b, c, d) := (List.range 64).foldl (md5Round M) st
  let (a0, b0, c0, d0) := st
  ((a0 + a) % M32, (b0 + b) % M32, (c0 + c) % M32, (d0 + d) % M32)

/-- n encoded as count little-endian bytes. -/
def leBytes (n count : Nat) : List Nat :=
  (List.range count).map (fun i => n / 256 ^ i % 256)

/-- MD5 padding: 0x80, zeros to 56 mod 64, then the 64-bit bit length. -/
def pad (msg : List Nat) : List Nat :=
  let len := msg.length
  let zeros := (64 + 56 - (len + 1) % 64) % 64
  msg ++ [128] ++ List.replicate zeros 0 ++ leBytes (len * 8 % 2 ^ 64) 8

def splitBlocks (l : List Nat) : List (List Nat) :=
  match l with
  | [] => []
  | c :: rest => (c :: rest).take 64 :: splitBlocks ((c :: rest).drop 64)
termination_by l.length
decreasing_by simp [List.length_drop]; omega

def md5Bytes (msg : List Nat) : List Nat :=
  let init : Nat × Nat × Nat × Nat :=
    (1732584193, 4023233417, 2562383102, 271733878)
  let (a, b, c, d) := (splitBlocks (pad msg)).foldl processBlock init
  leBytes a 4 ++ leBytes b 4 ++ leBytes c 4 ++ leBytes d 4

def hexDigit (n : Nat) : Char :=
  if n < 10 then Char.ofNat (48 + n) else Char.ofNat (87 + n)

def byteHex (b : Nat) : List Char := [hexDigit (b / 16), hexDigit (b % 16)]

/-- hashlib.md5(s.encode()).hexdigest(): lowercase hex digest of UTF-8 bytes. -/
def md5Hex (s : String) : String :=
  String.mk (((md5Bytes (s.toUTF8.toList.map (fun b => b.toNat))).map byteHex).flatten)

end Md5

/-! ## civitai.py: checksum and item store -/

namespace Civitai

/-- civitai.calculate_item_checksum: md5 of the string "positive|negative". -/
def calculate_item_checksum (positive negative : String) : String :=
  Md5.md5Hex (positive ++ "|" ++ negative)

/-- A cached item as stored on one JSONL line: its item_id key and the rest
of the parsed record (opaque payload). -/
structure CachedItem where
  item_id : String
  payload : String
deriving DecidableEq, Repr

/-- One line of the items.jsonl cache file, as seen by load_existing_items:
blank lines are skipped; a line can fail json.loads (malformed,
JSONDecodeError), parse to an object without an "item_id" key (KeyError on
item["item_id"]), parse to valid JSON that is not an object such as 5 or []
(nonObject: item["item_id"] raises TypeError, which the except clause does
not list), or yield a record. -/
inductive CacheLine where
  | blank
  | malformed
  | noId
  | nonObject
  | record (item : CachedItem)
deriving DecidableEq, Repr

/-- Python dict insertion: overwrite in place if the key exists, else append. -/
def dictInsert (m : List (String × CachedItem)) (k : String) (v : CachedItem) :
    List (String × CachedItem) :=
  if m.any (fun p => p.1 == k) then
    m.map (fun p => if p.1 == k then (k, v) else p)
  else m ++ [(k, v)]

/-- The read loop of load_existing_items.  The whole loop body sits inside
one try/except (json.JSONDecodeError, KeyError, IOError), so the first
malformed line (JSONDecodeError) or object without an item_id (KeyError)
aborts the loop with the items accumulated so far kept and the Bool
recording that an error was logged; a valid-JSON non-object line makes
item["item_id"] raise TypeError, which is not caught and propagates
(Except.error). -/
def load_existing_items_loop (lines : List CacheLine)
    (items : List (String × CachedItem)) :
    Except Unit (List (String × CachedItem) × Bool) :=
  match lines with
  | [] => Except.ok (items, false)
  | CacheLine.blank :: rest => load_existing_items_loop rest items
  | CacheLine.malformed :: _ => Except.ok (items, true)
  | CacheLine.noId :: _ => Except.ok (items, true)
  | CacheLine.nonObject :: _ => Except.error ()
  | CacheLine.record it :: rest =>
      load_existing_items_loop rest (dictInsert items it.item_id it)

/-- civitai.load_existing_items: none models a missing file (os.path.exists
false, return empty dict); otherwise the read loop runs, a caught error is
only logged (the Bool is discarded) and the partially filled dict is
returned, while an uncaught TypeError from a valid-JSON non-object line
propagates out of the function. -/
def load_existing_items (file : Option (List CacheLine)) :
    Except Unit (List (String × CachedItem)) :=
  match file with
  | none => Except.ok []
  | some lines =>
      match load_existing_items_loop lines [] with
      | Except.ok (items, _) => Except.ok items
      | Except.error e => Except.error e

/-- The parameter list of def save_items_incrementally(items_file, new_items). -/
def save_items_incrementally_params : List String := ["items_file", "new_items"]

/-- Python call semantics: a keyword argument not among a function's
parameters makes the call raise TypeError (unexpected keyword argument). -/
def unexpected_kwargs (params kwargs : List String) : List String :=
  kwargs.filter (fun k => !(params.contains k))

/-- civitai.save_items_incrementally on the cache file content: the file is
opened with mode a (append), so the new serialized items are appended after
the existing lines; no truncation path exists. -/
def save_items_incrementally_lines (existing new_items : List String) :
    List String :=
  existing ++ new_items

end Civitai

/-! ## normalize.py: text normalization and chunking

Text is modelled as List Char.  Python regular-expression substitutions are
embedded as dedicated scanners for the concrete patterns appearing in the
source; the Python whitespace class \s is modelled by the ASCII whitespace
characters. -/

namespace Normalize

def pyIsSpace (c : Char) : Bool :=
  c == ' ' || c == '\t' || c == '\n' || c == '\r' || c == '\x0b' || c == '\x0c'

/-- str.strip(): remove leading and trailing whitespace. -/
def pyStrip (l : List Char) : List Char :=
  ((l.dropWhile pyIsSpace).reverse.dropWhile pyIsSpace).reverse

/-- re.sub(r"\s+", " ", text): collapse each maximal whitespace run to one
space.  The Bool state records whether the scanner is inside a run whose
replacement space has already been emitted. -/
def subWsPlusGo : List Char → Bool → List Char
  | [], _ => []
  | c :: rest, inRun =>
    if pyIsSpace c then
      if inRun then subWsPlusGo rest true else ' ' :: subWsPlusGo rest true
    else c :: subWsPlusGo rest false

def subWsPlus (l : List Char) : List Char := subWsPlusGo l false

/-- normalize.normalize_whitespace: collapse whitespace runs, then strip. -/
def normalize_whitespace (l : List Char) : List Char :=
  match l with
  | [] => []
  | _ => pyStrip (subWsPlus l)

/-- Python str.replace(old, new) for a non-empty pattern: replace each
leftmost non-overlapping occurrence. -/
def pyReplace (pat repl : List Char) : List Char → List Char
  | [] => []
  | c :: rest =>
    if h : pat ≠ [] ∧ pat.isPrefixOf (c :: rest) then
      repl ++ pyReplace pat repl ((c :: rest).drop pat.length)
    else
      c :: pyReplace pat repl rest
termination_by l => l.length
decreasing_by
  · simp only [List.length_drop]
    cases pat with
    | nil => exact absurd rfl h.1
    | cons p ps => simp; omega
  · simp

def apostrophe : Char := Char.ofNat 39

/-- The second replace call of normalize.unify_quotes.  In the source the
intended smart quotes were lost, so the line parses as a triple-quoted
string: text.replace(<the literal 15 characters comma space doublequote
apostrophe doublequote closeparen dot r e p l a c e openparen>,
<apostrophe>). -/
def unify_quotes_pattern : List Char :=
  [',', ' ', '"', apostrophe, '"', ')', '.', 'r', 'e', 'p', 'l', 'a', 'c', 'e',
   '(']

/-- normalize.unify_quotes: two identity replacements of the ASCII double
quote by itself (the smart-quote characters were lost in the source), then
the replacement described at unify_quotes_pattern. -/
def unify_quotes (l : List Char) : List Char :=
  match l with
  | [] => []
  | _ =>
    let t := pyReplace ['"'] ['"'] (pyReplace ['"'] ['"'] l)
    pyReplace unify_quotes_pattern [apostrophe] t

/-- re.sub(r"[p]{2,}", "p", text) for a punctuation character p: each maximal
run of p of length at least two is replaced by a single p (a single p is left
as is, so every maximal run collapses to one p). -/
def subRunGo (p : Char) : List Char → Bool → List Char
  | [], _ => []
  | c :: rest, inRun =>
    if c == p then
      if inRun then subRunGo p rest true else p :: subRunGo p rest true
    else c :: subRunGo p rest false

def subRun (p : Char) (l : List Char) : List Char := subRunGo p l false

/-- Scanner state for subPunct: either scanning normally while holding a
not-yet-emitted whitespace run (the candidate leading \s* of a match), or
swallowing the trailing \s* of a match just replaced. -/
inductive SubSt where
  | pend (ws : List Char)
  | swallow
deriving DecidableEq, Repr

/-- re.sub(r"\s*p\s*", "p ", text) for p in comma/semicolon/period: a match
is a (possibly empty) whitespace run, the character p, and the following
whitespace run; each match is replaced by p followed by one space. -/
def subPunctGo (p : Char) : List Char → SubSt → List Char
  | [], SubSt.pend ws => ws.reverse
  | [], SubSt.swallow => []
  | c :: rest, SubSt.pend ws =>
    if pyIsSpace c then subPunctGo p rest (SubSt.pend (c :: ws))
    else if c == p then p :: ' ' :: subPunctGo p rest SubSt.swallow
    else ws.reverse ++ c :: subPunctGo p rest (SubSt.pend [])
  | c :: rest, SubSt.swallow =>
    if pyIsSpace c then subPunctGo p rest SubSt.swallow
    else if c == p then p :: ' ' :: subPunctGo p rest SubSt.swallow
    else c :: subPunctGo p rest (SubSt.pend [])

def subPunct (p : Char) (l : List Char) : List Char :=
  subPunctGo p l (SubSt.pend [])

/-- The character set of the final text.rstrip(" ,;.") call. -/
def rstrip_chars : List Char := [' ', ',', ';', '.']

/-- str.rstrip(chars): remove trailing characters drawn from the set. -/
def pyRstrip (cs : List Char) (l : List Char) : List Char :=
  (l.reverse.dropWhile (fun c => cs.contains c)).reverse

/-- normalize.normalize_prompt: whitespace collapse and strip, quote
unification, comma-run and period-run collapse, spacing of commas,
semicolons and periods, and a final right strip of trailing punctuation. -/
def normalize_prompt (l : List Char) : List Char :=
  match l with
  | [] => []
  | _ =>
    let t1 := normalize_whitespace l
    let t2 := unify_quotes t1
    let t3 := subRun ',' t2
    let t4 := subRun '.' t3
    let t5 := subPunct ',' t4
    let t6 := subPunct ';' t5
    let t7 := subPunct '.' t6
    pyRstrip rstrip_chars t7

/-- re.split(r"([,;])", text): split at comma/semicolon, keeping each
delimiter as its own part; the result alternates (possibly empty) text parts
and single-delimiter parts. -/
def isDelim (c : Char) : Bool := c == ',' || c == ';'

def splitKeepDelims : List Char → List (List Char)
  | [] => [[]]
  | c :: rest =>
    if isDelim c then [] :: [c] :: splitKeepDelims rest
    else
      match splitKeepDelims rest with
      | h :: t => (c :: h) :: t
      | [] => [[c]]

/-- str.split(): whitespace-separated words, no empty parts.  The
accumulator holds the current word reversed. -/
def pySplitAux : List Char → List Char → List (List Char)
  | [], acc => if acc.isEmpty then [] else [acc.reverse]
  | c :: rest, acc =>
    if pyIsSpace c then
      if acc.isEmpty then pySplitAux rest [] else acc.reverse :: pySplitAux rest []
    else pySplitAux rest (c :: acc)

def pySplit (l : List Char) : List (List Char) := pySplitAux l []

/-- First loop of chunk_long_prompt: greedily concatenate the re.split parts
while the current chunk stays within max_length; when it would overflow,
flush the stripped current chunk. -/
def phase1Step (max : Nat) (st : List (List Char) × List Char)
    (part : List Char) : List (List Char) × List Char :=
  let (chunks, current) := st
  if current ≠ [] ∧ max < (current ++ part).length then
    (chunks ++ [pyStrip current], part)
  else (chunks, current ++ part)

def phase1 (max : Nat) (parts : List (List Char)) : List (List Char) :=
  let (chunks, current) := parts.foldl (phase1Step max) ([], [])
  if pyStrip current ≠ [] then chunks ++ [pyStrip current] else chunks

/-- Second loop of chunk_long_prompt, applied to an over-long chunk: rebuild
from its words, flushing when adding the next word (with a joining space)
would overflow. -/
def phase2Word (max : Nat) (st : List (List Char) × List Char)
    (word : List Char) : List (List Char) × List Char :=
  let (finals, current) := st
  if current ≠ [] ∧ max < (current ++ ' ' :: word).length then
    (finals ++ [pyStrip current], word)
  else if current ≠ [] then (finals, current ++ ' ' :: word)
  else (finals, word)

def phase2Chunk (max : Nat) (finals : List (List Char)) (chunk : List Char) :
    List (List Char) :=
  if chunk.length ≤ max then finals ++ [chunk]
  else
    let (fs, current) := (pySplit chunk).foldl (phase2Word max) (finals, [])
    if pyStrip current ≠ [] then fs ++ [pyStrip current] else fs

/-- normalize.chunk_long_prompt: empty or short text is returned whole;
otherwise split at comma/semicolon boundaries, then split remaining
over-long chunks at word boundaries, and drop whitespace-only chunks. -/
def chunk_long_prompt (text : List Char) (max : Nat) : List (List Char) :=
  if text = [] then []
  else if text.length ≤ max then [text]
  else
    let chunks := phase1 max (splitKeepDelims text)
    let finals := chunks.foldl (phase2Chunk max) []
    finals.filter (fun c => !(pyStrip c).isEmpty)

end Normalize

/-! ## classify.py: the LLM classifier

classify_batch is embedded as a function of the worklist batch and of the
response text returned by the chat endpoint (the network call itself is the
parameter).  json.loads is embedded as a recursive-descent JSON parser; the
fuel argument is a structural termination device and any fuel of at least
the input length plus one gives the parsing result. -/

namespace Classify

def lbrace : Char := Char.ofNat 123
def rbrace : Char := Char.ofNat 125

/-- The seven valid categories of classify.LLMClassifier.VALID_CATEGORIES. -/
def VALID_CATEGORIES : List String :=
  ["subjects", "styles", "aesthetics", "techniques",
   "quality_boosters", "negatives", "modifiers"]

structure WorklistEntry where
  text : String
  polarity : String
  item_id : String
  chunk_id : String
deriving DecidableEq, Repr

structure PhraseClassification where
  text : String
  category : String
deriving DecidableEq, Repr

structure ClassificationResponse where
  phrases : List PhraseClassification
deriving DecidableEq, Repr

/-- A classified phrase dictionary as produced by classify_batch. -/
structure ClassifiedPhrase where
  text : String
  category : String
  polarity : String
  source_id : String
deriving DecidableEq, Repr

/-- classify.LLMClassifier.SYSTEM_PROMPT (the fixed system instruction). -/
def SYSTEM_PROMPT : String :=
  "You are a phrase classifier. Split Stable Diffusion prompts into phrases and classify each phrase.\n\nCRITICAL: Output ONLY valid JSON. No text before or after the JSON. No explanations.\n\nTask:\n1) Split the prompt into natural phrases (usually 2-6 words)\n2) Classify each phrase into exactly one category:\n   - subjects: people, creatures, objects, characters, props\n   - styles: art movements, render engines, mediums, franchises\n   - aesthetics: lighting, mood, colors, atmosphere\n   - techniques: camera terms, composition, lens settings\n   - quality_boosters: \"masterpiece\", \"best quality\", \"highly detailed\"\n   - negatives: \"blurry\", \"extra fingers\", \"bad anatomy\"\n   - modifiers: \"intricate\", \"minimalist\", \"cute\"\n\nOutput format (JSON ONLY):\n\x7b\n  \"phrases\": [\n    \x7b\"text\": \"a beautiful girl\", \"category\": \"subjects\"\x7d,\n    \x7b\"text\": \"with red hair\", \"category\": \"modifiers\"\x7d,\n    \x7b\"text\": \"walks slowly through\", \"category\": \"techniques\"\x7d,\n    \x7b\"text\": \"a dark forest\", \"category\": \"subjects\"\x7d\n  ]\n\x7d\n\nRules:\n- Output ONLY the JSON object above\n- No text before \"\x7b\" or after \"\x7d\"\n- No commentary, reasoning, or explanations\n- No \"Here is the output\" or similar text\n- Ensure the JSON is complete and properly closed"

/-- classify.LLMClassifier._create_batch_payload: the source states it uses
just the first prompt of the batch for now; the other entries do not appear. -/
def create_batch_payload (worklist_batch : List WorklistEntry) : String :=
  match worklist_batch with
  | [] => ""
  | e :: _ => e.text

structure ChatMessage where
  role : String
  content : String
deriving DecidableEq, Repr

/-- The messages list of the single chat.completions.create call made by
classify_batch for a batch. -/
def classify_messages (worklist_batch : List WorklistEntry) : List ChatMessage :=
  [⟨"system", SYSTEM_PROMPT⟩, ⟨"user", create_batch_payload worklist_batch⟩]

/-! ### json.loads -/

inductive Json where
  | jnull
  | jbool (b : Bool)
  | jnum (raw : String)
  | jstr (s : String)
  | jarr (items : List Json)
  | jobj (fields : List (String × Json))
deriving Repr

/-- JSON whitespace accepted between tokens by json.loads. -/
def jsonWs (c : Char) : Bool := c == ' ' || c == '\t' || c == '\n' || c == '\r'

def skipWs (cs : List Char) : List Char := cs.dropWhile jsonWs

def hexVal (c : Char) : Option Nat :=
  if '0' ≤ c ∧ c ≤ '9' then some (c.toNat - 48)
  else if 'a' ≤ c ∧ c ≤ 'f' then some (c.toNat - 87)
  else if 'A' ≤ c ∧ c ≤ 'F' then some (c.toNat - 55)
  else none

/-- Body of a JSON string literal, after the opening quote; strict mode
rejects raw control characters.  A unicode escape is mapped through
Char.ofNat. -/
def parseStringBody : List Char → List Char → Option (String × List Char)
  | [], _ => none
  | c :: rest, acc =>
    if c == '"' then some (String.mk acc.reverse, rest)
    else if c == '\\' then
      match rest with
      | [] => none
      | e :: rest2 =>
        if e == '"' then parseStringBody rest2 ('"' :: acc)
        else if e == '\\' then parseStringBody rest2 ('\\' :: acc)
        else if e == '/' then parseStringBody rest2 ('/' :: acc)
        else if e == 'b' then parseStringBody rest2 ('\x08' :: acc)
        else if e == 'f' then parseStringBody rest2 ('\x0c' :: acc)
        else if e == 'n' then parseStringBody rest2 ('\n' :: acc)
        else if e == 'r' then parseStringBody rest2 ('\r' :: acc)
        else if e == 't' then parseStringBody rest2 ('\t' :: acc)
        else if e == 'u' then
          match rest2 with
          | h1 :: h2 :: h3 :: h4 :: rest3 =>
            match hexVal h1, hexVal h2, hexVal h3, hexVal h4 with
            | some v1, some v2, some v3, some v4 =>
                parseStringBody rest3
                  (Char.ofNat (4096 * v1 + 256 * v2 + 16 * v3 + v4) :: acc)
            | _, _, _, _ => none
          | _ => none
        else none
    else if c.toNat < 32 then none
    else parseStringBody rest (c :: acc)

def isDigit (c : Char) : Bool := '0' ≤ c && c ≤ '9'

/-- The optional exponent tail of a JSON number literal. -/
def finishExp (pre : List Char) (r : List Char) : Option (String × List Char) :=
  match r with
  | e :: rest =>
    if e == 'e' || e == 'E' then
      let (es, r') :=
        match rest with
        | s :: rest2 => if s == '+' || s == '-' then ([e, s], rest2) else ([e], rest)
        | [] => ([e], rest)
      let ds := r'.takeWhile isDigit
      if ds = [] then none
      else some (String.mk (pre ++ es ++ ds), r'.dropWhile isDigit)
    else some (String.mk pre, r)
  | [] => some (String.mk pre, [])

/-- A JSON number literal; the raw literal is kept (its numeric value is
never consumed by the classifier pipeline). -/
def parseNumber (cs : List Char) : Option (String × List Char) :=
  let (sign, r1) :=
    match cs with
    | '-' :: r => (['-'], r)
    | _ => (([] : List Char), cs)
  let intPart := r1.takeWhile isDigit
  let r2 := r1.dropWhile isDigit
  if intPart = [] then none
  else if 1 < intPart.length ∧ intPart.headD '0' = '0' then none
  else
    match r2 with
    | '.' :: r =>
      let ds := r.takeWhile isDigit
      if ds = [] then none
      else finishExp (sign ++ intPart ++ '.' :: ds) (r.dropWhile isDigit)
    | _ => finishExp (sign ++ intPart) r2

/-- parseNumber wrapped as a Json value. -/
def parseNumberJ (cs : List Char) : Option (Json × List Char) :=
  (parseNumber cs).map (fun p => (Json.jnum p.1, p.2))

/-- Parser mode: a value, the members of an object after its opening brace,
or the items of an array after its opening bracket. -/
inductive PMode where
  | value
  | objFields (acc : List (String × Json))
  | arrItems (acc : List Json)

/-- Recursive-descent JSON parser (json.loads grammar, including the NaN and
Infinity constants accepted by default). -/
def parseJ : Nat → PMode → List Char → Option (Json × List Char)
  | 0, _, _ => none
  | Nat.succ fuel, PMode.value, cs =>
    match cs with
    | [] => none
    | c :: rest =>
      if c == lbrace then
        let r := skipWs rest
        match r with
        | d :: r' => if d == rbrace then some (Json.jobj [], r') else parseJ fuel (PMode.objFields []) r
        | [] => none
      else if c == '[' then
        let r := skipWs rest
        match r with
        | d :: r' => if d == ']' then some (Json.jarr [], r') else parseJ fuel (PMode.arrItems []) r
        | [] => none
      else if c == '"' then
        match parseStringBody rest [] with
        | some (s, r) => some (Json.jstr s, r)
        | none => none
      else if c == 't' then
        match rest with
        | 'r' :: 'u' :: 'e' :: r => some (Json.jbool true, r)
        | _ => none
      else if c == 'f' then
        match rest with
        | 'a' :: 'l' :: 's' :: 'e' :: r => some (Json.jbool false, r)
        | _ => none
      else if c == 'n' then
        match rest with
        | 'u' :: 'l' :: 'l' :: r => some (Json.jnull, r)
        | _ => none
      else if c == 'N' then
        match rest with
        | 'a' :: 'N' :: r => some (Json.jnum "NaN", r)
        | _ => none
      else if c == 'I' then
        match rest with
        | 'n' :: 'f' :: 'i' :: 'n' :: 'i' :: 't' :: 'y' :: r => some (Json.jnum "Infinity", r)
        | _ => none
      else if c == '-' then
        match rest with
        | 'I' :: 'n' :: 'f' :: 'i' :: 'n' :: 'i' :: 't' :: 'y' :: r =>
            some (Json.jnum "-Infinity", r)
        | _ => parseNumberJ cs
      else if isDigit c then parseNumberJ cs
      else none
  | Nat.succ fuel, PMode.objFields acc, cs =>
    match cs with
    | c :: rest =>
      if c == '"' then
        match parseStringBody rest [] with
        | some (k, r1) =>
          match skipWs r1 with
          | ':' :: r2 =>
            match parseJ fuel PMode.value (skipWs r2) with
            | some (v, r3) =>
              match skipWs r3 with
              | ',' :: r4 => parseJ fuel (PMode.objFields (acc ++ [(k, v)])) (skipWs r4)
              | d :: r4 =>
                  if d == rbrace then some (Json.jobj (acc ++ [(k, v)]), r4) else none
              | [] => none
            | none => none
          | _ => none
        | none => none
      else none
    | [] => none
  | Nat.succ fuel, PMode.arrItems acc, cs =>
    match parseJ fuel PMode.value cs with
    | some (v, r) =>
      match skipWs r with
      | ',' :: r2 => parseJ fuel (PMode.arrItems (acc ++ [v])) (skipWs r2)
      | ']' :: r2 => some (Json.jarr (acc ++ [v]), r2)
      | _ => none
    | none => none

/-- json.loads: parse one JSON document, allowing surrounding whitespace and
nothing else. -/
def json_loads (s : String) : Option Json :=
  match parseJ (s.toList.length + 1) PMode.value (skipWs s.toList) with
  | some (v, rest) => if skipWs rest = [] then some v else none
  | none => none

end Classify

namespace Classify

/-- Python dict lookup semantics over parsed JSON object members (a duplicate
key keeps its last value). -/
def jLookup (fields : List (String × Json)) (k : String) : Option Json :=
  (fields.reverse.find? (fun p => p.1 == k)).map (fun p => p.2)

/-- Pydantic validation of one phrases[] element: an object with string
fields text and category (extra members are ignored). -/
def phraseOfJson : Json → Option PhraseClassification
  | Json.jobj f =>
    match jLookup f "text", jLookup f "category" with
    | some (Json.jstr t), some (Json.jstr c) => some ⟨t, c⟩
    | _, _ => none
  | _ => none

def listMapPhrases : List Json → Option (List PhraseClassification)
  | [] => some []
  | j :: rest =>
    match phraseOfJson j, listMapPhrases rest with
    | some p, some ps => some (p :: ps)
    | _, _ => none

/-- ClassificationResponse(**response_data).  Unpacking a non-object raises
TypeError, which is not caught by _validate_and_fix_response (error case);
a schema violation raises pydantic.ValidationError, which is caught
(ok none). -/
def responseOfJson : Json → Except Unit (Option ClassificationResponse)
  | Json.jobj f =>
    match jLookup f "phrases" with
    | some (Json.jarr items) =>
      match listMapPhrases items with
      | some ps => Except.ok (some ⟨ps⟩)
      | none => Except.ok none
    | _ => Except.ok none
  | _ => Except.error ()

/-- classify.LLMClassifier._find_complete_json: scan counting braces
(string-content unaware, exactly as the source); at each closing brace that
brings the count to zero, try json.loads on the prefix and return it on
success, otherwise keep scanning. -/
def find_complete_json_aux : List Char → Int → List Char → Option (List Char)
  | [], _, _ => none
  | c :: rest, count, acc =>
    if c == lbrace then find_complete_json_aux rest (count + 1) (c :: acc)
    else if c == rbrace then
      let count' := count - 1
      if count' = 0 then
        let candidate := (c :: acc).reverse
        match json_loads (String.mk candidate) with
        | some _ => some candidate
        | none => find_complete_json_aux rest count' (c :: acc)
      else find_complete_json_aux rest count' (c :: acc)
    else find_complete_json_aux rest count (c :: acc)

def find_complete_json (cs : List Char) : Option (List Char) :=
  find_complete_json_aux cs 0 []

/-- Match a literal character sequence. -/
def expectLit : List Char → List Char → Option (List Char)
  | [], cs => some cs
  | _ :: _, [] => none
  | l :: ls, c :: cs => if c == l then expectLit ls cs else none

/-- Regex fragment "([^\"]*)\"": everything up to the next double quote. -/
def matchUpToQuote (cs : List Char) : Option (List Char × List Char) :=
  let t := cs.takeWhile (fun c => c != '"')
  match cs.dropWhile (fun c => c != '"') with
  | '"' :: r => some (t, r)
  | _ => none

def phraseLitText : List Char := [lbrace, '"', 't', 'e', 'x', 't', '"', ':']
def phraseLitCategory : List Char :=
  ['"', 'c', 'a', 't', 'e', 'g', 'o', 'r', 'y', '"', ':']

/-- One attempted match of the phrase regex
r"\x7b\"text\":\s*\"([^\"]*)\",\s*\"category\":\s*\"([^\"]*)\"\x7d" at the
head of the input, returning the two capture groups and the rest. -/
def matchPhraseAt (cs : List Char) : Option (String × String × List Char) :=
  match expectLit phraseLitText cs with
  | none => none
  | some r1 =>
    match expectLit ['"'] (r1.dropWhile Normalize.pyIsSpace) with
    | none => none
    | some r2 =>
      match matchUpToQuote r2 with
      | none => none
      | some (text, r3) =>
        match expectLit [','] r3 with
        | none => none
        | some r4 =>
          match expectLit phraseLitCategory (r4.dropWhile Normalize.pyIsSpace) with
          | none => none
          | some r5 =>
            match expectLit ['"'] (r5.dropWhile Normalize.pyIsSpace) with
            | none => none
            | some r6 =>
              match matchUpToQuote r6 with
              | none => none
              | some (cat, r7) =>
                match expectLit [rbrace] r7 with
                | none => none
                | some r8 => some (String.mk text, String.mk cat, r8)

/-- re.finditer of the phrase pattern: leftmost non-overlapping matches.
The fuel is a structural termination device; input length plus one always
suffices since every step consumes at least one character. -/
def findPhraseMatches : Nat → List Char → List (String × String)
  | 0, _ => []
  | _, [] => []
  | Nat.succ fuel, c :: rest =>
    match matchPhraseAt (c :: rest) with
    | some (t, cat, r) => (t, cat) :: findPhraseMatches fuel r
    | none => findPhraseMatches fuel rest

/-- End position (in characters from the start) of the last phrase-pattern
match, as used by _fix_truncated_json for matches[-1].end(). -/
def lastMatchEnd : Nat → List Char → Nat → Option Nat
  | 0, _, _ => none
  | _, [], _ => none
  | Nat.succ fuel, c :: rest, pos =>
    match matchPhraseAt (c :: rest) with
    | some (_, _, r) =>
      let endPos := pos + ((c :: rest).length - r.length)
      match lastMatchEnd fuel r endPos with
      | some e => some e
      | none => some endPos
    | none => lastMatchEnd fuel rest (pos + 1)

/-- Does the parsed value have a "phrases" member that is a list
(the check: phrases in parsed and isinstance(parsed[phrases], list))? -/
def hasPhrasesList : Json → Bool
  | Json.jobj f =>
    match jLookup f "phrases" with
    | some (Json.jarr _) => true
    | _ => false
  | _ => false

/-- classify.LLMClassifier._fix_truncated_json: truncate to the last complete
phrase match, then try the four completion strategies, then the salvage
closing (identical to strategy 2, as in the source). -/
def fix_truncated_json (cs : List Char) : Option (List Char) :=
  match lastMatchEnd (cs.length + 1) cs 0 with
  | none => none
  | some e =>
    let truncPrefix := cs.take e
    let strategies : List (List Char) :=
      [truncPrefix ++ ['\n', ' ', ' ', ']', '\n', rbrace],
       truncPrefix ++ ['\n', ']', rbrace],
       truncPrefix ++ [']', rbrace],
       truncPrefix ++ [',', ']', rbrace]]
    match strategies.find? (fun cand =>
        match json_loads (String.mk cand) with
        | some j => hasPhrasesList j
        | none => false) with
    | some cand => some cand
    | none =>
      let salvage := truncPrefix ++ ['\n', ']', rbrace]
      match json_loads (String.mk salvage) with
      | some j => if hasPhrasesList j then some salvage else none
      | none => none

/-- classify.LLMClassifier._extract_json_from_response: strip, take the text
from the first opening brace (no brace: None), and return the first complete
JSON object found by brace matching, else attempt truncation repair. -/
def extract_json_from_response (s : String) : Option (List Char) :=
  let t := Normalize.pyStrip s.toList
  let jsonText := t.dropWhile (fun c => c != lbrace)
  if jsonText = [] then none
  else
    match find_complete_json jsonText with
    | some c => some c
    | none => fix_truncated_json jsonText

/-- classify.LLMClassifier._validate_and_fix_response.  The final category
check loop only logs a warning for an invalid category and continues; it
removes nothing, so the validated response is returned unchanged. -/
def validate_and_fix_response (s : String) :
    Except Unit (Option ClassificationResponse) :=
  match extract_json_from_response s with
  | none => Except.ok none
  | some cleaned =>
    match json_loads (String.mk cleaned) with
    | none => Except.ok none
    | some j =>
      match responseOfJson j with
      | Except.error e => Except.error e
      | Except.ok none => Except.ok none
      | Except.ok (some validated) => Except.ok (some validated)

def pyStripStr (s : String) : String := String.mk (Normalize.pyStrip s.toList)

/-- classify.LLMClassifier._extract_partial_phrases: every phrase-pattern
match whose stripped category is valid becomes a phrase with polarity pos
and source_id partial_extraction. -/
def extract_partial_phrases (s : String) : List ClassifiedPhrase :=
  (findPhraseMatches (s.toList.length + 1) s.toList).filterMap (fun tc =>
    let text := pyStripStr tc.1
    let category := pyStripStr tc.2
    if VALID_CATEGORIES.contains category then
      some ⟨text, category, "pos", "partial_extraction"⟩
    else none)

/-- classify.LLMClassifier.classify_batch after the chat response arrived
(response_text is the message content; the network call itself is this
parameter).  An empty batch returns [] before any request.  On a validated
response every phrase gets polarity "pos" and the first entry's item_id as
source_id; on a validation failure the partial extractor runs; an uncaught
exception inside the try block (the TypeError case) yields []. -/
def classify_batch (worklist_batch : List WorklistEntry)
    (response_text : String) : List ClassifiedPhrase :=
  match worklist_batch with
  | [] => []
  | first :: _ =>
    match validate_and_fix_response response_text with
    | Except.error _ => []
    | Except.ok (some validated) =>
        validated.phrases.map (fun ph =>
          ⟨pyStripStr ph.text, ph.category, "pos", first.item_id⟩)
    | Except.ok none => extract_partial_phrases response_text

/-- Observer: did _validate_and_fix_response return a validated response for
this response text (the path that maps phrases directly)? -/
def isValidated (s : String) : Bool :=
  match validate_and_fix_response s with
  | Except.ok (some _) => true
  | _ => false

/-- Observer: did validation fail softly, sending classify_batch into the
partial-extraction fallback? -/
def isPartialFallback (s : String) : Bool :=
  match validate_and_fix_response s with
  | Except.ok none => true
  | _ => false

end Classify

/-! ## writeout.py: phrase deduplication -/

namespace Writeout

/-- A deduplicated phrase record as produced by dedupe_phrases (the Python
sets for polarities and sources are modelled as insertion-ordered lists
without duplicates; only their membership is meaningful). -/
structure DedupedPhrase where
  text : String
  category : String
  polarity : String
  sources : List String
  count : Nat
deriving DecidableEq, Repr

/-- The accumulating group of writeout.WildcardWriter.dedupe_phrases (one
value of phrase_groups); the text and category are those of the first
occurrence, which are set when the group is created. -/
structure Group where
  text : String
  category : String
  polarities : List String
  sources : List String
  count : Nat
deriving DecidableEq, Repr

/-- str.lower(), modelled per character (the pipeline text is ASCII). -/
def pyLower (s : String) : String := String.mk (s.data.map Char.toLower)

/-- Python set.add on the list model: append when not yet present. -/
def addToSet (l : List String) (x : String) : List String :=
  if l.contains x then l else l ++ [x]

/-- One iteration of the grouping loop of dedupe_phrases: skip phrases whose
stripped text is empty; otherwise find or create the group keyed by the
lowercased stripped text and merge the phrase into it. -/
def dedupe_step (groups : List (String × Group))
    (ph : Classify.ClassifiedPhrase) : List (String × Group) :=
  let text := Classify.pyStripStr ph.text
  if text = "" then groups
  else
    let key := pyLower text
    if groups.any (fun g => g.1 == key) then
      groups.map (fun g =>
        if g.1 == key then
          (g.1, { g.2 with
                  polarities := addToSet g.2.polarities ph.polarity,
                  sources := addToSet g.2.sources ph.source_id,
                  count := g.2.count + 1 })
        else g)
    else groups ++ [(key, ⟨text, ph.category, [ph.polarity], [ph.source_id], 1⟩)]

/-- writeout.WildcardWriter.dedupe_phrases: group in input order, then emit
one record per group in first-occurrence order; a group with exactly one
polarity keeps it, otherwise the polarity becomes "mixed". -/
def dedupe_phrases (phrases : List Classify.ClassifiedPhrase) :
    List DedupedPhrase :=
  (phrases.foldl dedupe_step []).filterMap (fun g =>
    if g.2.text = "" then none
    else
      some ⟨g.2.text, g.2.category,
            (if g.2.polarities.length = 1 then g.2.polarities.headD ""
             else "mixed"),
            g.2.sources, g.2.count⟩)

/-- The phrases of the input list contributing to the group with the given
key: nonempty stripped text whose lowercasing equals the key. -/
def contributing (phrases : List Classify.ClassifiedPhrase) (key : String) :
    List Classify.ClassifiedPhrase :=
  phrases.filter (fun p =>
    (Classify.pyStripStr p.text != "") &&
      (pyLower (Classify.pyStripStr p.text) == key))

/-- Distinct values of a list in first-occurrence order (the reading of the
Python sets used by dedupe_phrases). -/
def orderedDedup (l : List String) : List String := l.foldl addToSet []

/-- The loop invariant of dedupe_phrases relating the group accumulator to
the phrases processed so far: keys are distinct, there are no more groups
than phrases, absent keys have no contributing phrases, and each group's
fields are determined by its contributing phrases in input order. -/
def GroupInv (processed : List Classify.ClassifiedPhrase)
    (groups : List (String × Group)) : Prop :=
  groups.length ≤ processed.length ∧
  (∀ k : String, (∀ g ∈ groups, g.1 ≠ k) → contributing processed k = []) ∧
  ∀ kg ∈ groups, ∃ first rest,
    contributing processed kg.1 = first :: rest ∧
    kg.2.text = Classify.pyStripStr first.text ∧
    kg.2.category = first.category ∧
    kg.2.polarities = orderedDedup ((first :: rest).map (fun p => p.polarity)) ∧
    kg.2.sources = orderedDedup ((first :: rest).map (fun p => p.source_id)) ∧
    kg.2.count = (first :: rest).length

end Writeout

/-! ## Normal forms of normalize_prompt output

To settle the idempotence claim we characterise the strings produced by
normalize_prompt with scanning recognizers, and describe the effect of the
comma and semicolon spacing passes on such strings with the explicit maps
M1 and M2.  The ranks order the three spaced punctuation marks by the order
of their substitution passes. -/

namespace Normalize

def rank (c : Char) : Nat :=
  if c = ',' then 1 else if c = ';' then 2 else if c = '.' then 3 else 0

def isPunct (c : Char) : Bool := c == ',' || c == ';' || c == '.'

/-- Scan a string checking a window condition on (previous character,
current character, next character). -/
def scan (f : Option Char → Char → Option Char → Bool) :
    Option Char → List Char → Bool
  | _, [] => true
  | prev, c :: rest => f prev c rest.head? && scan f (some c) rest

/-- Whitespace discipline after whitespace collapse and strip: the only
whitespace character is the space, no character starts the string as
whitespace, and no two whitespace characters are adjacent. -/
def wsF (prev : Option Char) (c : Char) (next : Option Char) : Bool :=
  if pyIsSpace c then
    c == ' ' && prev.isSome &&
      (match next with
       | some d => !pyIsSpace d
       | none => true)
  else true

/-- No immediate repetition of the character p (the state after the
comma-run and period-run collapses). -/
def noRepF (p : Char) (prev : Option Char) (c : Char) (next : Option Char) :
    Bool :=
  !(c == p && next == some p)

/-- A previous character that is a punctuation mark of rank between
minRank and stage. -/
def prevPunctLe (stage minRank : Nat) (prev : Option Char) : Bool :=
  match prev with
  | some q => isPunct q && decide (minRank ≤ rank q) && decide (rank q ≤ stage)
  | none => false

/-- Punctuation discipline after the spacing passes up to the given stage
(1 = comma done, 2 = semicolon done, 3 = period done): a processed mark is
followed by a space unless a later-processed mark stole that space, and a
space directly before a processed mark is the trailing space of an
earlier-emitted processed mark of at least that rank. -/
def punctF (stage : Nat) (prev : Option Char) (c : Char) (next : Option Char) :
    Bool :=
  if c == ',' then
    if 1 ≤ stage then
      match next with
      | some d => d == ' ' || (isPunct d && decide (1 < rank d) &&
          decide (rank d ≤ stage))
      | none => true
    else true
  else if c == ';' then
    if 2 ≤ stage then
      match next with
      | some d => d == ' ' || (isPunct d && decide (2 < rank d) &&
          decide (rank d ≤ stage))
      | none => true
    else true
  else if c == '.' then
    if 3 ≤ stage then
      match next with
      | some d => d == ' '
      | none => true
    else true
  else if c == ' ' then
    match next with
    | some d =>
      if isPunct d && decide (rank d ≤ stage) then prevPunctLe stage (rank d) prev
      else true
    | none => true
  else true

/-- The input discipline of the spacing passes: whitespace collapsed and
stripped, comma runs and period runs collapsed. -/
def stage0Ok (l : List Char) : Bool :=
  scan wsF none l && scan (noRepF ',') none l && scan (noRepF '.') none l

def stage1Ok (l : List Char) : Bool :=
  scan wsF none l && scan (noRepF '.') none l && scan (punctF 1) none l

def stage2Ok (l : List Char) : Bool :=
  scan wsF none l && scan (noRepF '.') none l && scan (punctF 2) none l

def stage3Ok (l : List Char) : Bool :=
  scan wsF none l && scan (punctF 3) none l

/-- The final character is a word character (guaranteed by the trailing
rstrip of spaces and punctuation). -/
def lastOk (l : List Char) : Bool :=
  match l.getLast? with
  | some c => !(isPunct c || pyIsSpace c)
  | none => true

/-- The normal form of non-empty normalize_prompt output. -/
def nfOk (l : List Char) : Bool := stage3Ok l && lastOk l

/-- Remove a single leading space if present. -/
def dropOneSpace : List Char → List Char
  | ' ' :: r => r
  | r => r

theorem dropOneSpace_length_le (l : List Char) :
    (dropOneSpace l).length ≤ l.length := by
  unfold dropOneSpace
  split
  · simp
  · exact le_refl _

/-- The effect of one spacing pass (for the punctuation mark p) on a
string whose whitespace is already collapsed to single spaces: each match,
consisting of an optional space, the mark, and an optional space, is
rewritten to the mark followed by one space. -/
def Msub (p : Char) : List Char → List Char
  | ' ' :: c :: rest =>
      if c = p then p :: ' ' :: Msub p (dropOneSpace rest)
      else ' ' :: Msub p (c :: rest)
  | c :: rest =>
      if c = p then p :: ' ' :: Msub p (dropOneSpace rest)
      else c :: Msub p rest
  | [] => []
termination_by l => l.length
decreasing_by
  · have := dropOneSpace_length_le rest
    simp
    omega
  · simp
  · have := dropOneSpace_length_le rest
    simp
    omega
  · simp

/-- M1 is the comma pass description. -/
def M1 : List Char → List Char := Msub ','

/-- The combined effect of the comma and semicolon spacing passes on a
normal-form string: on top of M1, each semicolon (with a space directly
before it) becomes a semicolon followed by one space, absorbing a
directly following space, and a comma directly followed by a semicolon
glues to it because the semicolon pass consumes the comma's emitted
space. -/
def M2 : List Char → List Char
  | ' ' :: ',' :: rest =>
      (match h : dropOneSpace rest with
       | ';' :: rest2 => ',' :: ';' :: ' ' :: M2 (dropOneSpace rest2)
       | r' => ',' :: ' ' :: M2 r')
  | ',' :: rest =>
      (match h : dropOneSpace rest with
       | ';' :: rest2 => ',' :: ';' :: ' ' :: M2 (dropOneSpace rest2)
       | r' => ',' :: ' ' :: M2 r')
  | ' ' :: ';' :: rest => ';' :: ' ' :: M2 (dropOneSpace rest)
  | ';' :: rest => ';' :: ' ' :: M2 (dropOneSpace rest)
  | c :: rest => c :: M2 rest
  | [] => []
termination_by l => l.length
decreasing_by
  all_goals
    first
    | (have h1 := dropOneSpace_length_le rest
       have h2 := dropOneSpace_length_le rest2
       have h3 : (dropOneSpace rest).length = rest2.length + 1 := by
         rw [h]; rfl
       simp
       omega)
    | (have h1 := dropOneSpace_length_le rest
       have h2 : r'.length ≤ rest.length := by
         rw [← h]; exact dropOneSpace_length_le rest
       simp
       omega)
    | (have h1 := dropOneSpace_length_le rest
       simp
       omega)
    | simp

end Normalize

/-! ## Generic helpers used by the theorems -/

namespace Util

/-- Does the pattern occur as a contiguous subsequence? -/
def containsSeq (pat : List Char) : List Char → Bool
  | [] => pat.isEmpty
  | c :: rest => pat.isPrefixOf (c :: rest) || containsSeq pat rest

end Util

/-! ## Theorems settling the claims -/

/-- Helper for C4: a loop prefix free of error lines is processed normally;
the first malformed line aborts the remainder keeping the prefix records,
and the first valid-JSON non-object line raises out of the loop. -/
theorem load_loop_malformed (post : List Civitai.CacheLine) :
    ∀ (pre : List Civitai.CacheLine) (items : List (String × Civitai.CachedItem)),
      (∀ l ∈ pre, l ≠ Civitai.CacheLine.malformed ∧
        l ≠ Civitai.CacheLine.noId ∧ l ≠ Civitai.CacheLine.nonObject) →
      ∃ m, Civitai.load_existing_items_loop pre items = Except.ok (m, false) ∧
        Civitai.load_existing_items_loop
          (pre ++ Civitai.CacheLine.malformed :: post) items =
          Except.ok (m, true) ∧
        Civitai.load_existing_items_loop
          (pre ++ Civitai.CacheLine.nonObject :: post) items =
          Except.error () := by
  intro pre
  induction pre with
  | nil => intro items _; exact ⟨items, rfl, rfl, rfl⟩
  | cons l rest ih =>
    intro items hpre
    cases l with
    | blank =>
        obtain ⟨m, h1, h2, h3⟩ :=
          ih items (fun x hx => hpre x (List.mem_cons_of_mem _ hx))
        exact ⟨m,
          by simpa [Civitai.load_existing_items_loop] using h1,
          by simpa [Civitai.load_existing_items_loop] using h2,
          by simpa [Civitai.load_existing_items_loop] using h3⟩
    | malformed => exact absurd rfl (hpre _ (List.mem_cons_self _ _)).1
    | noId => exact absurd rfl (hpre _ (List.mem_cons_self _ _)).2.1
    | nonObject => exact absurd rfl (hpre _ (List.mem_cons_self _ _)).2.2
    | record it =>
        obtain ⟨m, h1, h2, h3⟩ :=
          ih (Civitai.dictInsert items it.item_id it)
            (fun x hx => hpre x (List.mem_cons_of_mem _ hx))
        exact ⟨m,
          by simpa [Civitai.load_existing_items_loop] using h1,
          by simpa [Civitai.load_existing_items_loop] using h2,
          by simpa [Civitai.load_existing_items_loop] using h3⟩

/-- C4 (counterexample): with a well-formed record for "a", then a malformed
line, then a well-formed record for "b", load returns only the record for
"a" — the well-formed line after the malformed one is not loaded, contrary
to the claim that only the malformed line is skipped; and a record followed
by a valid-JSON non-object line (such as 5 or []) makes load raise an
uncaught TypeError, contrary to the claim that load never raises. -/
theorem load_existing_items_counterexample :
    Civitai.load_existing_items (some
      [Civitai.CacheLine.record ⟨"a", "pa"⟩, Civitai.CacheLine.malformed,
       Civitai.CacheLine.record ⟨"b", "pb"⟩]) =
      Except.ok [("a", ⟨"a", "pa"⟩)] ∧
    Civitai.load_existing_items (some
      [Civitai.CacheLine.record ⟨"a", "pa"⟩, Civitai.CacheLine.nonObject]) =
      Except.error () := by
  constructor
  · rfl
  · rfl

/-- C4 (amended): load returns an empty mapping for a missing file; a
malformed line makes load keep everything loaded before it while skipping
the malformed line and the whole remainder of the file without raising
(the logged error flag is discarded); and a valid-JSON non-object line
makes load raise an uncaught TypeError from item["item_id"], since the
except clause catches only JSONDecodeError, KeyError and IOError. -/
theorem load_existing_items_aborts_after_malformed
    (pre post : List Civitai.CacheLine)
    (hpre : ∀ l ∈ pre, l ≠ Civitai.CacheLine.malformed ∧
      l ≠ Civitai.CacheLine.noId ∧ l ≠ Civitai.CacheLine.nonObject) :
    Civitai.load_existing_items none = Except.ok [] ∧
    (∃ m, Civitai.load_existing_items (some pre) = Except.ok m ∧
      Civitai.load_existing_items
        (some (pre ++ Civitai.CacheLine.malformed :: post)) = Except.ok m) ∧
    Civitai.load_existing_items
      (some (pre ++ Civitai.CacheLine.nonObject :: post)) =
      Except.error () := by
  obtain ⟨m, h1, h2, h3⟩ := load_loop_malformed post pre [] hpre
  refine ⟨rfl, ⟨m, ?_, ?_⟩, ?_⟩
  · simp only [Civitai.load_existing_items]
    rw [h1]
  · simp only [Civitai.load_existing_items]
    rw [h2]
  · simp only [Civitai.load_existing_items]
    rw [h3]

/-- C4 (witness): the amended statement at a concrete one-record prefix and
one-record suffix. -/
theorem load_existing_items_aborts_after_malformed_witness :
    Civitai.load_existing_items none = Except.ok [] ∧
    (∃ m, Civitai.load_existing_items
        (some [Civitai.CacheLine.record ⟨"a", "pa"⟩]) = Except.ok m ∧
      Civitai.load_existing_items
        (some ([Civitai.CacheLine.record ⟨"a", "pa"⟩] ++
          Civitai.CacheLine.malformed ::
            [Civitai.CacheLine.record ⟨"b", "pb"⟩])) = Except.ok m) ∧
    Civitai.load_existing_items
      (some ([Civitai.CacheLine.record ⟨"a", "pa"⟩] ++
        Civitai.CacheLine.nonObject ::
          [Civitai.CacheLine.record ⟨"b", "pb"⟩])) = Except.error () :=
  load_existing_items_aborts_after_malformed
    [Civitai.CacheLine.record ⟨"a", "pa"⟩]
    [Civitai.CacheLine.record ⟨"b", "pb"⟩] (by decide)

/-- C3 (code_bug): the fetch command calls save(path, items, replace=...)
but save_items_incrementally has no replace parameter, so the keyword
argument raises TypeError; and the function itself always appends (mode a),
so no invocation truncates the cache file — saving ["new"] over ["old"]
keeps ["old"]. -/
theorem save_items_incrementally_no_replace :
    Civitai.unexpected_kwargs Civitai.save_items_incrementally_params ["replace"] =
      ["replace"] ∧
    (∀ existing new_items : List String,
      Civitai.save_items_incrementally_lines existing new_items =
        existing ++ new_items) ∧
    Civitai.save_items_incrementally_lines ["old"] ["new"] ≠ ["new"] := by
  refine ⟨by decide, fun a b => rfl, by decide⟩

/-- C9 (counterexample): the pairs ("a|b", "") and ("a", "b|") are distinct
but produce the same joined content "a|b|", hence the same checksum — the
claimed collision resistance over distinct pairs fails. -/
theorem calculate_item_checksum_collision :
    (("a|b", "") : String × String) ≠ ("a", "b|") ∧
    Civitai.calculate_item_checksum "a|b" "" =
      Civitai.calculate_item_checksum "a" "b|" := by
  refine ⟨by decide, ?_⟩
  show Md5.md5Hex ("a|b" ++ "|" ++ "") = Md5.md5Hex ("a" ++ "|" ++ "b|")
  have h : ("a|b" ++ "|" ++ "" : String) = "a" ++ "|" ++ "b|" := by decide
  rw [h]

/-- C9 (amended): the checksum is a pure function of the joined string
positive ++ "|" ++ negative: checksum(p, n) always equals itself, and any
two pairs with equal joined content — even distinct pairs — receive equal
checksums; collision resistance holds only in the joined string. -/
theorem calculate_item_checksum_joined (p1 n1 p2 n2 : String)
    (h : p1 ++ "|" ++ n1 = p2 ++ "|" ++ n2) :
    Civitai.calculate_item_checksum p1 n1 = Civitai.calculate_item_checksum p1 n1 ∧
    Civitai.calculate_item_checksum p1 n1 = Civitai.calculate_item_checksum p2 n2 := by
  refine ⟨rfl, ?_⟩
  show Md5.md5Hex (p1 ++ "|" ++ n1) = Md5.md5Hex (p2 ++ "|" ++ n2)
  rw [h]

/-- C9 (witness): the amended statement at the concrete colliding pair. -/
theorem calculate_item_checksum_joined_witness :
    Civitai.calculate_item_checksum "a|b" "" = Civitai.calculate_item_checksum "a|b" "" ∧
    Civitai.calculate_item_checksum "a|b" "" = Civitai.calculate_item_checksum "a" "b|" :=
  calculate_item_checksum_joined "a|b" "" "a" "b|" (by decide)

/-- C2 (counterexample): for a two-entry batch the user payload is exactly
the first entry's text; the second entry's prompt text, item id and polarity
appear nowhere in the request messages. -/
theorem create_batch_payload_counterexample :
    Classify.create_batch_payload [⟨"cat photo", "pos", "id1", "id1_pos"⟩,
      ⟨"dog sketch", "neg", "id2", "id2_neg"⟩] = "cat photo" ∧
    (Classify.classify_messages [⟨"cat photo", "pos", "id1", "id1_pos"⟩,
      ⟨"dog sketch", "neg", "id2", "id2_neg"⟩]).all
        (fun m => !(Util.containsSeq "dog sketch".toList m.content.toList) &&
                  !(Util.containsSeq "id2".toList m.content.toList)) = true := by
  constructor
  · rfl
  · decide

/-- C2 (amended): classify_batch builds exactly one chat request, consisting
of the fixed system instruction and a user payload that is just the first
entry's prompt text; entries beyond the first are not represented. -/
theorem classify_messages_first_only (e : Classify.WorklistEntry)
    (rest : List Classify.WorklistEntry) :
    Classify.classify_messages (e :: rest) =
      [⟨"system", Classify.SYSTEM_PROMPT⟩, ⟨"user", e.text⟩] := rfl

/-- C1 (code_bug): classifying the worklist entry with text "blurry image"
and polarity neg, where the model labels it "modifiers", returns the phrase
with category "modifiers": classify_batch contains no negative-forcing pass
(classify.py defines neither _force_negatives_category nor any list of
canonical negative indicators, although tests/test_classify.py calls the
former), so the mislabeling is not corrected to "negatives". -/
theorem classify_batch_no_negative_forcing :
    Classify.classify_batch [⟨"blurry image", "neg", "item1", "item1_neg"⟩]
      "\x7b\"phrases\": [\x7b\"text\": \"blurry image\", \"category\": \"modifiers\"\x7d]\x7d" =
      [⟨"blurry image", "modifiers", "pos", "item1"⟩] ∧
    ("modifiers" : String) ≠ "negatives" := by
  constructor
  · rfl
  · decide

/-- C5 (code_bug): a validated response carrying the out-of-set category
"bogus" is returned with that phrase kept and its category intact — the
category-checking loop in _validate_and_fix_response logs "skipping phrase"
but its continue statement drops nothing, so returned phrases are not
confined to the seven valid categories. -/
theorem classify_batch_keeps_invalid_category :
    Classify.classify_batch [⟨"prompt", "pos", "it5", "c5"⟩]
      "\x7b\"phrases\": [\x7b\"text\": \"nice\", \"category\": \"bogus\"\x7d]\x7d" =
      [⟨"nice", "bogus", "pos", "it5"⟩] ∧
    Classify.VALID_CATEGORIES.contains "bogus" = false := by
  constructor
  · rfl
  · decide

/-- Helper for C10: every phrase produced by the partial-extraction fallback
carries polarity "pos" and source_id "partial_extraction". -/
theorem extract_partial_phrases_fields (s : String) (p : Classify.ClassifiedPhrase)
    (hp : p ∈ Classify.extract_partial_phrases s) :
    p.polarity = "pos" ∧ p.source_id = "partial_extraction" := by
  simp only [Classify.extract_partial_phrases, List.mem_filterMap] at hp
  obtain ⟨tc, _, htc⟩ := hp
  simp only [Option.ite_none_right_eq_some, Option.some.injEq] at htc
  rw [← htc.2]
  exact ⟨rfl, rfl⟩

/-- C10: every phrase returned by classify_batch on a non-empty batch has
polarity "pos"; its source_id is the first entry's item_id on the validated
path and the literal "partial_extraction" on the salvage path — the actual
polarity and item_id of the worklist entries play no role. -/
theorem classify_batch_polarity_source (first : Classify.WorklistEntry)
    (rest : List Classify.WorklistEntry) (resp : String)
    (p : Classify.ClassifiedPhrase)
    (hp : p ∈ Classify.classify_batch (first :: rest) resp) :
    p.polarity = "pos" ∧
    (p.source_id = first.item_id ∨ p.source_id = "partial_extraction") ∧
    (Classify.isValidated resp = true → p.source_id = first.item_id) ∧
    (Classify.isPartialFallback resp = true →
      p.source_id = "partial_extraction") := by
  unfold Classify.classify_batch at hp
  cases hv : Classify.validate_and_fix_response resp with
  | error e => rw [hv] at hp; simp at hp
  | ok o =>
    cases o with
    | some v =>
      rw [hv] at hp
      simp only [List.mem_map] at hp
      obtain ⟨ph, _, rfl⟩ := hp
      refine ⟨rfl, Or.inl rfl, fun _ => rfl, fun hcontra => ?_⟩
      simp [Classify.isPartialFallback, hv] at hcontra
    | none =>
      rw [hv] at hp
      have hf := extract_partial_phrases_fields resp p hp
      refine ⟨hf.1, Or.inr hf.2, fun hcontra => ?_, fun _ => hf.2⟩
      simp [Classify.isValidated, hv] at hcontra

/-- C10 (witness): the statement instantiated at a concrete one-entry batch
and a concrete validated response. -/
theorem classify_batch_polarity_source_witness :
    (⟨"t", "styles", "pos", "w1"⟩ : Classify.ClassifiedPhrase).polarity = "pos" ∧
    ((⟨"t", "styles", "pos", "w1"⟩ : Classify.ClassifiedPhrase).source_id =
        (⟨"p", "pos", "w1", "c"⟩ : Classify.WorklistEntry).item_id ∨
      (⟨"t", "styles", "pos", "w1"⟩ : Classify.ClassifiedPhrase).source_id =
        "partial_extraction") ∧
    (Classify.isValidated
        "\x7b\"phrases\": [\x7b\"text\": \"t\", \"category\": \"styles\"\x7d]\x7d" = true →
      (⟨"t", "styles", "pos", "w1"⟩ : Classify.ClassifiedPhrase).source_id =
        (⟨"p", "pos", "w1", "c"⟩ : Classify.WorklistEntry).item_id) ∧
    (Classify.isPartialFallback
        "\x7b\"phrases\": [\x7b\"text\": \"t\", \"category\": \"styles\"\x7d]\x7d" = true →
      (⟨"t", "styles", "pos", "w1"⟩ : Classify.ClassifiedPhrase).source_id =
        "partial_extraction") :=
  classify_batch_polarity_source ⟨"p", "pos", "w1", "c"⟩ [] _ _ (by decide)

/-- Helper: dropWhile never lengthens a list. -/
theorem dropWhile_length_le (p : Char → Bool) (l : List Char) :
    (l.dropWhile p).length ≤ l.length := by
  induction l with
  | nil => simp
  | cons c r ih =>
    rw [List.dropWhile_cons]
    split
    · exact le_trans ih (Nat.le_succ _)
    · exact le_refl _

/-- Helper: stripping never lengthens a list. -/
theorem pyStrip_length_le (l : List Char) :
    (Normalize.pyStrip l).length ≤ l.length := by
  unfold Normalize.pyStrip
  calc ((l.dropWhile Normalize.pyIsSpace).reverse.dropWhile Normalize.pyIsSpace).reverse.length
      = ((l.dropWhile Normalize.pyIsSpace).reverse.dropWhile Normalize.pyIsSpace).length := by
        rw [List.length_reverse]
    _ ≤ (l.dropWhile Normalize.pyIsSpace).reverse.length := dropWhile_length_le _ _
    _ = (l.dropWhile Normalize.pyIsSpace).length := by rw [List.length_reverse]
    _ ≤ l.length := dropWhile_length_le _ _

/-- Helper: every character of the stripped list is a character of the list. -/
theorem pyStrip_subset (l : List Char) : ∀ x ∈ Normalize.pyStrip l, x ∈ l := by
  intro x hx
  unfold Normalize.pyStrip at hx
  rw [List.mem_reverse] at hx
  have h1 := (List.dropWhile_sublist (l := (l.dropWhile Normalize.pyIsSpace).reverse)
    (p := Normalize.pyIsSpace)).subset hx
  rw [List.mem_reverse] at h1
  exact (List.dropWhile_sublist (l := l) (p := Normalize.pyIsSpace)).subset h1

/-- Helper: every word produced by str.split() contains no whitespace. -/
theorem pySplitAux_no_ws (l : List Char) :
    ∀ (acc : List Char), (∀ c ∈ acc, Normalize.pyIsSpace c = false) →
      ∀ w ∈ Normalize.pySplitAux l acc, ∀ c ∈ w, Normalize.pyIsSpace c = false := by
  induction l with
  | nil =>
    intro acc hacc w hw c hc
    unfold Normalize.pySplitAux at hw
    split at hw
    · simp at hw
    · rw [List.mem_singleton] at hw
      subst hw
      exact hacc c (List.mem_reverse.mp hc)
  | cons a r ih =>
    intro acc hacc w hw c hc
    unfold Normalize.pySplitAux at hw
    split at hw
    · split at hw
      · exact ih [] (by simp) w hw c hc
      · rcases List.mem_cons.mp hw with h | h
        · subst h
          exact hacc c (List.mem_reverse.mp hc)
        · exact ih [] (by simp) w h c hc
    · rename_i hns
      refine ih (a :: acc) ?_ w hw c hc
      intro x hx
      rcases List.mem_cons.mp hx with h | h
      · subst h
        simpa using hns
      · exact hacc x h

/-- Helper: the invariant of the word-rebuilding loop: accumulated chunks
are within the limit or space-free, and the current chunk is empty, a
single whitespace-free word, or within the limit. -/
theorem phase2Word_ok (max : Nat) (st : List (List Char) × List Char)
    (word : List Char) (hword : ∀ c ∈ word, Normalize.pyIsSpace c = false)
    (hfin : ∀ c ∈ st.1, c.length ≤ max ∨ ' ' ∉ c)
    (hcur : st.2 = [] ∨ (∀ ch ∈ st.2, Normalize.pyIsSpace ch = false) ∨
      st.2.length ≤ max) :
    (∀ c ∈ (Normalize.phase2Word max st word).1, c.length ≤ max ∨ ' ' ∉ c) ∧
    ((Normalize.phase2Word max st word).2 = [] ∨
      (∀ ch ∈ (Normalize.phase2Word max st word).2,
        Normalize.pyIsSpace ch = false) ∨
      (Normalize.phase2Word max st word).2.length ≤ max) := by
  obtain ⟨finals, current⟩ := st
  unfold Normalize.phase2Word
  dsimp only
  split
  · rename_i hcond
    constructor
    · intro c hc
      rcases List.mem_append.mp hc with h | h
      · exact hfin c h
      · rw [List.mem_singleton] at h
        subst h
        rcases hcur with h0 | hnws | hlen
        · exact absurd h0 hcond.1
        · refine Or.inr (fun hsp => ?_)
          have := hnws ' ' (pyStrip_subset _ _ hsp)
          simp [Normalize.pyIsSpace] at this
        · exact Or.inl (le_trans (pyStrip_length_le _) hlen)
    · exact Or.inr (Or.inl hword)
  · rename_i hcond
    split
    · rename_i hne
      refine ⟨hfin, Or.inr (Or.inr ?_)⟩
      dsimp only
      rw [not_and_or] at hcond
      rcases hcond with h | h
      · exact absurd hne h
      · omega
    · exact ⟨hfin, Or.inr (Or.inl hword)⟩

/-- Helper: the invariant carried through the whole word loop. -/
theorem phase2_foldl_ok (max : Nat) (words : List (List Char)) :
    ∀ (st : List (List Char) × List Char),
      (∀ w ∈ words, ∀ c ∈ w, Normalize.pyIsSpace c = false) →
      (∀ c ∈ st.1, c.length ≤ max ∨ ' ' ∉ c) →
      (st.2 = [] ∨ (∀ ch ∈ st.2, Normalize.pyIsSpace ch = false) ∨
        st.2.length ≤ max) →
      (∀ c ∈ (words.foldl (Normalize.phase2Word max) st).1,
        c.length ≤ max ∨ ' ' ∉ c) ∧
      ((words.foldl (Normalize.phase2Word max) st).2 = [] ∨
        (∀ ch ∈ (words.foldl (Normalize.phase2Word max) st).2,
          Normalize.pyIsSpace ch = false) ∨
        (words.foldl (Normalize.phase2Word max) st).2.length ≤ max) := by
  induction words with
  | nil => intro st _ h1 h2; exact ⟨h1, h2⟩
  | cons w rest ih =>
    intro st hwords h1 h2
    rw [List.foldl_cons]
    have hw := hwords w (List.mem_cons_self _ _)
    have step := phase2Word_ok max st w hw h1 h2
    exact ih _ (fun x hx => hwords x (List.mem_cons_of_mem _ hx)) step.1 step.2

/-- Helper: phase2Chunk only ever appends chunks that are within the limit
or contain no space. -/
theorem phase2Chunk_ok (max : Nat) (finals : List (List Char))
    (chunk : List Char) (hfin : ∀ c ∈ finals, c.length ≤ max ∨ ' ' ∉ c) :
    ∀ c ∈ Normalize.phase2Chunk max finals chunk,
      c.length ≤ max ∨ ' ' ∉ c := by
  intro c hc
  unfold Normalize.phase2Chunk at hc
  split at hc
  · rcases List.mem_append.mp hc with h | h
    · exact hfin c h
    · rw [List.mem_singleton] at h
      subst h
      exact Or.inl (by assumption)
  · have hwords := pySplitAux_no_ws chunk [] (by simp)
    have hfold := phase2_foldl_ok max (Normalize.pySplit chunk) (finals, [])
      (fun w hw => hwords w hw) hfin (Or.inl rfl)
    dsimp only at hc
    split at hc
    · rcases List.mem_append.mp hc with h | h
      · exact hfold.1 c h
      · rw [List.mem_singleton] at h
        subst h
        rcases hfold.2 with h0 | hnws | hlen
        · rename_i hne
          rw [h0] at hne
          exact absurd rfl hne
        · refine Or.inr (fun hsp => ?_)
          have := hnws ' ' (pyStrip_subset _ _ hsp)
          simp [Normalize.pyIsSpace] at this
        · exact Or.inl (le_trans (pyStrip_length_le _) hlen)
    · exact hfold.1 c hc

/-- Helper: the chunk invariant survives folding phase2Chunk over all
phase-1 chunks. -/
theorem phase2_chunks_ok (max : Nat) (chunks : List (List Char)) :
    ∀ (finals : List (List Char)),
      (∀ c ∈ finals, c.length ≤ max ∨ ' ' ∉ c) →
      ∀ c ∈ chunks.foldl (Normalize.phase2Chunk max) finals,
        c.length ≤ max ∨ ' ' ∉ c := by
  induction chunks with
  | nil => intro finals h c hc; exact h c hc
  | cons ch rest ih =>
    intro finals h c hc
    rw [List.foldl_cons] at hc
    exact ih _ (phase2Chunk_ok max finals ch h) c hc

/-- C8: every chunk produced by chunk_long_prompt is within maxLength or is
a single unsplittable word containing no space. -/
theorem chunk_long_prompt_bound (t : List Char) (max : Nat) (hmax : 0 < max)
    (c : List Char) (hc : c ∈ Normalize.chunk_long_prompt t max) :
    c.length ≤ max ∨ ' ' ∉ c := by
  unfold Normalize.chunk_long_prompt at hc
  split at hc
  · simp at hc
  · split at hc
    · rw [List.mem_singleton] at hc
      subst hc
      exact Or.inl (by assumption)
    · dsimp only at hc
      have := List.mem_filter.mp hc
      exact phase2_chunks_ok max _ [] (by simp) c this.1

/-- C8 (witness): the chunking bound at the concrete text "a,b;c" with
maxLength 1 and the concrete chunk consisting of the letter a. -/
theorem chunk_long_prompt_bound_witness :
    ([ 'a' ] : List Char).length ≤ 1 ∨ ' ' ∉ ([ 'a' ] : List Char) :=
  chunk_long_prompt_bound "a,b;c".toList 1 (by decide) [ 'a' ] (by decide)

/-- Helper: membership in the set-insert model. -/
theorem mem_addToSet (l : List String) (y x : String) :
    x ∈ Writeout.addToSet l y ↔ x ∈ l ∨ x = y := by
  unfold Writeout.addToSet
  split
  · rename_i h
    constructor
    · exact Or.inl
    · rintro (hx | rfl)
      · exact hx
      · simpa using h
  · simp

/-- Helper: membership after folding set-inserts. -/
theorem foldl_addToSet_mem (l : List String) :
    ∀ (acc : List String) (x : String),
      x ∈ l.foldl Writeout.addToSet acc ↔ x ∈ acc ∨ x ∈ l := by
  induction l with
  | nil => simp
  | cons a r ih =>
    intro acc x
    rw [List.foldl_cons, ih, mem_addToSet]
    constructor
    · rintro ((h | rfl) | h)
      · exact Or.inl h
      · exact Or.inr (List.mem_cons_self _ _)
      · exact Or.inr (List.mem_cons_of_mem _ h)
    · rintro (h | h)
      · exact Or.inl (Or.inl h)
      · rcases List.mem_cons.mp h with rfl | h
        · exact Or.inl (Or.inr rfl)
        · exact Or.inr h

/-- Helper: orderedDedup has the same members as its input. -/
theorem orderedDedup_mem (l : List String) (x : String) :
    x ∈ Writeout.orderedDedup l ↔ x ∈ l := by
  unfold Writeout.orderedDedup
  rw [foldl_addToSet_mem]
  simp

/-- Helper: appending one element inserts it into the ordered dedup. -/
theorem orderedDedup_append (l : List String) (x : String) :
    Writeout.orderedDedup (l ++ [x]) =
      Writeout.addToSet (Writeout.orderedDedup l) x := by
  unfold Writeout.orderedDedup
  rw [List.foldl_append]
  rfl

/-- Helper: orderedDedup of a non-empty list is non-empty. -/
theorem orderedDedup_ne_nil (l : List String) (h : l ≠ []) :
    Writeout.orderedDedup l ≠ [] := by
  match l, h with
  | a :: r, _ =>
    intro hnil
    have : a ∈ Writeout.orderedDedup (a :: r) :=
      (orderedDedup_mem _ _).mpr (List.mem_cons_self _ _)
    rw [hnil] at this
    simp at this

/-- Helper: a singleton ordered dedup means every member equals it. -/
theorem orderedDedup_singleton (l : List String) (x : String)
    (h : Writeout.orderedDedup l = [x]) : ∀ y ∈ l, y = x := by
  intro y hy
  have := (orderedDedup_mem l y).mpr hy
  rw [h] at this
  simpa using this

/-- Helper: contributing phrases of one more processed phrase. -/
theorem contributing_append (l : List Classify.ClassifiedPhrase)
    (p : Classify.ClassifiedPhrase) (k : String) :
    Writeout.contributing (l ++ [p]) k =
      Writeout.contributing l k ++
        (if (Classify.pyStripStr p.text != "") &&
            (Writeout.pyLower (Classify.pyStripStr p.text) == k) then [p]
         else []) := by
  unfold Writeout.contributing
  rw [List.filter_append]
  congr 1
  rw [List.filter_cons, List.filter_nil]

/-- Helper: dedupe_step in the merge case (key already present). -/
theorem dedupe_step_eq_update (groups : List (String × Writeout.Group))
    (p : Classify.ClassifiedPhrase)
    (htext : Classify.pyStripStr p.text ≠ "")
    (hany : groups.any
      (fun g => g.1 == Writeout.pyLower (Classify.pyStripStr p.text)) = true) :
    Writeout.dedupe_step groups p = groups.map (fun g =>
      if g.1 == Writeout.pyLower (Classify.pyStripStr p.text) then
        (g.1, ⟨g.2.text, g.2.category,
               Writeout.addToSet g.2.polarities p.polarity,
               Writeout.addToSet g.2.sources p.source_id, g.2.count + 1⟩)
      else g) := by
  unfold Writeout.dedupe_step
  rw [if_neg htext, if_pos hany]

/-- Helper: dedupe_step in the fresh-group case (key absent). -/
theorem dedupe_step_eq_new (groups : List (String × Writeout.Group))
    (p : Classify.ClassifiedPhrase)
    (htext : Classify.pyStripStr p.text ≠ "")
    (hany : ¬ groups.any
      (fun g => g.1 == Writeout.pyLower (Classify.pyStripStr p.text)) = true) :
    Writeout.dedupe_step groups p = groups ++
      [(Writeout.pyLower (Classify.pyStripStr p.text),
        ⟨Classify.pyStripStr p.text, p.category, [p.polarity], [p.source_id], 1⟩)] := by
  unfold Writeout.dedupe_step
  rw [if_neg htext, if_neg hany]

/-- Helper: dedupe_step skips phrases with empty stripped text. -/
theorem dedupe_step_eq_skip (groups : List (String × Writeout.Group))
    (p : Classify.ClassifiedPhrase)
    (htext : Classify.pyStripStr p.text = "") :
    Writeout.dedupe_step groups p = groups := by
  unfold Writeout.dedupe_step
  rw [if_pos htext]

/-- Helper: processing one phrase appends it to the contributing list of its
key and leaves every other key's contributing list unchanged. -/
theorem contributing_append_cases (processed : List Classify.ClassifiedPhrase)
    (p : Classify.ClassifiedPhrase) (k : String)
    (htext : Classify.pyStripStr p.text ≠ "") :
    Writeout.contributing (processed ++ [p]) k =
      Writeout.contributing processed k ++
        (if Writeout.pyLower (Classify.pyStripStr p.text) = k then [p] else []) := by
  rw [contributing_append]
  congr 1
  have h1 : (Classify.pyStripStr p.text != "") = true := by
    simpa using htext
  rw [h1, Bool.true_and]
  by_cases hk : Writeout.pyLower (Classify.pyStripStr p.text) = k
  · simp [hk]
  · simp [hk]

/-- Helper: processing a phrase with empty stripped text changes no
contributing list. -/
theorem contributing_append_empty (processed : List Classify.ClassifiedPhrase)
    (p : Classify.ClassifiedPhrase) (k : String)
    (htext : Classify.pyStripStr p.text = "") :
    Writeout.contributing (processed ++ [p]) k =
      Writeout.contributing processed k := by
  rw [contributing_append]
  have h1 : (Classify.pyStripStr p.text != "") = false := by simp [htext]
  rw [h1]
  simp

/-- Helper: the dedupe loop invariant is preserved by one step. -/
theorem dedupe_step_inv (processed : List Classify.ClassifiedPhrase)
    (groups : List (String × Writeout.Group)) (p : Classify.ClassifiedPhrase)
    (hinv : Writeout.GroupInv processed groups) :
    Writeout.GroupInv (processed ++ [p]) (Writeout.dedupe_step groups p) := by
  obtain ⟨hlen, habsent, hgroups⟩ := hinv
  by_cases htext : Classify.pyStripStr p.text = ""
  · rw [dedupe_step_eq_skip groups p htext]
    refine ⟨le_trans hlen (by simp), ?_, ?_⟩
    · intro k hk
      rw [contributing_append_empty processed p k htext]
      exact habsent k hk
    · intro kg hkg
      obtain ⟨first, rest, hc, h2, h3, h4, h5, h6⟩ := hgroups kg hkg
      exact ⟨first, rest,
        by rw [contributing_append_empty processed p kg.1 htext]; exact hc,
        h2, h3, h4, h5, h6⟩
  · by_cases hany : groups.any
      (fun g => g.1 == Writeout.pyLower (Classify.pyStripStr p.text)) = true
    · rw [dedupe_step_eq_update groups p htext hany]
      refine ⟨by simpa using le_trans hlen (by simp), ?_, ?_⟩
      · intro k hk
        obtain ⟨gw, hgw_mem, hgw_eq⟩ := List.any_eq_true.mp hany
        have hgwkey : gw.1 = Writeout.pyLower (Classify.pyStripStr p.text) :=
          by simpa using hgw_eq
        have hkne : Writeout.pyLower (Classify.pyStripStr p.text) ≠ k := by
          intro hkk
          have := hk _ (List.mem_map_of_mem _ hgw_mem)
          rw [hgwkey, hkk] at this
          simp at this
        rw [contributing_append_cases processed p k htext, if_neg hkne,
          List.append_nil]
        refine habsent k ?_
        intro g hg
        have := hk _ (List.mem_map_of_mem _ hg)
        by_cases hgkey : g.1 == Writeout.pyLower (Classify.pyStripStr p.text)
        · rw [if_pos hgkey] at this
          simpa using this
        · rw [if_neg hgkey] at this
          exact this
      · intro kg' hkg'
        obtain ⟨kg, hkg_mem, hkg_eq⟩ := List.mem_map.mp hkg'
        obtain ⟨first, rest, hc, h2, h3, h4, h5, h6⟩ := hgroups kg hkg_mem
        by_cases hkey : kg.1 == Writeout.pyLower (Classify.pyStripStr p.text)
        · rw [if_pos hkey] at hkg_eq
          subst hkg_eq
          have hkeq : kg.1 = Writeout.pyLower (Classify.pyStripStr p.text) :=
            by simpa using hkey
          refine ⟨first, rest ++ [p], ?_, h2, h3, ?_, ?_, ?_⟩
          · rw [contributing_append_cases processed p kg.1 htext,
              if_pos hkeq.symm, hc]
            rfl
          · show Writeout.addToSet kg.2.polarities p.polarity = _
            rw [h4]
            rw [← orderedDedup_append]
            congr 1
            simp
          · show Writeout.addToSet kg.2.sources p.source_id = _
            rw [h5]
            rw [← orderedDedup_append]
            congr 1
            simp
          · show kg.2.count + 1 = _
            rw [h6]
            simp
        · rw [if_neg hkey] at hkg_eq
          subst hkg_eq
          have hkne : Writeout.pyLower (Classify.pyStripStr p.text) ≠ kg.1 := by
            intro hkk
            exact hkey (by simp [hkk])
          refine ⟨first, rest, ?_, h2, h3, h4, h5, h6⟩
          rw [contributing_append_cases processed p kg.1 htext, if_neg hkne,
            List.append_nil]
          exact hc
    · rw [dedupe_step_eq_new groups p htext hany]
      have hall : ∀ g ∈ groups,
          g.1 ≠ Writeout.pyLower (Classify.pyStripStr p.text) := by
        intro g hg hgk
        exact hany (List.any_eq_true.mpr ⟨g, hg, by simp [hgk]⟩)
      refine ⟨by simpa using Nat.add_le_add_right hlen 1, ?_, ?_⟩
      · intro k hk
        have hkne : Writeout.pyLower (Classify.pyStripStr p.text) ≠ k := by
          intro hkk
          have := hk _ (List.mem_append_right _ (List.mem_singleton_self _))
          exact this (by simpa using hkk)
        rw [contributing_append_cases processed p k htext, if_neg hkne,
          List.append_nil]
        exact habsent k (fun g hg => hk g (List.mem_append_left _ hg))
      · intro kg hkg
        rcases List.mem_append.mp hkg with hmem | hmem
        · obtain ⟨first, rest, hc, h2, h3, h4, h5, h6⟩ := hgroups kg hmem
          refine ⟨first, rest, ?_, h2, h3, h4, h5, h6⟩
          rw [contributing_append_cases processed p kg.1 htext,
            if_neg (fun hkk => hall kg hmem hkk.symm), List.append_nil]
          exact hc
        · rw [List.mem_singleton] at hmem
          subst hmem
          refine ⟨p, [], ?_, rfl, rfl, rfl, rfl, rfl⟩
          rw [contributing_append_cases processed p _ htext, if_pos rfl,
            habsent _ hall]
          rfl

/-- Helper: the dedupe loop invariant holds after folding over any phrase
list. -/
theorem dedupe_foldl_inv (phrases : List Classify.ClassifiedPhrase) :
    ∀ (processed : List Classify.ClassifiedPhrase)
      (groups : List (String × Writeout.Group)),
      Writeout.GroupInv processed groups →
      Writeout.GroupInv (processed ++ phrases)
        (phrases.foldl Writeout.dedupe_step groups) := by
  induction phrases with
  | nil => intro processed groups h; simpa using h
  | cons p rest ih =>
    intro processed groups h
    rw [List.foldl_cons,
      show processed ++ p :: rest = (processed ++ [p]) ++ rest by simp]
    exact ih (processed ++ [p]) (Writeout.dedupe_step groups p)
      (dedupe_step_inv processed groups p h)

/-- C6 (amended theorem): dedupe returns at most one record per input
phrase; each record's text and category come from the first contributing
occurrence, its sources are exactly the union of contributing source ids,
its count is the number of contributing occurrences, its polarity is
"mixed" exactly when the contributing polarities have more than one
distinct value or the single distinct value is itself "mixed", and with a
single distinct contributing polarity the record keeps the first
occurrence's polarity. -/
theorem dedupe_phrases_spec (phrases : List Classify.ClassifiedPhrase)
    (g : Writeout.DedupedPhrase) (hg : g ∈ Writeout.dedupe_phrases phrases) :
    (Writeout.dedupe_phrases phrases).length ≤ phrases.length ∧
    ∃ first rest,
      Writeout.contributing phrases (Writeout.pyLower g.text) = first :: rest ∧
      g.text = Classify.pyStripStr first.text ∧
      g.category = first.category ∧
      (∀ s, s ∈ g.sources ↔ s ∈ (first :: rest).map (fun p => p.source_id)) ∧
      g.count = (first :: rest).length ∧
      (g.polarity = "mixed" ↔
        1 < (Writeout.orderedDedup
              ((first :: rest).map (fun p => p.polarity))).length ∨
        Writeout.orderedDedup ((first :: rest).map (fun p => p.polarity)) =
          ["mixed"]) ∧
      ((Writeout.orderedDedup
          ((first :: rest).map (fun p => p.polarity))).length = 1 →
        g.polarity = first.polarity) := by
  have hinit : Writeout.GroupInv [] [] := by
    refine ⟨le_refl _, fun k _ => rfl, fun kg h => absurd h (by simp)⟩
  have hinv := dedupe_foldl_inv phrases [] [] hinit
  rw [List.nil_append] at hinv
  obtain ⟨hlen, habsent, hgroups⟩ := hinv
  constructor
  · exact le_trans (List.length_filterMap_le _ _) hlen
  · unfold Writeout.dedupe_phrases at hg
    rw [List.mem_filterMap] at hg
    obtain ⟨kg, hkg_mem, hkg_eq⟩ := hg
    obtain ⟨first, rest, hc, h2, h3, h4, h5, h6⟩ := hgroups kg hkg_mem
    split at hkg_eq
    · exact absurd hkg_eq (by simp)
    · rw [Option.some.injEq] at hkg_eq
      subst hkg_eq
      have hfirst_mem : first ∈ Writeout.contributing phrases kg.1 := by
        rw [hc]; exact List.mem_cons_self _ _
      have hpred := (List.mem_filter.mp hfirst_mem).2
      rw [Bool.and_eq_true] at hpred
      have hkey : Writeout.pyLower (Classify.pyStripStr first.text) = kg.1 := by
        simpa using hpred.2
      refine ⟨first, rest, ?_, h2, h3, ?_, h6, ?_, ?_⟩
      · show Writeout.contributing phrases (Writeout.pyLower kg.2.text) =
          first :: rest
        rw [h2, hkey]
        exact hc
      · intro s
        show s ∈ kg.2.sources ↔ _
        rw [h5, orderedDedup_mem]
      · show (if kg.2.polarities.length = 1 then kg.2.polarities.headD ""
              else "mixed") = "mixed" ↔ _
        rw [h4]
        have hne : Writeout.orderedDedup
            ((first :: rest).map (fun p => p.polarity)) ≠ [] :=
          orderedDedup_ne_nil _ (by simp)
        by_cases hD : (Writeout.orderedDedup
            ((first :: rest).map (fun p => p.polarity))).length = 1
        · obtain ⟨x, hx⟩ := List.length_eq_one.mp hD
          rw [if_pos hD, hx]
          have hfx : first.polarity = x := by
            refine orderedDedup_singleton _ x hx first.polarity ?_
            simp
          constructor
          · intro hmx
            refine Or.inr ?_
            simpa using hmx
          · rintro (hlt | hsing)
            · simp at hlt
            · simpa using hsing
        · rw [if_neg hD]
          have hpos : 0 < (Writeout.orderedDedup
              ((first :: rest).map (fun p => p.polarity))).length :=
            List.length_pos.mpr hne
          constructor
          · intro _
            exact Or.inl (by omega)
          · intro _
            rfl
      · intro hD
        show (if kg.2.polarities.length = 1 then kg.2.polarities.headD ""
              else "mixed") = first.polarity
        rw [h4, if_pos hD]
        obtain ⟨x, hx⟩ := List.length_eq_one.mp hD
        have hfx : first.polarity = x := by
          refine orderedDedup_singleton _ x hx first.polarity ?_
          simp
        rw [hx, hfx]
        rfl

/-- C6 (counterexample): a single phrase whose polarity is literally
"mixed" yields a group whose polarity is "mixed" although its contributing
polarities have exactly one distinct value — the claimed equivalence
(polarity "mixed" iff more than one distinct value) fails. -/
theorem dedupe_phrases_mixed_counterexample :
    Writeout.dedupe_phrases [⟨"x", "subjects", "mixed", "s1"⟩] =
      [⟨"x", "subjects", "mixed", ["s1"], 1⟩] ∧
    ¬ (("mixed" : String) = "mixed" ↔
        1 < (Writeout.orderedDedup
          ((Writeout.contributing [⟨"x", "subjects", "mixed", "s1"⟩] "x").map
            (fun p => p.polarity))).length) := by
  constructor
  · rfl
  · decide

/-- C6 (witness): the amended statement at the concrete list with phrases
"Cat" and "cat" of different polarities and sources. -/
theorem dedupe_phrases_spec_witness :
    (Writeout.dedupe_phrases [⟨"Cat", "subjects", "pos", "s1"⟩,
        ⟨"cat", "subjects", "neg", "s2"⟩]).length ≤
      ([⟨"Cat", "subjects", "pos", "s1"⟩,
        ⟨"cat", "subjects", "neg", "s2"⟩] : List Classify.ClassifiedPhrase).length ∧
    ∃ first rest,
      Writeout.contributing [⟨"Cat", "subjects", "pos", "s1"⟩,
          ⟨"cat", "subjects", "neg", "s2"⟩]
        (Writeout.pyLower (⟨"Cat", "subjects", "mixed", ["s1", "s2"], 2⟩ :
          Writeout.DedupedPhrase).text) = first :: rest ∧
      (⟨"Cat", "subjects", "mixed", ["s1", "s2"], 2⟩ :
        Writeout.DedupedPhrase).text = Classify.pyStripStr first.text ∧
      (⟨"Cat", "subjects", "mixed", ["s1", "s2"], 2⟩ :
        Writeout.DedupedPhrase).category = first.category ∧
      (∀ s, s ∈ (⟨"Cat", "subjects", "mixed", ["s1", "s2"], 2⟩ :
          Writeout.DedupedPhrase).sources ↔
        s ∈ (first :: rest).map (fun p => p.source_id)) ∧
      (⟨"Cat", "subjects", "mixed", ["s1", "s2"], 2⟩ :
        Writeout.DedupedPhrase).count = (first :: rest).length ∧
      ((⟨"Cat", "subjects", "mixed", ["s1", "s2"], 2⟩ :
          Writeout.DedupedPhrase).polarity = "mixed" ↔
        1 < (Writeout.orderedDedup
              ((first :: rest).map (fun p => p.polarity))).length ∨
        Writeout.orderedDedup ((first :: rest).map (fun p => p.polarity)) =
          ["mixed"]) ∧
      ((Writeout.orderedDedup
          ((first :: rest).map (fun p => p.polarity))).length = 1 →
        (⟨"Cat", "subjects", "mixed", ["s1", "s2"], 2⟩ :
          Writeout.DedupedPhrase).polarity = first.polarity) :=
  dedupe_phrases_spec _ _ (by decide)


namespace Normalize

theorem dropOneSpace_cons_ne (c : Char) (r : List Char) (h : c ≠ ' ') :
    dropOneSpace (c :: r) = c :: r := by
  unfold dropOneSpace
  split
  · rename_i heq
    cases heq
    exact absurd rfl h
  · rfl

theorem subPunctGo_nil_pend (p : Char) (ws : List Char) :
    subPunctGo p [] (SubSt.pend ws) = ws.reverse := rfl

theorem subPunctGo_nil_swallow (p : Char) :
    subPunctGo p [] SubSt.swallow = [] := rfl

theorem subPunctGo_pend_ws (p c : Char) (rest ws : List Char)
    (h : pyIsSpace c = true) :
    subPunctGo p (c :: rest) (SubSt.pend ws) =
      subPunctGo p rest (SubSt.pend (c :: ws)) := by
  simp [subPunctGo, h]

theorem subPunctGo_pend_p (p : Char) (rest ws : List Char)
    (h : pyIsSpace p = false) :
    subPunctGo p (p :: rest) (SubSt.pend ws) =
      p :: ' ' :: subPunctGo p rest SubSt.swallow := by
  simp [subPunctGo, h]

theorem subPunctGo_pend_other (p c : Char) (rest ws : List Char)
    (h : pyIsSpace c = false) (hcp : c ≠ p) :
    subPunctGo p (c :: rest) (SubSt.pend ws) =
      ws.reverse ++ c :: subPunctGo p rest (SubSt.pend []) := by
  simp [subPunctGo, h, hcp]

theorem subPunctGo_swallow_ws (p c : Char) (rest : List Char)
    (h : pyIsSpace c = true) :
    subPunctGo p (c :: rest) SubSt.swallow =
      subPunctGo p rest SubSt.swallow := by
  simp [subPunctGo, h]

theorem subPunctGo_swallow_p (p : Char) (rest : List Char)
    (h : pyIsSpace p = false) :
    subPunctGo p (p :: rest) SubSt.swallow =
      p :: ' ' :: subPunctGo p rest SubSt.swallow := by
  simp [subPunctGo, h]

theorem subPunctGo_swallow_other (p c : Char) (rest : List Char)
    (h : pyIsSpace c = false) (hcp : c ≠ p) :
    subPunctGo p (c :: rest) SubSt.swallow =
      c :: subPunctGo p rest (SubSt.pend []) := by
  simp [subPunctGo, h, hcp]

theorem Msub_nil (p : Char) : Msub p [] = [] := by
  conv_lhs => rw [Msub.eq_def]

theorem Msub_space_p (p : Char) (rest : List Char) :
    Msub p (' ' :: p :: rest) = p :: ' ' :: Msub p (dropOneSpace rest) := by
  conv_lhs => rw [Msub.eq_def]
  simp

theorem Msub_space_other (p c : Char) (rest : List Char) (hcp : c ≠ p) :
    Msub p (' ' :: c :: rest) = ' ' :: Msub p (c :: rest) := by
  conv_lhs => rw [Msub.eq_def]
  simp [hcp]

theorem Msub_cons_p (p : Char) (rest : List Char) (hp' : p ≠ ' ') :
    Msub p (p :: rest) = p :: ' ' :: Msub p (dropOneSpace rest) := by
  conv_lhs => rw [Msub.eq_def]
  cases rest with
  | nil => simp
  | cons d rr => simp [hp', Ne.symm hp']

theorem Msub_cons_other (p c : Char) (rest : List Char) (hc : c ≠ ' ')
    (hcp : c ≠ p) :
    Msub p (c :: rest) = c :: Msub p rest := by
  conv_lhs => rw [Msub.eq_def]
  cases rest with
  | nil => simp [hcp]
  | cons d rr => simp [hc, Ne.symm hc, hcp]

theorem Msub_single_space (p : Char) (hp' : p ≠ ' ') :
    Msub p [' '] = [' '] := by
  conv_lhs => rw [Msub.eq_def]
  simp [Ne.symm hp', Msub_nil]

theorem subPunctGo_eq_Msub (p : Char) (hp : pyIsSpace p = false) :
    ∀ (n : Nat) (u : List Char) (prev : Option Char), u.length ≤ n →
      scan wsF prev u = true →
      subPunctGo p u (SubSt.pend []) = Msub p u ∧
      subPunctGo p u SubSt.swallow = Msub p (dropOneSpace u) := by
  have hpne : p ≠ ' ' := by
    intro h
    rw [h] at hp
    simp [pyIsSpace] at hp
  intro n
  induction n with
  | zero =>
    intro u prev hlen hscan
    cases u with
    | nil =>
      refine ⟨?_, ?_⟩
      · rw [Msub_nil]
        rfl
      · show subPunctGo p [] SubSt.swallow = Msub p []
        rw [Msub_nil]
        rfl
    | cons c rest => simp at hlen
  | succ n ih =>
    intro u prev hlen hscan
    cases u with
    | nil =>
      refine ⟨?_, ?_⟩
      · rw [Msub_nil]
        rfl
      · show subPunctGo p [] SubSt.swallow = Msub p []
        rw [Msub_nil]
        rfl
    | cons c rest =>
      have hscan' := hscan
      simp only [scan, Bool.and_eq_true] at hscan'
      obtain ⟨hw, hs'⟩ := hscan'
      have hrlen : rest.length ≤ n := by
        simp at hlen
        omega
      by_cases hcw : pyIsSpace c = true
      · rw [wsF.eq_def] at hw
        rw [if_pos hcw] at hw
        simp only [Bool.and_eq_true, beq_iff_eq] at hw
        obtain ⟨⟨hceq, hpsome⟩, hnext⟩ := hw
        subst hceq
        cases rest with
        | nil =>
          refine ⟨?_, ?_⟩
          · rw [Msub_single_space p hpne]
            rfl
          · show subPunctGo p [' '] SubSt.swallow = Msub p []
            rw [Msub_nil]
            rfl
        | cons d rest2 =>
          have hd : pyIsSpace d = false := by
            simpa using hnext
          have hdsp : d ≠ ' ' := by
            intro h
            rw [h] at hd
            simp [pyIsSpace] at hd
          have hs2 : scan wsF (some d) rest2 = true := by
            simp only [scan, Bool.and_eq_true] at hs'
            exact hs'.2
          have hlen2 : rest2.length ≤ n := by
            simp at hlen
            omega
          by_cases hdp : d = p
          · subst hdp
            have ihs := (ih rest2 (some d) hlen2 hs2).2
            refine ⟨?_, ?_⟩
            · rw [subPunctGo_pend_ws d ' ' (d :: rest2) [] hcw,
                subPunctGo_pend_p d rest2 [' '] hp, ihs,
                Msub_space_p d rest2]
            · rw [subPunctGo_swallow_ws d ' ' (d :: rest2) hcw,
                subPunctGo_swallow_p d rest2 hp, ihs]
              show _ = Msub d (d :: rest2)
              rw [Msub_cons_p d rest2 hpne]
          · have ihp := (ih rest2 (some d) hlen2 hs2).1
            refine ⟨?_, ?_⟩
            · rw [subPunctGo_pend_ws p ' ' (d :: rest2) [] hcw,
                subPunctGo_pend_other p d rest2 [' '] hd hdp, ihp,
                Msub_space_other p d rest2 hdp,
                Msub_cons_other p d rest2 hdsp hdp]
              rfl
            · rw [subPunctGo_swallow_ws p ' ' (d :: rest2) hcw,
                subPunctGo_swallow_other p d rest2 hd hdp, ihp]
              show _ = Msub p (d :: rest2)
              rw [Msub_cons_other p d rest2 hdsp hdp]
      · have hcwf : pyIsSpace c = false := by
          simpa using hcw
        have hcsp : c ≠ ' ' := by
          intro h
          rw [h] at hcwf
          simp [pyIsSpace] at hcwf
        by_cases hcp : c = p
        · subst hcp
          have ihs := (ih rest (some c) hrlen hs').2
          refine ⟨?_, ?_⟩
          · rw [subPunctGo_pend_p c rest [] hcwf, ihs,
              Msub_cons_p c rest hpne]
          · rw [subPunctGo_swallow_p c rest hcwf, ihs,
              dropOneSpace_cons_ne c rest hpne,
              Msub_cons_p c rest hpne]
        · have ihp := (ih rest (some c) hrlen hs').1
          refine ⟨?_, ?_⟩
          · rw [subPunctGo_pend_other p c rest [] hcwf hcp, ihp,
              Msub_cons_other p c rest hcsp hcp]
            rfl
          · rw [subPunctGo_swallow_other p c rest hcwf hcp, ihp,
              dropOneSpace_cons_ne c rest hcsp,
              Msub_cons_other p c rest hcsp hcp]

end Normalize

namespace Normalize

/-- Head of the output of one Msub pass, as a function of the first two
input characters (for a mark p that is not the space). -/
def mheadM (p : Char) : List Char → Option Char
  | ' ' :: c :: _ => some (if c = p then p else ' ')
  | c :: _ => some (if c = p then p else c)
  | [] => none

theorem Msub_head (p : Char) (hp' : p ≠ ' ') (u : List Char) :
    (Msub p u).head? = mheadM p u := by
  match u with
  | [] => rw [Msub_nil]; rfl
  | [' '] =>
    rw [Msub_single_space p hp']
    simp [mheadM, Ne.symm hp']
  | ' ' :: c :: rest =>
    by_cases hcp : c = p
    · subst hcp
      rw [Msub_space_p c rest]
      simp [mheadM]
    · rw [Msub_space_other p c rest hcp]
      simp [mheadM, hcp]
  | c :: d :: rest =>
    by_cases hcs : c = ' '
    · subst hcs
      by_cases hdp : d = p
      · subst hdp
        rw [Msub_space_p d rest]
        simp [mheadM]
      · rw [Msub_space_other p d rest hdp]
        simp [mheadM, hdp]
    · by_cases hcp : c = p
      · subst hcp
        rw [Msub_cons_p c (d :: rest) hp']
        simp [mheadM, hcs]
      · rw [Msub_cons_other p c (d :: rest) hcs hcp]
        simp [mheadM, hcs, hcp]
  | [c] =>
    by_cases hcs : c = ' '
    · subst hcs
      rw [Msub_single_space p hp']
      simp [mheadM, Ne.symm hp']
    · by_cases hcp : c = p
      · subst hcp
        rw [Msub_cons_p c [] hp']
        simp [mheadM, hcs]
      · rw [Msub_cons_other p c [] hcs hcp]
        simp [mheadM, hcs, hcp]

theorem scan_cons (f : Option Char → Char → Option Char → Bool)
    (pv : Option Char) (c : Char) (rest : List Char) :
    scan f pv (c :: rest) = (f pv c rest.head? && scan f (some c) rest) := rfl

theorem scan_cons_elim (f : Option Char → Char → Option Char → Bool)
    (pv : Option Char) (c : Char) (rest : List Char)
    (h : scan f pv (c :: rest) = true) :
    f pv c rest.head? = true ∧ scan f (some c) rest = true := by
  rw [scan_cons, Bool.and_eq_true] at h
  exact h

theorem scan_mono (f g : Option Char → Char → Option Char → Bool)
    (hfg : ∀ pv c nx, f pv c nx = true → g pv c nx = true) :
    ∀ (l : List Char) (pv : Option Char), scan f pv l = true →
      scan g pv l = true := by
  intro l
  induction l with
  | nil => intro pv _; rfl
  | cons c rest ih =>
    intro pv h
    obtain ⟨hw, hs⟩ := scan_cons_elim f pv c rest h
    rw [scan_cons, Bool.and_eq_true]
    exact ⟨hfg pv c rest.head? hw, ih (some c) hs⟩

/-- Scans whose window condition only weakens when the right context
disappears restrict to prefixes. -/
theorem scan_prefix (f : Option Char → Char → Option Char → Bool)
    (hwk : ∀ pv c d, f pv c (some d) = true → f pv c none = true) :
    ∀ (w s : List Char) (pv : Option Char), scan f pv (w ++ s) = true →
      scan f pv w = true := by
  intro w
  induction w with
  | nil => intro s pv _; rfl
  | cons c w2 ih =>
    intro s pv h
    rw [List.cons_append] at h
    obtain ⟨hw, hs⟩ := scan_cons_elim f pv c (w2 ++ s) h
    rw [scan_cons, Bool.and_eq_true]
    refine ⟨?_, ih s (some c) hs⟩
    cases w2 with
    | nil =>
      cases s with
      | nil => exact hw
      | cons d s2 => exact hwk pv c d (by simpa using hw)
    | cons e w3 => simpa using hw

theorem wsF_elim (pv : Option Char) (c : Char) (nx : Option Char)
    (h : wsF pv c nx = true) (hc : pyIsSpace c = true) :
    c = ' ' ∧ pv.isSome = true ∧ ∀ d, nx = some d → pyIsSpace d = false := by
  rw [wsF.eq_def, if_pos hc] at h
  simp only [Bool.and_eq_true, beq_iff_eq] at h
  refine ⟨h.1.1, h.1.2, ?_⟩
  intro d hd
  rw [hd] at h
  simpa using h.2

theorem scan_wsF_not_tab (pv : Option Char) (c : Char) (rest : List Char)
    (h : scan wsF pv (c :: rest) = true) (hc : c ≠ ' ') :
    pyIsSpace c = false := by
  obtain ⟨hw, _⟩ := scan_cons_elim wsF pv c rest h
  by_cases hws : pyIsSpace c = true
  · exact absurd (wsF_elim pv c rest.head? hw hws).1 hc
  · simpa using hws

theorem scan_wsF_onlySp :
    ∀ (l : List Char) (pv : Option Char), scan wsF pv l = true →
      ∀ c ∈ l, pyIsSpace c = true → c = ' ' := by
  intro l
  induction l with
  | nil => intro pv _ c hc; simp at hc
  | cons a rest ih =>
    intro pv h c hc hcs
    obtain ⟨hw, hs⟩ := scan_cons_elim wsF pv a rest h
    rcases List.mem_cons.mp hc with hca | hcr
    · subst hca
      exact (wsF_elim pv c rest.head? hw hcs).1
    · exact ih (some a) hs c hcr hcs

theorem scan_wsF_head (l : List Char) (c : Char)
    (h : scan wsF none l = true) (hc : l.head? = some c) :
    pyIsSpace c = false := by
  cases l with
  | nil => simp at hc
  | cons a rest =>
    obtain ⟨hw, _⟩ := scan_cons_elim wsF none a rest h
    simp only [List.head?_cons, Option.some.injEq] at hc
    subst hc
    by_cases hws : pyIsSpace a = true
    · have := (wsF_elim none a rest.head? hw hws).2.1
      simp at this
    · simpa using hws

/-- After a space, under the whitespace discipline, the next character is
not whitespace. -/
theorem scan_wsF_after_space (pv : Option Char) (rest : List Char) (d : Char)
    (h : scan wsF pv (' ' :: rest) = true) (hd : rest.head? = some d) :
    pyIsSpace d = false := by
  obtain ⟨hw, _⟩ := scan_cons_elim wsF pv ' ' rest h
  exact (wsF_elim pv ' ' rest.head? hw (by simp [pyIsSpace])).2.2 d hd

end Normalize

namespace Normalize

theorem mheadM_nil (p : Char) : mheadM p [] = none := rfl

theorem mheadM_space_cons (p c : Char) (rest : List Char) :
    mheadM p (' ' :: c :: rest) = some (if c = p then p else ' ') := rfl

theorem mheadM_cons_ne (p c : Char) (rest : List Char) (hc : c ≠ ' ') :
    mheadM p (c :: rest) = some (if c = p then p else c) := by
  rw [mheadM.eq_def]
  split
  · rename_i c2 r heq
    rw [List.cons.injEq] at heq
    exact absurd heq.1 hc
  · rename_i c2 r heq
    rw [List.cons.injEq] at heq
    rw [heq.1]
  · rename_i heq
    exact absurd heq (by simp)

theorem Msub_pres_wsF (p : Char) (hp : pyIsSpace p = false) :
    ∀ (n : Nat) (u : List Char) (pv po : Option Char), u.length ≤ n →
      scan wsF pv u = true →
      (po = pv ∨ (pv = some p ∧ po = some ' ')) →
      scan wsF po (Msub p u) = true := by
  have hp' : p ≠ ' ' := by
    intro h
    rw [h] at hp
    simp [pyIsSpace] at hp
  intro n
  induction n with
  | zero =>
    intro u pv po hlen _ _
    cases u with
    | nil => rw [Msub_nil]; rfl
    | cons c rest => simp at hlen
  | succ n ih =>
    have emit : ∀ (r2 : List Char) (po : Option Char), r2.length ≤ n →
        scan wsF (some p) r2 = true →
        scan wsF po (p :: ' ' :: Msub p (dropOneSpace r2)) = true := by
      intro r2 po hlen2 hs2
      rw [scan_cons, scan_cons, Bool.and_eq_true, Bool.and_eq_true]
      refine ⟨?_, ?_, ?_⟩
      · simp [wsF, hp]
      · have hnx : ∀ d, (Msub p (dropOneSpace r2)).head? = some d →
            pyIsSpace d = false := by
          intro d hd
          rw [Msub_head p hp'] at hd
          cases r2 with
          | nil =>
            rw [show dropOneSpace ([] : List Char) = [] from rfl, mheadM_nil] at hd
            exact absurd hd (by simp)
          | cons e r3 =>
            by_cases hes : e = ' '
            · subst hes
              rw [show dropOneSpace (' ' :: r3) = r3 from rfl] at hd
              cases r3 with
              | nil =>
                rw [mheadM_nil] at hd
                exact absurd hd (by simp)
              | cons g r4 =>
                have hg : pyIsSpace g = false :=
                  scan_wsF_after_space (some p) (g :: r4) g hs2 (by simp)
                have hgs : g ≠ ' ' := by
                  intro hx
                  rw [hx] at hg
                  simp [pyIsSpace] at hg
                rw [mheadM_cons_ne p g r4 hgs] at hd
                simp only [Option.some.injEq] at hd
                rw [← hd]
                split
                · exact hp
                · exact hg
            · have he : pyIsSpace e = false :=
                scan_wsF_not_tab (some p) e r3 hs2 hes
              rw [dropOneSpace_cons_ne e r3 hes, mheadM_cons_ne p e r3 hes] at hd
              simp only [Option.some.injEq] at hd
              rw [← hd]
              split
              · exact hp
              · exact he
        have hnx2 : (match (Msub p (dropOneSpace r2)).head? with
            | some d => !pyIsSpace d
            | none => true) = true := by
          cases hM : (Msub p (dropOneSpace r2)).head? with
          | none => rfl
          | some d => simp [hnx d hM]
        rw [wsF.eq_def]
        rw [if_pos (show pyIsSpace ' ' = true by simp [pyIsSpace])]
        simp [hnx2]
      · cases r2 with
        | nil =>
          rw [show dropOneSpace [] = [] from rfl, Msub_nil]
          rfl
        | cons e r3 =>
          by_cases hes : e = ' '
          · subst hes
            rw [show dropOneSpace (' ' :: r3) = r3 from rfl]
            have hs3 : scan wsF (some ' ') r3 = true :=
              (scan_cons_elim wsF (some p) ' ' r3 hs2).2
            exact ih r3 (some ' ') (some ' ') (by simp at hlen2; omega) hs3
              (Or.inl rfl)
          · rw [dropOneSpace_cons_ne e r3 hes]
            exact ih (e :: r3) (some p) (some ' ') hlen2 hs2 (Or.inr ⟨rfl, rfl⟩)
    intro u pv po hlen hscan hmode
    have hposb : pv.isSome = true → po.isSome = true := by
      intro hq
      rcases hmode with h | ⟨h1, h2⟩
      · rw [h]; exact hq
      · rw [h2]; rfl
    cases u with
    | nil => rw [Msub_nil]; rfl
    | cons c rest =>
      obtain ⟨hw, hs⟩ := scan_cons_elim wsF pv c rest hscan
      have hrlen : rest.length ≤ n := by
        simp at hlen
        omega
      by_cases hcs : c = ' '
      · subst hcs
        have hel := wsF_elim pv ' ' rest.head? hw (by simp [pyIsSpace])
        have hpos : po.isSome = true := hposb hel.2.1
        cases rest with
        | nil =>
          rw [Msub_single_space p hp', scan_cons, Bool.and_eq_true]
          refine ⟨?_, rfl⟩
          rw [wsF.eq_def]
          rw [if_pos (show pyIsSpace ' ' = true by simp [pyIsSpace])]
          simp [hpos]
        | cons d r2 =>
          have hd : pyIsSpace d = false := hel.2.2 d (by simp)
          have hds : d ≠ ' ' := by
            intro hx
            rw [hx] at hd
            simp [pyIsSpace] at hd
          by_cases hdp : d = p
          · subst hdp
            rw [Msub_space_p d r2]
            have hs3 : scan wsF (some d) r2 = true :=
              (scan_cons_elim wsF (some ' ') d r2 hs).2
            exact emit r2 po (by simp at hlen; omega) hs3
          · rw [Msub_space_other p d r2 hdp, scan_cons, Bool.and_eq_true]
            refine ⟨?_, ih (d :: r2) (some ' ') (some ' ') hrlen hs (Or.inl rfl)⟩
            rw [Msub_head p hp', mheadM_cons_ne p d r2 hds]
            rw [wsF.eq_def]
            rw [if_pos (show pyIsSpace ' ' = true by simp [pyIsSpace])]
            simp [hdp, hpos, hd]
      · have hcns : pyIsSpace c = false := scan_wsF_not_tab pv c rest hscan hcs
        by_cases hcp : c = p
        · subst hcp
          rw [Msub_cons_p c rest hp']
          exact emit rest po hrlen hs
        · rw [Msub_cons_other p c rest hcs hcp, scan_cons, Bool.and_eq_true]
          refine ⟨?_, ih rest (some c) (some c) hrlen hs (Or.inl rfl)⟩
          rw [wsF.eq_def]
          simp [hcns]

end Normalize

namespace Normalize

theorem Msub_pres_noRep (p q : Char) (hp : pyIsSpace p = false)
    (hq : q ≠ p) (hqs : q ≠ ' ') :
    ∀ (n : Nat) (u : List Char) (pv po : Option Char), u.length ≤ n →
      scan wsF pv u = true →
      scan (noRepF q) pv u = true →
      scan (noRepF q) po (Msub p u) = true := by
  have hp' : p ≠ ' ' := by
    intro h
    rw [h] at hp
    simp [pyIsSpace] at hp
  intro n
  induction n with
  | zero =>
    intro u pv po hlen _ _
    cases u with
    | nil => rw [Msub_nil]; rfl
    | cons c rest => simp at hlen
  | succ n ih =>
    have emit : ∀ (r2 : List Char) (po : Option Char), r2.length ≤ n →
        scan wsF (some p) r2 = true →
        scan (noRepF q) (some p) r2 = true →
        scan (noRepF q) po (Msub p (dropOneSpace r2)) = true := by
      intro r2 po hlen2 hs2 hr2
      cases r2 with
      | nil =>
        rw [show dropOneSpace ([] : List Char) = [] from rfl, Msub_nil]
        rfl
      | cons e r3 =>
        by_cases hes : e = ' '
        · subst hes
          rw [show dropOneSpace (' ' :: r3) = r3 from rfl]
          exact ih r3 (some ' ') po (by simp at hlen2; omega)
            (scan_cons_elim wsF (some p) ' ' r3 hs2).2
            (scan_cons_elim (noRepF q) (some p) ' ' r3 hr2).2
        · rw [dropOneSpace_cons_ne e r3 hes]
          exact ih (e :: r3) (some p) po hlen2 hs2 hr2
    intro u pv po hlen hscan hrep
    cases u with
    | nil => rw [Msub_nil]; rfl
    | cons c rest =>
      obtain ⟨hw, hs⟩ := scan_cons_elim wsF pv c rest hscan
      obtain ⟨hrw, hrs⟩ := scan_cons_elim (noRepF q) pv c rest hrep
      have hrlen : rest.length ≤ n := by
        simp at hlen
        omega
      by_cases hcs : c = ' '
      · subst hcs
        have hel := wsF_elim pv ' ' rest.head? hw (by simp [pyIsSpace])
        cases rest with
        | nil =>
          rw [Msub_single_space p hp', scan_cons, Bool.and_eq_true]
          exact ⟨by simp [noRepF, Ne.symm hqs], rfl⟩
        | cons d r2 =>
          have hd : pyIsSpace d = false := hel.2.2 d (by simp)
          by_cases hdp : d = p
          · subst hdp
            rw [Msub_space_p d r2]
            rw [scan_cons, scan_cons, Bool.and_eq_true, Bool.and_eq_true]
            refine ⟨by simp [noRepF, Ne.symm hq], by simp [noRepF, Ne.symm hqs], ?_⟩
            exact emit r2 (some ' ') (by simp at hlen; omega)
              (scan_cons_elim wsF (some ' ') d r2 hs).2
              (scan_cons_elim (noRepF q) (some ' ') d r2 hrs).2
          · rw [Msub_space_other p d r2 hdp, scan_cons, Bool.and_eq_true]
            refine ⟨by simp [noRepF, Ne.symm hqs], ?_⟩
            exact ih (d :: r2) (some ' ') (some ' ') hrlen hs hrs
      · have hcns : pyIsSpace c = false := scan_wsF_not_tab pv c rest hscan hcs
        by_cases hcp : c = p
        · subst hcp
          rw [Msub_cons_p c rest hp']
          rw [scan_cons, scan_cons, Bool.and_eq_true, Bool.and_eq_true]
          refine ⟨by simp [noRepF, Ne.symm hq], by simp [noRepF, Ne.symm hqs], ?_⟩
          exact emit rest (some ' ') hrlen hs hrs
        · rw [Msub_cons_other p c rest hcs hcp, scan_cons, Bool.and_eq_true]
          refine ⟨?_, ih rest (some c) (some c) hrlen hs hrs⟩
          by_cases hcq : c = q
          · subst hcq
            rw [Msub_head p hp']
            cases rest with
            | nil => simp [noRepF, mheadM_nil]
            | cons e r3 =>
              by_cases hes : e = ' '
              · subst hes
                cases r3 with
                | nil =>
                  rw [show mheadM p [' '] = some (if ' ' = p then p else ' ')
                    from rfl]
                  simp [noRepF, Ne.symm hp', Ne.symm hqs]
                | cons g r4 =>
                  rw [mheadM_space_cons]
                  simp only [noRepF]
                  split
                  · simp [Ne.symm hq]
                  · simp [Ne.symm hqs]
              · rw [mheadM_cons_ne p e r3 hes]
                have heq : e ≠ c := by
                  intro hx
                  subst hx
                  simp [noRepF] at hrw
                simp only [noRepF]
                split
                · simp [Ne.symm hq]
                · simp [heq]
          · simp [noRepF, hcq]

end Normalize

namespace Normalize

theorem punctF_space_none (stage : Nat) (pv : Option Char) :
    punctF stage pv ' ' none = true := rfl

theorem punctF_space_some (stage : Nat) (pv : Option Char) (d : Char) :
    punctF stage pv ' ' (some d) =
      if (isPunct d && decide (rank d ≤ stage)) = true then
        prevPunctLe stage (rank d) pv
      else true := rfl

theorem punctF_comma_none (stage : Nat) (pv : Option Char) :
    punctF stage pv ',' none = true := by
  rw [punctF.eq_def]
  simp

theorem punctF_comma_some (stage : Nat) (pv : Option Char) (d : Char) :
    punctF stage pv ',' (some d) =
      if 1 ≤ stage then
        d == ' ' || (isPunct d && decide (1 < rank d) && decide (rank d ≤ stage))
      else true := rfl

theorem punctF_semi_none (stage : Nat) (pv : Option Char) :
    punctF stage pv ';' none = true := by
  rw [punctF.eq_def]
  simp

theorem punctF_semi_some (stage : Nat) (pv : Option Char) (d : Char) :
    punctF stage pv ';' (some d) =
      if 2 ≤ stage then
        d == ' ' || (isPunct d && decide (2 < rank d) && decide (rank d ≤ stage))
      else true := rfl

theorem punctF_dot_none (stage : Nat) (pv : Option Char) :
    punctF stage pv '.' none = true := by
  rw [punctF.eq_def]
  simp

theorem punctF_dot_some (stage : Nat) (pv : Option Char) (d : Char) :
    punctF stage pv '.' (some d) =
      (if 3 ≤ stage then d == ' ' else true) := rfl

theorem punctF_at_other (stage : Nat) (pv : Option Char) (c : Char)
    (nx : Option Char) (h1 : c ≠ ',') (h2 : c ≠ ';') (h3 : c ≠ '.')
    (h4 : c ≠ ' ') : punctF stage pv c nx = true := by
  rw [punctF.eq_def]
  simp [h1, h2, h3, h4]

theorem prevPunctLe_some (stage minR : Nat) (q : Char) :
    prevPunctLe stage minR (some q) =
      (isPunct q && decide (minR ≤ rank q) && decide (rank q ≤ stage)) := rfl

theorem punct_rank_le_one (d : Char) (hd : d ≠ ',') :
    (isPunct d && decide (rank d ≤ 1)) = false := by
  by_cases h1 : d = ';'
  · subst h1; decide
  by_cases h2 : d = '.'
  · subst h2; decide
  simp [isPunct, hd, h1, h2]

theorem punct_rank_le_two (d : Char) (hd : d ≠ ',') (hd2 : d ≠ ';') :
    (isPunct d && decide (rank d ≤ 2)) = false := by
  by_cases h2 : d = '.'
  · subst h2; decide
  simp [isPunct, hd, hd2, h2]

theorem punctF_space_after_pass (stage : Nat) (p : Char)
    (hp : isPunct p = true) (hr : rank p = stage) (nx : Option Char) :
    punctF stage (some p) ' ' nx = true := by
  cases nx with
  | none => exact punctF_space_none stage (some p)
  | some d =>
    rw [punctF_space_some]
    split
    · rename_i h
      rw [Bool.and_eq_true, decide_eq_true_iff] at h
      rw [prevPunctLe_some]
      simp [hp, hr, h.2]
    · rfl

end Normalize

namespace Normalize

theorem Msub_comma_stage1 :
    ∀ (n : Nat) (u : List Char) (pv po : Option Char), u.length ≤ n →
      scan wsF pv u = true →
      scan (punctF 1) po (Msub ',' u) = true := by
  intro n
  induction n with
  | zero =>
    intro u pv po hlen _
    cases u with
    | nil => rw [Msub_nil]; rfl
    | cons c rest => simp at hlen
  | succ n ih =>
    have emit : ∀ (r2 : List Char) (po : Option Char), r2.length ≤ n →
        scan wsF (some ',') r2 = true →
        scan (punctF 1) po (',' :: ' ' :: Msub ',' (dropOneSpace r2)) = true := by
      intro r2 po hlen2 hs2
      rw [scan_cons, scan_cons, Bool.and_eq_true, Bool.and_eq_true]
      refine ⟨?_, ?_, ?_⟩
      · rw [List.head?_cons, punctF_comma_some]
        simp
      · exact punctF_space_after_pass 1 ',' (by decide) (by decide) _
      · cases r2 with
        | nil =>
          rw [show dropOneSpace ([] : List Char) = [] from rfl, Msub_nil]
          rfl
        | cons e r3 =>
          by_cases hes : e = ' '
          · subst hes
            rw [show dropOneSpace (' ' :: r3) = r3 from rfl]
            exact ih r3 (some ' ') (some ' ') (by simp at hlen2; omega)
              (scan_cons_elim wsF (some ',') ' ' r3 hs2).2
          · rw [dropOneSpace_cons_ne e r3 hes]
            exact ih (e :: r3) (some ',') (some ' ') hlen2 hs2
    intro u pv po hlen hscan
    cases u with
    | nil => rw [Msub_nil]; rfl
    | cons c rest =>
      obtain ⟨hw, hs⟩ := scan_cons_elim wsF pv c rest hscan
      have hrlen : rest.length ≤ n := by
        simp at hlen
        omega
      by_cases hcs : c = ' '
      · subst hcs
        have hel := wsF_elim pv ' ' rest.head? hw (by simp [pyIsSpace])
        cases rest with
        | nil =>
          rw [Msub_single_space ',' (by decide), scan_cons, Bool.and_eq_true]
          exact ⟨punctF_space_none 1 po, rfl⟩
        | cons d r2 =>
          have hd : pyIsSpace d = false := hel.2.2 d (by simp)
          have hds : d ≠ ' ' := by
            intro hx
            rw [hx] at hd
            simp [pyIsSpace] at hd
          by_cases hdp : d = ','
          · subst hdp
            rw [Msub_space_p ',' r2]
            exact emit r2 po (by simp at hlen; omega)
              (scan_cons_elim wsF (some ' ') ',' r2 hs).2
          · rw [Msub_space_other ',' d r2 hdp, scan_cons, Bool.and_eq_true]
            refine ⟨?_, ih (d :: r2) (some ' ') (some ' ') hrlen hs⟩
            rw [Msub_head ',' (by decide), mheadM_cons_ne ',' d r2 hds]
            rw [if_neg hdp, punctF_space_some, punct_rank_le_one d hdp]
            simp
      · by_cases hcp : c = ','
        · subst hcp
          rw [Msub_cons_p ',' rest (by decide)]
          exact emit rest po hrlen hs
        · rw [Msub_cons_other ',' c rest hcs hcp, scan_cons, Bool.and_eq_true]
          refine ⟨?_, ih rest (some c) (some c) hrlen hs⟩
          by_cases hc1 : c = ';'
          · subst hc1
            cases hM : (Msub ',' rest).head? with
            | none => exact punctF_semi_none 1 po
            | some d => rw [punctF_semi_some]; simp
          by_cases hc2 : c = '.'
          · subst hc2
            cases hM : (Msub ',' rest).head? with
            | none => exact punctF_dot_none 1 po
            | some d => rw [punctF_dot_some]; simp
          exact punctF_at_other 1 po c _ hcp hc1 hc2 hcs

end Normalize

namespace Normalize

theorem Msub_semi_stage2 :
    ∀ (n : Nat) (u : List Char) (pv po : Option Char), u.length ≤ n →
      scan wsF pv u = true →
      scan (punctF 1) pv u = true →
      (po = pv ∨ (pv = some ';' ∧ po = some ' ')) →
      scan (punctF 2) po (Msub ';' u) = true := by
  intro n
  induction n with
  | zero =>
    intro u pv po hlen _ _ _
    cases u with
    | nil => rw [Msub_nil]; rfl
    | cons c rest => simp at hlen
  | succ n ih =>
    have emit : ∀ (r2 : List Char) (po : Option Char), r2.length ≤ n →
        scan wsF (some ';') r2 = true →
        scan (punctF 1) (some ';') r2 = true →
        scan (punctF 2) po (';' :: ' ' :: Msub ';' (dropOneSpace r2)) = true := by
      intro r2 po hlen2 hs2 hp2
      rw [scan_cons, scan_cons, Bool.and_eq_true, Bool.and_eq_true]
      refine ⟨?_, ?_, ?_⟩
      · rw [List.head?_cons, punctF_semi_some]
        simp
      · exact punctF_space_after_pass 2 ';' (by decide) (by decide) _
      · cases r2 with
        | nil =>
          rw [show dropOneSpace ([] : List Char) = [] from rfl, Msub_nil]
          rfl
        | cons e r3 =>
          by_cases hes : e = ' '
          · subst hes
            rw [show dropOneSpace (' ' :: r3) = r3 from rfl]
            exact ih r3 (some ' ') (some ' ') (by simp at hlen2; omega)
              (scan_cons_elim wsF (some ';') ' ' r3 hs2).2
              (scan_cons_elim (punctF 1) (some ';') ' ' r3 hp2).2
              (Or.inl rfl)
          · rw [dropOneSpace_cons_ne e r3 hes]
            exact ih (e :: r3) (some ';') (some ' ') hlen2 hs2 hp2
              (Or.inr ⟨rfl, rfl⟩)
    intro u pv po hlen hscan hpunct hmode
    cases u with
    | nil => rw [Msub_nil]; rfl
    | cons c rest =>
      obtain ⟨hw, hs⟩ := scan_cons_elim wsF pv c rest hscan
      obtain ⟨hpw, hps⟩ := scan_cons_elim (punctF 1) pv c rest hpunct
      have hrlen : rest.length ≤ n := by
        simp at hlen
        omega
      by_cases hcs : c = ' '
      · subst hcs
        have hel := wsF_elim pv ' ' rest.head? hw (by simp [pyIsSpace])
        cases rest with
        | nil =>
          rw [Msub_single_space ';' (by decide), scan_cons, Bool.and_eq_true]
          exact ⟨punctF_space_none 2 po, rfl⟩
        | cons d r2 =>
          have hd : pyIsSpace d = false := hel.2.2 d (by simp)
          have hds : d ≠ ' ' := by
            intro hx
            rw [hx] at hd
            simp [pyIsSpace] at hd
          by_cases hdp : d = ';'
          · subst hdp
            rw [Msub_space_p ';' r2]
            exact emit r2 po (by simp at hlen; omega)
              (scan_cons_elim wsF (some ' ') ';' r2 hs).2
              (scan_cons_elim (punctF 1) (some ' ') ';' r2 hps).2
          · rw [Msub_space_other ';' d r2 hdp, scan_cons, Bool.and_eq_true]
            refine ⟨?_, ih (d :: r2) (some ' ') (some ' ') hrlen hs hps
              (Or.inl rfl)⟩
            rw [Msub_head ';' (by decide), mheadM_cons_ne ';' d r2 hds]
            rw [if_neg hdp, punctF_space_some]
            by_cases hdc : d = ','
            · subst hdc
              rw [if_pos (by decide)]
              rw [List.head?_cons, punctF_space_some] at hpw
              rw [if_pos (by decide)] at hpw
              cases pv with
              | none => exact absurd hpw (by simp [prevPunctLe])
              | some q =>
                rw [prevPunctLe_some] at hpw
                simp only [Bool.and_eq_true, decide_eq_true_iff,
                  show rank ',' = 1 from rfl] at hpw
                have hq1 : rank q = 1 := by omega
                rcases hmode with hm | ⟨hm1, hm2⟩
                · rw [hm, prevPunctLe_some]
                  simp only [Bool.and_eq_true, decide_eq_true_iff,
                    show rank ',' = 1 from rfl]
                  exact ⟨⟨hpw.1.1, by omega⟩, by omega⟩
                · have hq' : q = ';' := by injection hm1
                  rw [hq'] at hq1
                  simp [rank] at hq1
            · rw [if_neg (by rw [punct_rank_le_two d hdc hdp]; simp)]
      · by_cases hcp : c = ';'
        · subst hcp
          rw [Msub_cons_p ';' rest (by decide)]
          exact emit rest po hrlen hs hps
        · rw [Msub_cons_other ';' c rest hcs hcp, scan_cons, Bool.and_eq_true]
          refine ⟨?_, ih rest (some c) (some c) hrlen hs hps (Or.inl rfl)⟩
          by_cases hc1 : c = ','
          · subst hc1
            rw [Msub_head ';' (by decide)]
            cases rest with
            | nil => exact punctF_comma_none 2 po
            | cons e r3 =>
              by_cases hes : e = ' '
              · subst hes
                cases r3 with
                | nil =>
                  rw [show mheadM ';' [' '] = some ' ' from rfl]
                  rw [punctF_comma_some]
                  simp
                | cons g r4 =>
                  rw [mheadM_space_cons, punctF_comma_some,
                    if_pos (by decide : (1 : Nat) ≤ 2)]
                  by_cases hg : g = ';'
                  · subst hg
                    decide
                  · rw [if_neg hg]
                    simp
              · rw [mheadM_cons_ne ';' e r3 hes]
                rw [List.head?_cons, punctF_comma_some] at hpw
                rw [if_pos (by decide)] at hpw
                simp only [List.head?_cons, Bool.or_eq_true, beq_iff_eq,
                  Bool.and_eq_true, decide_eq_true_iff] at hpw
                rcases hpw with hpe | ⟨⟨hpi, hplt⟩, hple⟩
                · exact absurd hpe hes
                · omega
          by_cases hc2 : c = '.'
          · subst hc2
            cases hM : (Msub ';' rest).head? with
            | none => exact punctF_dot_none 2 po
            | some d => rw [punctF_dot_some]; simp
          exact punctF_at_other 2 po c _ hc1 hcp hc2 hcs

end Normalize

namespace Normalize

theorem rank_two_semi (e : Char) (h1 : 1 < rank e) (h2 : rank e ≤ 2) :
    e = ';' := by
  by_cases hc : e = ','
  · subst hc; simp [rank] at h1
  by_cases hs : e = ';'
  · exact hs
  by_cases hd : e = '.'
  · subst hd; simp [rank] at h2
  simp [rank, hc, hs, hd] at h1

theorem Msub_dot_stage3 :
    ∀ (n : Nat) (u : List Char) (pv po : Option Char), u.length ≤ n →
      scan wsF pv u = true →
      scan (punctF 2) pv u = true →
      (po = pv ∨ (pv = some '.' ∧ po = some ' ')) →
      scan (punctF 3) po (Msub '.' u) = true := by
  intro n
  induction n with
  | zero =>
    intro u pv po hlen _ _ _
    cases u with
    | nil => rw [Msub_nil]; rfl
    | cons c rest => simp at hlen
  | succ n ih =>
    have emit : ∀ (r2 : List Char) (po : Option Char), r2.length ≤ n →
        scan wsF (some '.') r2 = true →
        scan (punctF 2) (some '.') r2 = true →
        scan (punctF 3) po ('.' :: ' ' :: Msub '.' (dropOneSpace r2)) = true := by
      intro r2 po hlen2 hs2 hp2
      rw [scan_cons, scan_cons, Bool.and_eq_true, Bool.and_eq_true]
      refine ⟨?_, ?_, ?_⟩
      · rw [List.head?_cons, punctF_dot_some]
        simp
      · exact punctF_space_after_pass 3 '.' (by decide) (by decide) _
      · cases r2 with
        | nil =>
          rw [show dropOneSpace ([] : List Char) = [] from rfl, Msub_nil]
          rfl
        | cons e r3 =>
          by_cases hes : e = ' '
          · subst hes
            rw [show dropOneSpace (' ' :: r3) = r3 from rfl]
            exact ih r3 (some ' ') (some ' ') (by simp at hlen2; omega)
              (scan_cons_elim wsF (some '.') ' ' r3 hs2).2
              (scan_cons_elim (punctF 2) (some '.') ' ' r3 hp2).2
              (Or.inl rfl)
          · rw [dropOneSpace_cons_ne e r3 hes]
            exact ih (e :: r3) (some '.') (some ' ') hlen2 hs2 hp2
              (Or.inr ⟨rfl, rfl⟩)
    intro u pv po hlen hscan hpunct hmode
    have hPP : ∀ m, prevPunctLe 2 m pv = true → prevPunctLe 3 m po = true := by
      intro m hpp
      cases pv with
      | none => simp [prevPunctLe] at hpp
      | some q =>
        rw [prevPunctLe_some] at hpp
        simp only [Bool.and_eq_true, decide_eq_true_iff] at hpp
        rcases hmode with hm | ⟨hm1, hm2⟩
        · rw [hm, prevPunctLe_some]
          simp only [Bool.and_eq_true, decide_eq_true_iff]
          exact ⟨⟨hpp.1.1, hpp.1.2⟩, by omega⟩
        · have hq' : q = '.' := by injection hm1
          rw [hq'] at hpp
          simp [rank] at hpp
    cases u with
    | nil => rw [Msub_nil]; rfl
    | cons c rest =>
      obtain ⟨hw, hs⟩ := scan_cons_elim wsF pv c rest hscan
      obtain ⟨hpw, hps⟩ := scan_cons_elim (punctF 2) pv c rest hpunct
      have hrlen : rest.length ≤ n := by
        simp at hlen
        omega
      by_cases hcs : c = ' '
      · subst hcs
        have hel := wsF_elim pv ' ' rest.head? hw (by simp [pyIsSpace])
        cases rest with
        | nil =>
          rw [Msub_single_space '.' (by decide), scan_cons, Bool.and_eq_true]
          exact ⟨punctF_space_none 3 po, rfl⟩
        | cons d r2 =>
          have hd : pyIsSpace d = false := hel.2.2 d (by simp)
          have hds : d ≠ ' ' := by
            intro hx
            rw [hx] at hd
            simp [pyIsSpace] at hd
          by_cases hdp : d = '.'
          · subst hdp
            rw [Msub_space_p '.' r2]
            exact emit r2 po (by simp at hlen; omega)
              (scan_cons_elim wsF (some ' ') '.' r2 hs).2
              (scan_cons_elim (punctF 2) (some ' ') '.' r2 hps).2
          · rw [Msub_space_other '.' d r2 hdp, scan_cons, Bool.and_eq_true]
            refine ⟨?_, ih (d :: r2) (some ' ') (some ' ') hrlen hs hps
              (Or.inl rfl)⟩
            rw [Msub_head '.' (by decide), mheadM_cons_ne '.' d r2 hds]
            rw [if_neg hdp, punctF_space_some]
            by_cases hdc : d = ','
            · subst hdc
              rw [if_pos (by decide)]
              rw [List.head?_cons, punctF_space_some] at hpw
              rw [if_pos (by decide)] at hpw
              rw [show rank ',' = 1 from rfl] at hpw ⊢
              exact hPP 1 hpw
            by_cases hdsm : d = ';'
            · subst hdsm
              rw [if_pos (by decide)]
              rw [List.head?_cons, punctF_space_some] at hpw
              rw [if_pos (by decide)] at hpw
              rw [show rank ';' = 2 from rfl] at hpw ⊢
              exact hPP 2 hpw
            · rw [if_neg (by simp [isPunct, hdc, hdsm, hdp])]
      · by_cases hcp : c = '.'
        · subst hcp
          rw [Msub_cons_p '.' rest (by decide)]
          exact emit rest po hrlen hs hps
        · rw [Msub_cons_other '.' c rest hcs hcp, scan_cons, Bool.and_eq_true]
          refine ⟨?_, ih rest (some c) (some c) hrlen hs hps (Or.inl rfl)⟩
          by_cases hc1 : c = ','
          · subst hc1
            rw [Msub_head '.' (by decide)]
            cases rest with
            | nil => exact punctF_comma_none 3 po
            | cons e r3 =>
              by_cases hes : e = ' '
              · subst hes
                cases r3 with
                | nil =>
                  rw [show mheadM '.' [' '] = some ' ' from rfl]
                  rw [punctF_comma_some]
                  simp
                | cons g r4 =>
                  rw [mheadM_space_cons, punctF_comma_some,
                    if_pos (by decide : (1 : Nat) ≤ 3)]
                  by_cases hg : g = '.'
                  · subst hg
                    decide
                  · rw [if_neg hg]
                    simp
              · rw [mheadM_cons_ne '.' e r3 hes]
                by_cases hesemi : e = ';'
                · subst hesemi
                  rw [if_neg (by decide)]
                  rw [punctF_comma_some]
                  decide
                · rw [List.head?_cons, punctF_comma_some] at hpw
                  rw [if_pos (by decide)] at hpw
                  simp only [Bool.or_eq_true, beq_iff_eq,
                    Bool.and_eq_true, decide_eq_true_iff] at hpw
                  rcases hpw with hpe | ⟨⟨hpi, hplt⟩, hple⟩
                  · exact absurd hpe hes
                  · exact absurd (rank_two_semi e hplt hple) hesemi
          by_cases hc2 : c = ';'
          · subst hc2
            rw [Msub_head '.' (by decide)]
            cases rest with
            | nil => exact punctF_semi_none 3 po
            | cons e r3 =>
              by_cases hes : e = ' '
              · subst hes
                cases r3 with
                | nil =>
                  rw [show mheadM '.' [' '] = some ' ' from rfl]
                  rw [punctF_semi_some]
                  simp
                | cons g r4 =>
                  rw [mheadM_space_cons, punctF_semi_some,
                    if_pos (by decide : (2 : Nat) ≤ 3)]
                  by_cases hg : g = '.'
                  · subst hg
                    decide
                  · rw [if_neg hg]
                    simp
              · rw [mheadM_cons_ne '.' e r3 hes]
                by_cases hedot : e = '.'
                · subst hedot
                  rw [if_pos rfl, punctF_semi_some]
                  decide
                · rw [List.head?_cons, punctF_semi_some] at hpw
                  rw [if_pos (by decide)] at hpw
                  simp only [Bool.or_eq_true, beq_iff_eq,
                    Bool.and_eq_true, decide_eq_true_iff] at hpw
                  rcases hpw with hpe | ⟨⟨hpi, hplt⟩, hple⟩
                  · exact absurd hpe hes
                  · omega
          exact punctF_at_other 3 po c _ hc1 hc2 hcp hcs

end Normalize

namespace Normalize

theorem subRunGo_p_false (p : Char) (rest : List Char) :
    subRunGo p (p :: rest) false = p :: subRunGo p rest true := by
  simp [subRunGo]

theorem subRunGo_p_true (p : Char) (rest : List Char) :
    subRunGo p (p :: rest) true = subRunGo p rest true := by
  simp [subRunGo]

theorem subRunGo_ne (p c : Char) (rest : List Char) (b : Bool)
    (hcp : c ≠ p) :
    subRunGo p (c :: rest) b = c :: subRunGo p rest false := by
  simp [subRunGo, hcp]

theorem subRunGo_head_false (p : Char) (l : List Char) :
    (subRunGo p l false).head? = l.head? := by
  cases l with
  | nil => rfl
  | cons c rest =>
    by_cases hcp : c = p
    · subst hcp
      rw [subRunGo_p_false]
      rfl
    · rw [subRunGo_ne p c rest false hcp]
      rfl

theorem subRunGo_true_head (p : Char) :
    ∀ (l : List Char) (d : Char),
      (subRunGo p l true).head? = some d → d ≠ p := by
  intro l
  induction l with
  | nil => intro d hd; simp [subRunGo] at hd
  | cons c rest ih =>
    intro d hd
    by_cases hcp : c = p
    · subst hcp
      rw [subRunGo_p_true] at hd
      exact ih d hd
    · rw [subRunGo_ne p c rest true hcp] at hd
      simp only [List.head?_cons, Option.some.injEq] at hd
      rw [← hd]
      exact hcp

theorem subRunGo_pres_wsF (p : Char) (hp : pyIsSpace p = false) :
    ∀ (l : List Char) (pv po : Option Char) (b : Bool),
      scan wsF pv l = true →
      (b = false → po = pv) →
      (b = true → pv = some p ∧ po = some p) →
      scan wsF po (subRunGo p l b) = true := by
  intro l
  induction l with
  | nil =>
    intro pv po b _ _ _
    cases b <;> rfl
  | cons c rest ih =>
    intro pv po b hscan hbf hbt
    obtain ⟨hw, hs⟩ := scan_cons_elim wsF pv c rest hscan
    by_cases hcp : c = p
    · subst hcp
      cases b with
      | false =>
        rw [subRunGo_p_false, scan_cons, Bool.and_eq_true]
        refine ⟨?_, ih (some c) (some c) true hs (by intro h; cases h)
          (fun _ => ⟨rfl, rfl⟩)⟩
        rw [wsF.eq_def]
        simp [hp]
      | true =>
        rw [subRunGo_p_true]
        exact ih (some c) po true hs (by intro h; cases h)
          (fun _ => ⟨rfl, (hbt rfl).2⟩)
    · rw [subRunGo_ne p c rest b hcp, scan_cons, Bool.and_eq_true]
      refine ⟨?_, ih (some c) (some c) false hs (fun _ => rfl)
        (by intro h; cases h)⟩
      rw [subRunGo_head_false]
      by_cases hcw : pyIsSpace c = true
      · have hel := wsF_elim pv c rest.head? hw hcw
        have hpos : po.isSome = true := by
          cases b with
          | false => rw [hbf rfl]; exact hel.2.1
          | true => rw [(hbt rfl).2]; rfl
        rw [wsF.eq_def, if_pos hcw]
        simp only [Bool.and_eq_true, beq_iff_eq]
        refine ⟨⟨hel.1, hpos⟩, ?_⟩
        cases hM : rest.head? with
        | none => rfl
        | some d => simp [hel.2.2 d hM]
      · rw [wsF.eq_def]
        simp [hcw]

theorem subRun_noRep (p : Char) :
    ∀ (l : List Char) (po : Option Char) (b : Bool),
      scan (noRepF p) po (subRunGo p l b) = true := by
  intro l
  induction l with
  | nil =>
    intro po b
    cases b <;> rfl
  | cons c rest ih =>
    intro po b
    by_cases hcp : c = p
    · subst hcp
      cases b with
      | false =>
        rw [subRunGo_p_false, scan_cons, Bool.and_eq_true]
        refine ⟨?_, ih (some c) true⟩
        cases hM : (subRunGo c rest true).head? with
        | none => simp [noRepF]
        | some d => simp [noRepF, subRunGo_true_head c rest d hM]
      | true =>
        rw [subRunGo_p_true]
        exact ih po true
    · rw [subRunGo_ne p c rest b hcp, scan_cons, Bool.and_eq_true]
      exact ⟨by simp [noRepF, hcp], ih (some c) false⟩

theorem subRunGo_pres_noRep (p q : Char) (hqp : q ≠ p) :
    ∀ (l : List Char) (pv po : Option Char) (b : Bool),
      scan (noRepF q) pv l = true →
      scan (noRepF q) po (subRunGo p l b) = true := by
  intro l
  induction l with
  | nil =>
    intro pv po b _
    cases b <;> rfl
  | cons c rest ih =>
    intro pv po b hscan
    obtain ⟨hw, hs⟩ := scan_cons_elim (noRepF q) pv c rest hscan
    by_cases hcp : c = p
    · subst hcp
      cases b with
      | false =>
        rw [subRunGo_p_false, scan_cons, Bool.and_eq_true]
        exact ⟨by simp [noRepF, Ne.symm hqp], ih (some c) (some c) true hs⟩
      | true =>
        rw [subRunGo_p_true]
        exact ih (some c) po true hs
    · rw [subRunGo_ne p c rest b hcp, scan_cons, Bool.and_eq_true]
      refine ⟨?_, ih (some c) (some c) false hs⟩
      rw [subRunGo_head_false]
      by_cases hcq : c = q
      · subst hcq
        simp only [noRepF] at hw ⊢
        exact hw
      · simp [noRepF, hcq]

end Normalize

namespace Normalize

theorem pyReplace_nil (pat repl : List Char) : pyReplace pat repl [] = [] := by
  rw [pyReplace.eq_def]

theorem pyReplace_cons_pos (pat repl : List Char) (c : Char) (rest : List Char)
    (h : pat ≠ [] ∧ pat.isPrefixOf (c :: rest)) :
    pyReplace pat repl (c :: rest) =
      repl ++ pyReplace pat repl ((c :: rest).drop pat.length) := by
  rw [pyReplace.eq_def]
  exact dif_pos h

theorem pyReplace_cons_neg (pat repl : List Char) (c : Char) (rest : List Char)
    (h : ¬(pat ≠ [] ∧ pat.isPrefixOf (c :: rest))) :
    pyReplace pat repl (c :: rest) = c :: pyReplace pat repl rest := by
  rw [pyReplace.eq_def]
  exact dif_neg h

theorem pyReplace_self (pat : List Char) :
    ∀ (n : Nat) (l : List Char), l.length ≤ n → pyReplace pat pat l = l := by
  intro n
  induction n with
  | zero =>
    intro l hlen
    cases l with
    | nil => exact pyReplace_nil pat pat
    | cons c rest => simp at hlen
  | succ n ih =>
    intro l hlen
    cases l with
    | nil => exact pyReplace_nil pat pat
    | cons c rest =>
      by_cases h : pat ≠ [] ∧ pat.isPrefixOf (c :: rest)
      · rw [pyReplace_cons_pos pat pat c rest h]
        obtain ⟨t, ht⟩ := List.isPrefixOf_iff_prefix.mp h.2
        have hdrop : (c :: rest).drop pat.length = t := by
          rw [← ht, List.drop_left]
        rw [hdrop]
        have htlen : t.length ≤ n := by
          have h1 : pat.length + t.length = rest.length + 1 := by
            have := congrArg List.length ht
            simp at this
            omega
          have h2 : pat.length ≠ 0 := by
            intro hx
            exact h.1 (List.length_eq_zero.mp hx)
          simp at hlen
          omega
        rw [ih t htlen, ht]
      · rw [pyReplace_cons_neg pat pat c rest h]
        rw [ih rest (by simp at hlen; omega)]

theorem pyReplace_head (pat : List Char) (a : Char) (l : List Char) :
    (pyReplace pat [a] l).head? = some a ∨
      (pyReplace pat [a] l).head? = l.head? := by
  cases l with
  | nil => right; rw [pyReplace_nil]
  | cons c rest =>
    by_cases h : pat ≠ [] ∧ pat.isPrefixOf (c :: rest)
    · left
      rw [pyReplace_cons_pos pat [a] c rest h]
      rfl
    · right
      rw [pyReplace_cons_neg pat [a] c rest h]
      rfl

theorem wsF_prev_irrel (a b c : Char) (nx : Option Char) :
    wsF (some a) c nx = wsF (some b) c nx := by
  rw [wsF.eq_def, wsF.eq_def]
  rfl

theorem scan_wsF_prev_some (t : List Char) (a b : Char)
    (h : scan wsF (some a) t = true) : scan wsF (some b) t = true := by
  cases t with
  | nil => rfl
  | cons c r =>
    rw [scan_cons, Bool.and_eq_true] at h ⊢
    exact ⟨by rw [wsF_prev_irrel b a]; exact h.1, h.2⟩

theorem apostrophe_not_ws : pyIsSpace apostrophe = false := by decide

/-- Under the stage-3 punctuation discipline the mangled replace pattern
(which contains a period directly followed by a letter) cannot occur. -/
theorem pyReplace_weird_id :
    ∀ (n : Nat) (l : List Char) (pv : Option Char), l.length ≤ n →
      scan (punctF 3) pv l = true →
      pyReplace unify_quotes_pattern [apostrophe] l = l := by
  intro n
  induction n with
  | zero =>
    intro l pv hlen _
    cases l with
    | nil => exact pyReplace_nil _ _
    | cons c rest => simp at hlen
  | succ n ih =>
    intro l pv hlen hscan
    cases l with
    | nil => exact pyReplace_nil _ _
    | cons c rest =>
      have hnp : ¬(unify_quotes_pattern ≠ [] ∧
          unify_quotes_pattern.isPrefixOf (c :: rest)) := by
        rintro ⟨-, hpre⟩
        obtain ⟨t, ht⟩ := List.isPrefixOf_iff_prefix.mp hpre
        rw [← ht] at hscan
        rw [show unify_quotes_pattern = ',' :: ' ' :: '"' :: apostrophe :: '"' :: ')' :: '.' :: 'r' :: 'e' :: 'p' :: 'l' :: 'a' :: 'c' :: 'e' :: '(' :: [] from rfl] at hscan
        simp only [List.cons_append, List.nil_append] at hscan
        have h1 := (scan_cons_elim _ _ _ _ hscan).2
        have h2 := (scan_cons_elim _ _ _ _ h1).2
        have h3 := (scan_cons_elim _ _ _ _ h2).2
        have h4 := (scan_cons_elim _ _ _ _ h3).2
        have h5 := (scan_cons_elim _ _ _ _ h4).2
        have h6 := (scan_cons_elim _ _ _ _ h5).2
        have h7 := (scan_cons_elim _ _ _ _ h6).1
        rw [List.head?_cons] at h7
        exact absurd h7 (by decide)
      rw [pyReplace_cons_neg _ _ c rest hnp]
      rw [ih rest (some c) (by simp at hlen; omega)
        (scan_cons_elim (punctF 3) pv c rest hscan).2]

theorem pyReplace_weird_pres_wsF :
    ∀ (n : Nat) (l : List Char) (pv : Option Char), l.length ≤ n →
      scan wsF pv l = true →
      scan wsF pv (pyReplace unify_quotes_pattern [apostrophe] l) = true := by
  intro n
  induction n with
  | zero =>
    intro l pv hlen _
    cases l with
    | nil => rw [pyReplace_nil]; rfl
    | cons c rest => simp at hlen
  | succ n ih =>
    intro l pv hlen hscan
    cases l with
    | nil => rw [pyReplace_nil]; rfl
    | cons c rest =>
      obtain ⟨hw, hs⟩ := scan_cons_elim wsF pv c rest hscan
      by_cases h : unify_quotes_pattern ≠ [] ∧
          unify_quotes_pattern.isPrefixOf (c :: rest)
      · rw [pyReplace_cons_pos _ _ c rest h]
        obtain ⟨t, ht⟩ := List.isPrefixOf_iff_prefix.mp h.2
        have hdrop : (c :: rest).drop unify_quotes_pattern.length = t := by
          rw [← ht, List.drop_left]
        rw [hdrop]
        rw [show [apostrophe] ++ pyReplace unify_quotes_pattern [apostrophe] t =
          apostrophe :: pyReplace unify_quotes_pattern [apostrophe] t from rfl]
        rw [scan_cons, Bool.and_eq_true]
        constructor
        · rw [wsF.eq_def]
          simp [apostrophe_not_ws]
        · have htl : scan wsF (some '(') t = true := by
            rw [← ht] at hscan
            simp only [unify_quotes_pattern, List.cons_append, List.nil_append,
              scan, Bool.and_eq_true] at hscan
            exact hscan.2.2.2.2.2.2.2.2.2.2.2.2.2.2.2
          have htlen : t.length ≤ n := by
            have h1 := congrArg List.length ht
            simp [unify_quotes_pattern] at h1
            simp at hlen
            omega
          exact ih t (some apostrophe) htlen
            (scan_wsF_prev_some t '(' apostrophe htl)
      · rw [pyReplace_cons_neg _ _ c rest h]
        rw [scan_cons, Bool.and_eq_true]
        refine ⟨?_, ih rest (some c) (by simp at hlen; omega) hs⟩
        by_cases hcw : pyIsSpace c = true
        · have hel := wsF_elim pv c rest.head? hw hcw
          rw [wsF.eq_def, if_pos hcw]
          simp only [Bool.and_eq_true, beq_iff_eq]
          refine ⟨⟨hel.1, hel.2.1⟩, ?_⟩
          rcases pyReplace_head unify_quotes_pattern apostrophe rest with hh | hh
          · rw [hh]
            simp [apostrophe_not_ws]
          · rw [hh]
            cases hM : rest.head? with
            | none => rfl
            | some d => simp [hel.2.2 d hM]
        · rw [wsF.eq_def]
          simp [hcw]

end Normalize

namespace Normalize

/-- Adjacent characters are never both whitespace. -/
def NoWW (a b : Char) : Prop := ¬(pyIsSpace a = true ∧ pyIsSpace b = true)

theorem subWsPlusGo_ws_false (c : Char) (rest : List Char)
    (h : pyIsSpace c = true) :
    subWsPlusGo (c :: rest) false = ' ' :: subWsPlusGo rest true := by
  simp [subWsPlusGo, h]

theorem subWsPlusGo_ws_true (c : Char) (rest : List Char)
    (h : pyIsSpace c = true) :
    subWsPlusGo (c :: rest) true = subWsPlusGo rest true := by
  simp [subWsPlusGo, h]

theorem subWsPlusGo_nonws (c : Char) (rest : List Char) (b : Bool)
    (h : pyIsSpace c = false) :
    subWsPlusGo (c :: rest) b = c :: subWsPlusGo rest false := by
  simp [subWsPlusGo, h]

theorem subWsPlusGo_onlySp :
    ∀ (l : List Char) (b : Bool) (c : Char), c ∈ subWsPlusGo l b →
      pyIsSpace c = true → c = ' ' := by
  intro l
  induction l with
  | nil => intro b c hc; simp [subWsPlusGo] at hc
  | cons a rest ih =>
    intro b c hc hcw
    by_cases haw : pyIsSpace a = true
    · cases b with
      | true =>
        rw [subWsPlusGo_ws_true a rest haw] at hc
        exact ih true c hc hcw
      | false =>
        rw [subWsPlusGo_ws_false a rest haw] at hc
        simp only [List.mem_cons] at hc
        rcases hc with hc | hc
        · exact hc
        · exact ih true c hc hcw
    · rw [subWsPlusGo_nonws a rest b (by simpa using haw)] at hc
      simp only [List.mem_cons] at hc
      rcases hc with hc | hc
      · rw [hc] at hcw
        exact absurd hcw haw
      · exact ih false c hc hcw

theorem subWsPlusGo_true_head :
    ∀ (l : List Char) (d : Char), (subWsPlusGo l true).head? = some d →
      pyIsSpace d = false := by
  intro l
  induction l with
  | nil => intro d hd; simp [subWsPlusGo] at hd
  | cons a rest ih =>
    intro d hd
    by_cases haw : pyIsSpace a = true
    · rw [subWsPlusGo_ws_true a rest haw] at hd
      exact ih d hd
    · rw [subWsPlusGo_nonws a rest true (by simpa using haw)] at hd
      simp only [List.head?_cons, Option.some.injEq] at hd
      rw [← hd]
      simpa using haw

theorem subWsPlusGo_chain :
    ∀ (l : List Char) (b : Bool), (subWsPlusGo l b).Chain' NoWW := by
  intro l
  induction l with
  | nil =>
    intro b
    rw [show subWsPlusGo [] b = [] from rfl]
    exact List.chain'_nil
  | cons a rest ih =>
    intro b
    by_cases haw : pyIsSpace a = true
    · cases b with
      | true =>
        rw [subWsPlusGo_ws_true a rest haw]
        exact ih true
      | false =>
        rw [subWsPlusGo_ws_false a rest haw]
        rw [List.chain'_cons']
        refine ⟨?_, ih true⟩
        intro e he hcon
        rw [subWsPlusGo_true_head rest e he] at hcon
        exact absurd hcon.2 (by simp)
    · rw [subWsPlusGo_nonws a rest b (by simpa using haw)]
      rw [List.chain'_cons']
      refine ⟨?_, ih false⟩
      intro e _ hcon
      exact absurd hcon.1 haw

theorem chain_flip_noWW (l : List Char) (h : l.Chain' NoWW) :
    l.Chain' (flip NoWW) := by
  refine h.imp ?_
  intro a b hab hcon
  exact hab ⟨hcon.2, hcon.1⟩

theorem chain_reverse_noWW (l : List Char) (h : l.Chain' NoWW) :
    l.reverse.Chain' NoWW := by
  rw [List.chain'_reverse]
  exact chain_flip_noWW l h

theorem pyStrip_chain (u : List Char) (h : u.Chain' NoWW) :
    (pyStrip u).Chain' NoWW := by
  unfold pyStrip
  apply chain_reverse_noWW
  refine List.Chain'.infix ?_ (List.dropWhile_suffix pyIsSpace).isInfix
  apply chain_reverse_noWW
  exact List.Chain'.infix h (List.dropWhile_suffix pyIsSpace).isInfix

theorem pyStrip_head (u : List Char) (d : Char)
    (hd : (pyStrip u).head? = some d) : pyIsSpace d = false := by
  unfold pyStrip at hd
  rw [List.head?_reverse] at hd
  obtain ⟨pre, hpre⟩ :=
    List.dropWhile_suffix (l := (u.dropWhile pyIsSpace).reverse) pyIsSpace
  have hv : ((u.dropWhile pyIsSpace).reverse).getLast? = some d := by
    rw [← hpre, List.getLast?_append, hd]
    rfl
  rw [List.getLast?_reverse] at hv
  have hnw := List.head?_dropWhile_not pyIsSpace u
  rw [hv] at hnw
  simpa using hnw

theorem chain_to_scan_wsF :
    ∀ (l : List Char) (pv : Option Char),
      (∀ c ∈ l, pyIsSpace c = true → c = ' ') →
      l.Chain' NoWW →
      (pv = none → ∀ d, l.head? = some d → pyIsSpace d = false) →
      scan wsF pv l = true := by
  intro l
  induction l with
  | nil => intro pv _ _ _; rfl
  | cons c rest ih =>
    intro pv honly hchain hhead
    rw [scan_cons, Bool.and_eq_true]
    constructor
    · by_cases hcw : pyIsSpace c = true
      · have hc' : c = ' ' := honly c (List.mem_cons_self c rest) hcw
        have hpv : pv.isSome = true := by
          cases pv with
          | none =>
            have := hhead rfl c rfl
            rw [this] at hcw
            simp at hcw
          | some q => rfl
        rw [wsF.eq_def, if_pos hcw]
        simp only [Bool.and_eq_true, beq_iff_eq]
        refine ⟨⟨hc', hpv⟩, ?_⟩
        cases hM : rest.head? with
        | none => rfl
        | some e =>
          have hre := (List.chain'_cons'.mp hchain).1 e hM
          by_cases hew : pyIsSpace e = true
          · exact absurd ⟨hcw, hew⟩ hre
          · simp [hew]
      · rw [wsF.eq_def]
        simp [hcw]
    · exact ih (some c)
        (fun x hx hxw => honly x (List.mem_cons_of_mem c hx) hxw)
        (List.chain'_cons'.mp hchain).2 (by intro h; cases h)

theorem normalize_whitespace_wsF (l : List Char) :
    scan wsF none (normalize_whitespace l) = true := by
  cases l with
  | nil => rfl
  | cons a rest =>
    rw [show normalize_whitespace (a :: rest) =
      pyStrip (subWsPlus (a :: rest)) from rfl]
    apply chain_to_scan_wsF
    · intro c hc hcw
      exact subWsPlusGo_onlySp (a :: rest) false c (pyStrip_subset _ c hc) hcw
    · exact pyStrip_chain _ (subWsPlusGo_chain (a :: rest) false)
    · intro _ d hd
      exact pyStrip_head _ d hd

end Normalize

namespace Normalize

theorem pyRstrip_prefix (cs l : List Char) : pyRstrip cs l <+: l := by
  unfold pyRstrip
  obtain ⟨pre, hpre⟩ :=
    List.dropWhile_suffix (l := l.reverse) (fun c => cs.contains c)
  refine ⟨pre.reverse, ?_⟩
  have := congrArg List.reverse hpre
  rw [List.reverse_append, List.reverse_reverse] at this
  exact this

theorem wsF_nextWeak (pv : Option Char) (c d : Char)
    (h : wsF pv c (some d) = true) : wsF pv c none = true := by
  by_cases hcw : pyIsSpace c = true
  · have hel := wsF_elim pv c (some d) h hcw
    rw [wsF.eq_def, if_pos hcw]
    simp [hel.1, hel.2.1]
  · rw [wsF.eq_def]
    simp [hcw]

theorem punctF3_nextWeak (pv : Option Char) (c d : Char)
    (h : punctF 3 pv c (some d) = true) : punctF 3 pv c none = true := by
  by_cases h1 : c = ','
  · subst h1; exact punctF_comma_none 3 pv
  by_cases h2 : c = ';'
  · subst h2; exact punctF_semi_none 3 pv
  by_cases h3 : c = '.'
  · subst h3; exact punctF_dot_none 3 pv
  by_cases h4 : c = ' '
  · subst h4; exact punctF_space_none 3 pv
  exact punctF_at_other 3 pv c none h1 h2 h3 h4

theorem lastOk_some (l : List Char) (c : Char) (h : l.getLast? = some c) :
    lastOk l = !(isPunct c || pyIsSpace c) := by
  unfold lastOk
  rw [h]

theorem lastOk_none (l : List Char) (h : l.getLast? = none) :
    lastOk l = true := by
  unfold lastOk
  rw [h]

theorem pyRstrip_lastOk (l : List Char) (hws : scan wsF none l = true) :
    lastOk (pyRstrip rstrip_chars l) = true := by
  cases hlast : (pyRstrip rstrip_chars l).getLast? with
  | none => exact lastOk_none _ hlast
  | some c =>
    rw [lastOk_some _ c hlast]
    unfold pyRstrip at hlast
    rw [List.getLast?_reverse] at hlast
    have hnc := List.head?_dropWhile_not (fun x => rstrip_chars.contains x)
      l.reverse
    rw [hlast] at hnc
    simp only [Option.all_some] at hnc
    have hmem : c ∈ l := by
      have hsub := List.dropWhile_suffix
        (l := l.reverse) (fun x => rstrip_chars.contains x)
      have hcin : c ∈ l.reverse.dropWhile (fun x => rstrip_chars.contains x) := by
        cases hx : l.reverse.dropWhile (fun x => rstrip_chars.contains x) with
        | nil => rw [hx] at hlast; simp at hlast
        | cons y ys =>
          rw [hx] at hlast
          simp only [List.head?_cons, Option.some.injEq] at hlast
          rw [← hlast]
          exact List.mem_cons_self y ys
      rw [← List.mem_reverse]
      exact hsub.subset hcin
    have hc1 : (c == ' ') = false := by
      by_contra hx
      simp only [Bool.not_eq_false, beq_iff_eq] at hx
      rw [hx] at hnc
      simp [rstrip_chars] at hnc
    have hc2 : (c == ',') = false := by
      by_contra hx
      simp only [Bool.not_eq_false, beq_iff_eq] at hx
      rw [hx] at hnc
      simp [rstrip_chars] at hnc
    have hc3 : (c == ';') = false := by
      by_contra hx
      simp only [Bool.not_eq_false, beq_iff_eq] at hx
      rw [hx] at hnc
      simp [rstrip_chars] at hnc
    have hc4 : (c == '.') = false := by
      by_contra hx
      simp only [Bool.not_eq_false, beq_iff_eq] at hx
      rw [hx] at hnc
      simp [rstrip_chars] at hnc
    have hcw : pyIsSpace c = false := by
      by_cases hx : pyIsSpace c = true
      · have := scan_wsF_onlySp l none hws c hmem hx
        rw [this] at hc1
        simp at hc1
      · simpa using hx
    simp [isPunct, hc2, hc3, hc4, hcw]

theorem subWsPlusGo_id (l : List Char) :
    ∀ (pv : Option Char), scan wsF pv l = true →
      subWsPlusGo l false = l ∧
      ((∀ d, l.head? = some d → pyIsSpace d = false) →
        subWsPlusGo l true = l) := by
  induction l with
  | nil => intro pv _; exact ⟨rfl, fun _ => rfl⟩
  | cons c rest ih =>
    intro pv hscan
    obtain ⟨hw, hs⟩ := scan_cons_elim wsF pv c rest hscan
    have ihr := ih (some c) hs
    constructor
    · by_cases hcw : pyIsSpace c = true
      · have hel := wsF_elim pv c rest.head? hw hcw
        rw [subWsPlusGo_ws_false c rest hcw, hel.1]
        rw [ihr.2 (fun d hd => hel.2.2 d hd)]
      · rw [subWsPlusGo_nonws c rest false (by simpa using hcw), ihr.1]
    · intro hh
      have hcw : pyIsSpace c = false := hh c rfl
      rw [subWsPlusGo_nonws c rest true hcw, ihr.1]

theorem dropWhile_id_of_head (p : Char → Bool) (l : List Char)
    (h : ∀ d, l.head? = some d → p d = false) : l.dropWhile p = l := by
  cases l with
  | nil => rfl
  | cons c rest =>
    rw [List.dropWhile_cons, h c rfl]
    simp

theorem pyStrip_id (l : List Char)
    (hh : ∀ d, l.head? = some d → pyIsSpace d = false)
    (hl : ∀ d, l.getLast? = some d → pyIsSpace d = false) :
    pyStrip l = l := by
  unfold pyStrip
  rw [dropWhile_id_of_head pyIsSpace l hh]
  rw [dropWhile_id_of_head pyIsSpace l.reverse
    (fun d hd => hl d (by rw [← List.head?_reverse]; exact hd))]
  exact List.reverse_reverse l

theorem unify_quotes_id (l : List Char) (h3 : scan (punctF 3) none l = true) :
    unify_quotes l = l := by
  cases l with
  | nil => rfl
  | cons a rest =>
    rw [show unify_quotes (a :: rest) =
      pyReplace unify_quotes_pattern [apostrophe]
        (pyReplace ['"'] ['"'] (pyReplace ['"'] ['"'] (a :: rest))) from rfl]
    rw [pyReplace_self ['"'] (a :: rest).length (a :: rest) (le_refl _)]
    rw [pyReplace_self ['"'] (a :: rest).length (a :: rest) (le_refl _)]
    exact pyReplace_weird_id (a :: rest).length (a :: rest) none (le_refl _) h3

theorem subRunGo_id (p : Char) (l : List Char) :
    ∀ (pv : Option Char), scan (noRepF p) pv l = true →
      subRunGo p l false = l ∧
      ((∀ d, l.head? = some d → d ≠ p) → subRunGo p l true = l) := by
  induction l with
  | nil => intro pv _; exact ⟨rfl, fun _ => rfl⟩
  | cons c rest ih =>
    intro pv hscan
    obtain ⟨hw, hs⟩ := scan_cons_elim (noRepF p) pv c rest hscan
    have ihr := ih (some c) hs
    constructor
    · by_cases hcp : c = p
      · subst hcp
        rw [subRunGo_p_false]
        rw [ihr.2 ?_]
        intro d hd hdp
        subst hdp
        rw [hd] at hw
        simp [noRepF] at hw
      · rw [subRunGo_ne p c rest false hcp, ihr.1]
    · intro hh
      have hcp : c ≠ p := hh c rfl
      rw [subRunGo_ne p c rest true hcp, ihr.1]

theorem punctF3_to_noRep_comma (pv : Option Char) (c : Char) (nx : Option Char)
    (h : punctF 3 pv c nx = true) : noRepF ',' pv c nx = true := by
  by_cases hc : c = ','
  · subst hc
    cases nx with
    | none => simp [noRepF]
    | some d =>
      rw [punctF_comma_some, if_pos (by decide)] at h
      simp only [Bool.or_eq_true, beq_iff_eq, Bool.and_eq_true,
        decide_eq_true_iff] at h
      have hd : d ≠ ',' := by
        rcases h with h | ⟨⟨-, hlt⟩, -⟩
        · rw [h]; decide
        · intro hx
          rw [hx] at hlt
          simp [rank] at hlt
      simp [noRepF, hd]
  · simp [noRepF, hc]

theorem punctF3_to_noRep_dot (pv : Option Char) (c : Char) (nx : Option Char)
    (h : punctF 3 pv c nx = true) : noRepF '.' pv c nx = true := by
  by_cases hc : c = '.'
  · subst hc
    cases nx with
    | none => simp [noRepF]
    | some d =>
      rw [punctF_dot_some, if_pos (by decide)] at h
      rw [beq_iff_eq] at h
      have hd : d ≠ '.' := by rw [h]; decide
      simp [noRepF, hd]
  · simp [noRepF, hc]

theorem pyRstrip_id (l : List Char) (hl : lastOk l = true) :
    pyRstrip rstrip_chars l = l := by
  unfold pyRstrip
  rw [dropWhile_id_of_head _ l.reverse ?_]
  · exact List.reverse_reverse l
  · intro d hd
    rw [List.head?_reverse] at hd
    rw [lastOk_some l d hd] at hl
    simp only [Bool.not_eq_true', Bool.or_eq_false_iff] at hl
    have h1 : d ≠ ',' := by
      intro hx; rw [hx] at hl; simp [isPunct] at hl
    have h2 : d ≠ ';' := by
      intro hx; rw [hx] at hl; simp [isPunct] at hl
    have h3 : d ≠ '.' := by
      intro hx; rw [hx] at hl; simp [isPunct] at hl
    have h4 : d ≠ ' ' := by
      intro hx; rw [hx] at hl; simp [pyIsSpace] at hl
    simp [rstrip_chars, h1, h2, h3, h4]

end Normalize

namespace Normalize

theorem M2_nil : M2 [] = [] := by rw [M2.eq_def]

theorem M2_semi (rest : List Char) :
    M2 (';' :: rest) = ';' :: ' ' :: M2 (dropOneSpace rest) := by
  rw [M2.eq_def]
  rfl

theorem M2_space_semi (rest : List Char) :
    M2 (' ' :: ';' :: rest) = ';' :: ' ' :: M2 (dropOneSpace rest) := by
  rw [M2.eq_def]
  rfl

theorem M2_single_space : M2 [' '] = [' '] := by
  rw [M2.eq_def]
  show ' ' :: M2 [] = [' ']
  rw [M2_nil]

theorem M2_other (c : Char) (rest : List Char) (h1 : c ≠ ' ') (h2 : c ≠ ',')
    (h3 : c ≠ ';') : M2 (c :: rest) = c :: M2 rest := by
  rw [M2.eq_def]
  cases rest with
  | nil => simp [h1, h2, h3]
  | cons d rr => simp [h1, h2, h3, Ne.symm h1, Ne.symm h2, Ne.symm h3]

theorem M2_space_other (c : Char) (rest : List Char) (h2 : c ≠ ',')
    (h3 : c ≠ ';') : M2 (' ' :: c :: rest) = ' ' :: M2 (c :: rest) := by
  rw [M2.eq_def]
  simp [h2, h3, Ne.symm h2, Ne.symm h3]

theorem M2_comma_semi (rest rest2 : List Char)
    (h : dropOneSpace rest = ';' :: rest2) :
    M2 (',' :: rest) = ',' :: ';' :: ' ' :: M2 (dropOneSpace rest2) := by
  rw [M2.eq_def]
  split
  · simp_all
  · rename_i rest' heq
    have hr : rest' = rest := by
      rw [List.cons.injEq] at heq
      exact heq.2.symm
    subst hr
    split
    · rename_i rest2' heq2
      rw [h] at heq2
      have h2 : rest2 = rest2' := by injection heq2
      rw [h2]
    · rename_i hne
      exact (hne rest2 h).elim
  · simp_all
  · simp_all
  · rename_i a1 a2 a3 a4 heq
    rw [List.cons.injEq] at heq
    exact absurd heq.1.symm a2
  · simp_all

theorem M2_comma_other (rest : List Char)
    (h : (dropOneSpace rest).head? ≠ some ';') :
    M2 (',' :: rest) = ',' :: ' ' :: M2 (dropOneSpace rest) := by
  rw [M2.eq_def]
  split
  · simp_all
  · rename_i rest' heq
    have hr : rest' = rest := by
      rw [List.cons.injEq] at heq
      exact heq.2.symm
    subst hr
    split
    · rename_i rest2' heq2
      rw [heq2] at h
      simp at h
    · rfl
  · simp_all
  · simp_all
  · rename_i a1 a2 a3 a4 heq
    rw [List.cons.injEq] at heq
    exact absurd heq.1.symm a2
  · simp_all

theorem M2_space_comma_semi (rest rest2 : List Char)
    (h : dropOneSpace rest = ';' :: rest2) :
    M2 (' ' :: ',' :: rest) = ',' :: ';' :: ' ' :: M2 (dropOneSpace rest2) := by
  rw [M2.eq_def]
  split
  · rename_i rest' heq
    have hr : rest' = rest := by
      rw [List.cons.injEq, List.cons.injEq] at heq
      exact heq.2.2.symm
    subst hr
    split
    · rename_i rest2' heq2
      rw [h] at heq2
      have h2 : rest2 = rest2' := by injection heq2
      rw [h2]
    · rename_i hne
      exact (hne rest2 h).elim
  · simp_all
  · simp_all
  · simp_all
  · rename_i a1 a2 a3 a4 heq
    rw [List.cons.injEq] at heq
    exact (a1 rest heq.1.symm heq.2.symm).elim
  · simp_all

theorem M2_space_comma_other (rest : List Char)
    (h : (dropOneSpace rest).head? ≠ some ';') :
    M2 (' ' :: ',' :: rest) = ',' :: ' ' :: M2 (dropOneSpace rest) := by
  rw [M2.eq_def]
  split
  · rename_i rest' heq
    have hr : rest' = rest := by
      rw [List.cons.injEq, List.cons.injEq] at heq
      exact heq.2.2.symm
    subst hr
    split
    · rename_i rest2' heq2
      rw [heq2] at h
      simp at h
    · rfl
  · simp_all
  · simp_all
  · simp_all
  · rename_i a1 a2 a3 a4 heq
    rw [List.cons.injEq] at heq
    exact (a1 rest heq.1.symm heq.2.symm).elim
  · simp_all

theorem Msub_dropOneSpace (p : Char) (hp' : p ≠ ' ') (r : List Char) :
    dropOneSpace (Msub p r) = Msub p (dropOneSpace r) := by
  cases r with
  | nil =>
    rw [Msub_nil, show dropOneSpace ([] : List Char) = [] from rfl, Msub_nil]
  | cons c rest =>
    by_cases hcs : c = ' '
    · subst hcs
      cases rest with
      | nil =>
        rw [Msub_single_space p hp',
          show dropOneSpace [' '] = [] from rfl, Msub_nil]
      | cons d r4 =>
        rw [show dropOneSpace (' ' :: d :: r4) = d :: r4 from rfl]
        by_cases hdp : d = p
        · subst hdp
          rw [Msub_space_p d r4, Msub_cons_p d r4 hp',
            dropOneSpace_cons_ne d _ hp']
        · rw [Msub_space_other p d r4 hdp]
          rfl
    · rw [dropOneSpace_cons_ne c rest hcs]
      by_cases hcp : c = p
      · subst hcp
        rw [Msub_cons_p c rest hp', dropOneSpace_cons_ne c _ hp']
      · rw [Msub_cons_other p c rest hcs hcp, dropOneSpace_cons_ne c _ hcs]

theorem Msub_space_nohead (p : Char) (hp' : p ≠ ' ') (X : List Char)
    (hX : X.head? ≠ some p) :
    Msub p (' ' :: X) = ' ' :: Msub p X := by
  cases X with
  | nil =>
    rw [Msub_single_space p hp', Msub_nil]
  | cons x X2 =>
    have hxp : x ≠ p := by
      intro hx
      rw [hx] at hX
      simp at hX
    exact Msub_space_other p x X2 hxp

end Normalize

namespace Normalize

theorem mheadM_comma_ne_semi (X : List Char) (hX : X.head? ≠ some ';') :
    (Msub ',' X).head? ≠ some ';' := by
  rw [Msub_head ',' (by decide)]
  cases X with
  | nil => simp [mheadM_nil]
  | cons x X2 =>
    by_cases hxs : x = ' '
    · subst hxs
      cases X2 with
      | nil =>
        rw [show mheadM ',' [' '] = some ' ' from rfl]
        simp
      | cons g X3 =>
        rw [mheadM_space_cons]
        split
        · simp
        · simp
    · rw [mheadM_cons_ne ',' x X2 hxs]
      have hx : x ≠ ';' := by
        intro hh
        rw [hh] at hX
        simp at hX
      split
      · simp
      · simpa using hx

theorem M2_space_comma_eq (rest : List Char) :
    M2 (' ' :: ',' :: rest) = M2 (',' :: rest) := by
  cases hD : dropOneSpace rest with
  | nil =>
    rw [M2_space_comma_other rest (by rw [hD]; simp),
      M2_comma_other rest (by rw [hD]; simp)]
  | cons x X2 =>
    by_cases hx : x = ';'
    · subst hx
      rw [M2_space_comma_semi rest X2 hD, M2_comma_semi rest X2 hD]
    · rw [M2_space_comma_other rest (by rw [hD]; simp [hx]),
        M2_comma_other rest (by rw [hD]; simp [hx])]

theorem Msub_semi_comma_eq_M2 :
    ∀ (n : Nat) (r : List Char), r.length ≤ n →
      Msub ';' (Msub ',' r) = M2 r := by
  intro n
  induction n with
  | zero =>
    intro r hlen
    cases r with
    | nil => rw [Msub_nil, Msub_nil, M2_nil]
    | cons c rest => simp at hlen
  | succ n ih =>
    have ihDrop : ∀ (r2 : List Char), r2.length ≤ n →
        Msub ';' (Msub ',' (dropOneSpace r2)) = M2 (dropOneSpace r2) := by
      intro r2 hl
      cases r2 with
      | nil =>
        rw [show dropOneSpace ([] : List Char) = [] from rfl]
        rw [Msub_nil, Msub_nil, M2_nil]
      | cons e r3 =>
        by_cases hes : e = ' '
        · subst hes
          rw [show dropOneSpace (' ' :: r3) = r3 from rfl]
          exact ih r3 (by simp at hl; omega)
        · rw [dropOneSpace_cons_ne e r3 hes]
          exact ih (e :: r3) hl
    have commaCase : ∀ (r2 : List Char), r2.length ≤ n →
        Msub ';' (',' :: ' ' :: Msub ',' (dropOneSpace r2)) = M2 (',' :: r2) := by
      intro r2 hl
      rw [Msub_cons_other ';' ',' _ (by decide) (by decide)]
      cases hD : dropOneSpace r2 with
      | nil =>
        rw [Msub_nil, Msub_single_space ';' (by decide)]
        rw [M2_comma_other r2 (by rw [hD]; simp), hD, M2_nil]
      | cons x X2 =>
        by_cases hx : x = ';'
        · subst hx
          have h1 := dropOneSpace_length_le r2
          rw [hD] at h1
          have hX2len : X2.length ≤ n := by
            simp at h1
            omega
          rw [Msub_cons_other ',' ';' X2 (by decide) (by decide)]
          rw [Msub_space_p ';' (Msub ',' X2)]
          rw [Msub_dropOneSpace ',' (by decide) X2]
          rw [ihDrop X2 hX2len]
          rw [M2_comma_semi r2 X2 hD]
        · rw [Msub_space_nohead ';' (by decide) (Msub ',' (x :: X2))
            (mheadM_comma_ne_semi (x :: X2) (by simpa using hx))]
          have hlx : (x :: X2).length ≤ n := by
            have h1 := dropOneSpace_length_le r2
            rw [hD] at h1
            omega
          rw [ih (x :: X2) hlx]
          rw [M2_comma_other r2 (by rw [hD]; simpa using hx), hD]
    intro r hlen
    cases r with
    | nil => rw [Msub_nil, Msub_nil, M2_nil]
    | cons c rest =>
      by_cases hcs : c = ' '
      · subst hcs
        cases rest with
        | nil =>
          rw [Msub_single_space ',' (by decide),
            Msub_single_space ';' (by decide), M2_single_space]
        | cons d r2 =>
          by_cases hd1 : d = ','
          · subst hd1
            rw [Msub_space_p ',' r2]
            rw [commaCase r2 (by simp at hlen; omega)]
            exact (M2_space_comma_eq r2).symm
          by_cases hd2 : d = ';'
          · subst hd2
            rw [Msub_space_other ',' ';' r2 (by decide)]
            rw [Msub_cons_other ',' ';' r2 (by decide) (by decide)]
            rw [Msub_space_p ';' (Msub ',' r2)]
            rw [Msub_dropOneSpace ',' (by decide) r2]
            rw [ihDrop r2 (by simp at hlen; omega)]
            rw [M2_space_semi r2]
          · rw [Msub_space_other ',' d r2 hd1]
            rw [Msub_space_nohead ';' (by decide) (Msub ',' (d :: r2))
              (mheadM_comma_ne_semi (d :: r2) (by simpa using hd2))]
            rw [ih (d :: r2) (by simp at hlen ⊢; omega)]
            rw [M2_space_other d r2 hd1 hd2]
      · by_cases hc1 : c = ','
        · subst hc1
          rw [Msub_cons_p ',' rest (by decide)]
          exact commaCase rest (by simp at hlen; omega)
        by_cases hc2 : c = ';'
        · subst hc2
          rw [Msub_cons_other ',' ';' rest (by decide) (by decide)]
          rw [Msub_cons_p ';' (Msub ',' rest) (by decide)]
          rw [Msub_dropOneSpace ',' (by decide) rest]
          rw [ihDrop rest (by simp at hlen; omega)]
          rw [M2_semi rest]
        · rw [Msub_cons_other ',' c rest hcs hc1]
          rw [Msub_cons_other ';' c (Msub ',' rest) hcs hc2]
          rw [ih rest (by simp at hlen; omega)]
          rw [M2_other c rest hcs hc1 hc2]

end Normalize

namespace Normalize

theorem isPunct_cases (e : Char) (h : isPunct e = true) :
    e = ',' ∨ e = ';' ∨ e = '.' := by
  simp only [isPunct, Bool.or_eq_true, beq_iff_eq] at h
  tauto

theorem comma_next3 (e : Char)
    (h : (e == ' ' || (isPunct e && decide (1 < rank e) &&
      decide (rank e ≤ 3))) = true) :
    e = ' ' ∨ e = ';' ∨ e = '.' := by
  simp only [Bool.or_eq_true, beq_iff_eq, Bool.and_eq_true,
    decide_eq_true_iff] at h
  rcases h with h | ⟨⟨hpi, h1⟩, h2⟩
  · exact Or.inl h
  · rcases isPunct_cases e hpi with h | h | h
    · rw [h] at h1
      simp [rank] at h1
    · exact Or.inr (Or.inl h)
    · exact Or.inr (Or.inr h)

theorem semi_next3 (e : Char)
    (h : (e == ' ' || (isPunct e && decide (2 < rank e) &&
      decide (rank e ≤ 3))) = true) :
    e = ' ' ∨ e = '.' := by
  simp only [Bool.or_eq_true, beq_iff_eq, Bool.and_eq_true,
    decide_eq_true_iff] at h
  rcases h with h | ⟨⟨hpi, h1⟩, h2⟩
  · exact Or.inl h
  · rcases isPunct_cases e hpi with h | h | h
    · rw [h] at h1
      simp [rank] at h1
    · rw [h] at h1
      simp [rank] at h1
    · exact Or.inr h

theorem lastOk_tail (c : Char) (rest : List Char) (h : rest ≠ []) :
    lastOk (c :: rest) = lastOk rest := by
  cases rest with
  | nil => exact absurd rfl h
  | cons d rr =>
    unfold lastOk
    rw [List.getLast?_cons_cons]

theorem M2_head_ne_dot (X : List Char) (hX : X.head? ≠ some '.') :
    (M2 X).head? ≠ some '.' := by
  cases X with
  | nil => simp [M2_nil]
  | cons a Y =>
    by_cases ha : a = ' '
    · subst ha
      cases Y with
      | nil => rw [M2_single_space]; simp
      | cons b Z =>
        by_cases hb1 : b = ','
        · subst hb1
          cases hD : dropOneSpace Z with
          | nil => rw [M2_space_comma_other Z (by rw [hD]; simp)]; simp
          | cons x X2 =>
            by_cases hx : x = ';'
            · subst hx
              rw [M2_space_comma_semi Z X2 hD]
              simp
            · rw [M2_space_comma_other Z (by rw [hD]; simpa using hx)]
              simp
        by_cases hb2 : b = ';'
        · subst hb2
          rw [M2_space_semi]
          simp
        · rw [M2_space_other b Z hb1 hb2]
          simp
    · by_cases ha1 : a = ','
      · subst ha1
        cases hD : dropOneSpace Y with
        | nil => rw [M2_comma_other Y (by rw [hD]; simp)]; simp
        | cons x X2 =>
          by_cases hx : x = ';'
          · subst hx
            rw [M2_comma_semi Y X2 hD]
            simp
          · rw [M2_comma_other Y (by rw [hD]; simpa using hx)]
            simp
      by_cases ha2 : a = ';'
      · subst ha2
        rw [M2_semi]
        simp
      · have ha3 : a ≠ '.' := by simpa using hX
        rw [M2_other a Y ha ha1 ha2]
        simpa using ha3

theorem dropOneSpace_M2_space (X : List Char)
    (hX : ∀ d, X.head? = some d → d ≠ ' ') :
    dropOneSpace (M2 (' ' :: X)) = M2 X := by
  cases X with
  | nil =>
    rw [M2_single_space, M2_nil]
    rfl
  | cons b Z =>
    by_cases hb1 : b = ','
    · subst hb1
      rw [M2_space_comma_eq]
      cases hD : dropOneSpace Z with
      | nil =>
        rw [M2_comma_other Z (by rw [hD]; simp)]
        rw [dropOneSpace_cons_ne ',' _ (by decide)]
      | cons x X2 =>
        by_cases hx : x = ';'
        · subst hx
          rw [M2_comma_semi Z X2 hD, dropOneSpace_cons_ne ',' _ (by decide)]
        · rw [M2_comma_other Z (by rw [hD]; simpa using hx)]
          rw [dropOneSpace_cons_ne ',' _ (by decide)]
    by_cases hb2 : b = ';'
    · subst hb2
      rw [M2_space_semi, M2_semi, dropOneSpace_cons_ne ';' _ (by decide)]
    · rw [M2_space_other b Z hb1 hb2]
      rfl

end Normalize

namespace Normalize

theorem rank_le_three (e : Char) : rank e ≤ 3 := by
  simp only [rank]
  split
  · omega
  · split
    · omega
    · split
      · omega
      · omega

theorem Msub_dot_M2_id :
    ∀ (n : Nat) (r : List Char) (pv : Option Char), r.length ≤ n →
      scan wsF pv r = true →
      scan (punctF 3) pv r = true →
      lastOk r = true →
      (∀ m, prevPunctLe 3 m pv = false) →
      Msub '.' (M2 r) = r := by
  intro n
  induction n with
  | zero =>
    intro r pv hlen _ _ _ _
    cases r with
    | nil => rw [M2_nil, Msub_nil]
    | cons c rest => simp at hlen
  | succ n ih =>
    intro r pv hlen hws hp3 hlast hpv
    have hpvsp : ∀ m, prevPunctLe 3 m (some ' ') = false := by
      intro m
      rw [prevPunctLe_some]
      rfl
    cases r with
    | nil => rw [M2_nil, Msub_nil]
    | cons c rest =>
      obtain ⟨hw1, hws1⟩ := scan_cons_elim wsF pv c rest hws
      obtain ⟨hp1, hps1⟩ := scan_cons_elim (punctF 3) pv c rest hp3
      by_cases hc1 : c = ','
      · subst hc1
        cases rest with
        | nil => exact absurd hlast (by decide)
        | cons e r2 =>
          rw [List.head?_cons, punctF_comma_some, if_pos (by decide)] at hp1
          obtain ⟨hw2, hws2⟩ := scan_cons_elim wsF (some ',') e r2 hws1
          obtain ⟨hp2, hps2⟩ := scan_cons_elim (punctF 3) (some ',') e r2 hps1
          rcases comma_next3 e hp1 with he | he | he
          · subst he
            cases r2 with
            | nil => exact absurd hlast (by decide)
            | cons e2 r3 =>
              rw [List.head?_cons] at hp2
              have he2s : e2 ≠ ';' := by
                intro hx
                rw [hx] at hp2
                exact absurd hp2 (by decide)
              have he2d : e2 ≠ '.' := by
                intro hx
                rw [hx] at hp2
                exact absurd hp2 (by decide)
              rw [M2_comma_other (' ' :: e2 :: r3)
                (by rw [show dropOneSpace (' ' :: e2 :: r3) = e2 :: r3 from rfl]
                    simpa using he2s)]
              rw [show dropOneSpace (' ' :: e2 :: r3) = e2 :: r3 from rfl]
              rw [Msub_cons_other '.' ',' _ (by decide) (by decide)]
              rw [Msub_space_nohead '.' (by decide) (M2 (e2 :: r3))
                (M2_head_ne_dot (e2 :: r3) (by simpa using he2d))]
              rw [ih (e2 :: r3) (some ' ') (by simp at hlen ⊢; omega) hws2 hps2
                (by rw [← lastOk_tail ' ' (e2 :: r3) (by simp),
                  ← lastOk_tail ',' (' ' :: e2 :: r3) (by simp)]
                    exact hlast) hpvsp]
          · subst he
            cases r2 with
            | nil => exact absurd hlast (by decide)
            | cons f r3 =>
              rw [List.head?_cons, punctF_semi_some, if_pos (by decide)] at hp2
              obtain ⟨hw3, hws3⟩ := scan_cons_elim wsF (some ';') f r3 hws2
              obtain ⟨hp3w, hps3⟩ :=
                scan_cons_elim (punctF 3) (some ';') f r3 hps2
              rcases semi_next3 f hp2 with hf | hf
              · subst hf
                cases r3 with
                | nil => exact absurd hlast (by decide)
                | cons g r4 =>
                  rw [List.head?_cons] at hp3w
                  have hgd : g ≠ '.' := by
                    intro hx
                    rw [hx] at hp3w
                    exact absurd hp3w (by decide)
                  rw [M2_comma_semi (';' :: ' ' :: g :: r4) (' ' :: g :: r4)
                    (dropOneSpace_cons_ne ';' _ (by decide))]
                  rw [show dropOneSpace (' ' :: g :: r4) = g :: r4 from rfl]
                  rw [Msub_cons_other '.' ',' _ (by decide) (by decide)]
                  rw [Msub_cons_other '.' ';' _ (by decide) (by decide)]
                  rw [Msub_space_nohead '.' (by decide) (M2 (g :: r4))
                    (M2_head_ne_dot (g :: r4) (by simpa using hgd))]
                  rw [ih (g :: r4) (some ' ') (by simp at hlen ⊢; omega)
                    hws3 hps3
                    (by rw [← lastOk_tail ' ' (g :: r4) (by simp),
                      ← lastOk_tail ';' (' ' :: g :: r4) (by simp),
                      ← lastOk_tail ',' (';' :: ' ' :: g :: r4) (by simp)]
                        exact hlast) hpvsp]
              · subst hf
                cases r3 with
                | nil => exact absurd hlast (by decide)
                | cons x r4 =>
                  rw [List.head?_cons, punctF_dot_some, if_pos (by decide)]
                    at hp3w
                  have hx : x = ' ' := by simpa using hp3w
                  subst hx
                  obtain ⟨hw4, hws4⟩ := scan_cons_elim wsF (some '.') ' ' r4 hws3
                  obtain ⟨hp4, hps4⟩ :=
                    scan_cons_elim (punctF 3) (some '.') ' ' r4 hps3
                  cases r4 with
                  | nil => exact absurd hlast (by decide)
                  | cons g r5 =>
                    have hel := wsF_elim (some '.') ' ' (g :: r5).head? hw4
                      (by decide)
                    have hg : g ≠ ' ' := by
                      intro hgx
                      have := hel.2.2 g (by simp)
                      rw [hgx] at this
                      simp [pyIsSpace] at this
                    rw [M2_comma_semi (';' :: '.' :: ' ' :: g :: r5)
                      ('.' :: ' ' :: g :: r5)
                      (dropOneSpace_cons_ne ';' _ (by decide))]
                    rw [dropOneSpace_cons_ne '.' _ (by decide)]
                    rw [M2_other '.' _ (by decide) (by decide) (by decide)]
                    rw [Msub_cons_other '.' ',' _ (by decide) (by decide)]
                    rw [Msub_cons_other '.' ';' _ (by decide) (by decide)]
                    rw [Msub_space_p '.' (M2 (' ' :: g :: r5))]
                    rw [dropOneSpace_M2_space (g :: r5)
                      (by intro d hd
                          simp only [List.head?_cons, Option.some.injEq] at hd
                          rw [← hd]
                          exact hg)]
                    rw [ih (g :: r5) (some ' ') (by simp at hlen ⊢; omega)
                      hws4 hps4
                      (by rw [← lastOk_tail ' ' (g :: r5) (by simp),
                        ← lastOk_tail '.' (' ' :: g :: r5) (by simp),
                        ← lastOk_tail ';' ('.' :: ' ' :: g :: r5) (by simp),
                        ← lastOk_tail ',' (';' :: '.' :: ' ' :: g :: r5)
                          (by simp)]
                          exact hlast) hpvsp]
          · subst he
            cases r2 with
            | nil => exact absurd hlast (by decide)
            | cons x r3 =>
              rw [List.head?_cons, punctF_dot_some, if_pos (by decide)] at hp2
              have hx : x = ' ' := by simpa using hp2
              subst hx
              obtain ⟨hw3, hws3⟩ := scan_cons_elim wsF (some '.') ' ' r3 hws2
              obtain ⟨hp3w, hps3⟩ :=
                scan_cons_elim (punctF 3) (some '.') ' ' r3 hps2
              cases r3 with
              | nil => exact absurd hlast (by decide)
              | cons g r4 =>
                have hel := wsF_elim (some '.') ' ' (g :: r4).head? hw3
                  (by decide)
                have hg : g ≠ ' ' := by
                  intro hgx
                  have := hel.2.2 g (by simp)
                  rw [hgx] at this
                  simp [pyIsSpace] at this
                rw [M2_comma_other ('.' :: ' ' :: g :: r4)
                  (by rw [dropOneSpace_cons_ne '.' _ (by decide)]; simp)]
                rw [dropOneSpace_cons_ne '.' _ (by decide)]
                rw [M2_other '.' _ (by decide) (by decide) (by decide)]
                rw [Msub_cons_other '.' ',' _ (by decide) (by decide)]
                rw [Msub_space_p '.' (M2 (' ' :: g :: r4))]
                rw [dropOneSpace_M2_space (g :: r4)
                  (by intro d hd
                      simp only [List.head?_cons, Option.some.injEq] at hd
                      rw [← hd]
                      exact hg)]
                rw [ih (g :: r4) (some ' ') (by simp at hlen ⊢; omega)
                  hws3 hps3
                  (by rw [← lastOk_tail ' ' (g :: r4) (by simp),
                    ← lastOk_tail '.' (' ' :: g :: r4) (by simp),
                    ← lastOk_tail ',' ('.' :: ' ' :: g :: r4) (by simp)]
                      exact hlast) hpvsp]
      by_cases hc2 : c = ';'
      · subst hc2
        cases rest with
        | nil => exact absurd hlast (by decide)
        | cons e r2 =>
          rw [List.head?_cons, punctF_semi_some, if_pos (by decide)] at hp1
          obtain ⟨hw2, hws2⟩ := scan_cons_elim wsF (some ';') e r2 hws1
          obtain ⟨hp2, hps2⟩ := scan_cons_elim (punctF 3) (some ';') e r2 hps1
          rcases semi_next3 e hp1 with he | he
          · subst he
            cases r2 with
            | nil => exact absurd hlast (by decide)
            | cons f r3 =>
              rw [List.head?_cons] at hp2
              have hfd : f ≠ '.' := by
                intro hx
                rw [hx] at hp2
                exact absurd hp2 (by decide)
              rw [M2_semi (' ' :: f :: r3)]
              rw [show dropOneSpace (' ' :: f :: r3) = f :: r3 from rfl]
              rw [Msub_cons_other '.' ';' _ (by decide) (by decide)]
              rw [Msub_space_nohead '.' (by decide) (M2 (f :: r3))
                (M2_head_ne_dot (f :: r3) (by simpa using hfd))]
              rw [ih (f :: r3) (some ' ') (by simp at hlen ⊢; omega) hws2 hps2
                (by rw [← lastOk_tail ' ' (f :: r3) (by simp),
                  ← lastOk_tail ';' (' ' :: f :: r3) (by simp)]
                    exact hlast) hpvsp]
          · subst he
            cases r2 with
            | nil => exact absurd hlast (by decide)
            | cons x r3 =>
              rw [List.head?_cons, punctF_dot_some, if_pos (by decide)] at hp2
              have hx : x = ' ' := by simpa using hp2
              subst hx
              obtain ⟨hw3, hws3⟩ := scan_cons_elim wsF (some '.') ' ' r3 hws2
              obtain ⟨hp3w, hps3⟩ :=
                scan_cons_elim (punctF 3) (some '.') ' ' r3 hps2
              cases r3 with
              | nil => exact absurd hlast (by decide)
              | cons g r4 =>
                have hel := wsF_elim (some '.') ' ' (g :: r4).head? hw3
                  (by decide)
                have hg : g ≠ ' ' := by
                  intro hgx
                  have := hel.2.2 g (by simp)
                  rw [hgx] at this
                  simp [pyIsSpace] at this
                rw [M2_semi ('.' :: ' ' :: g :: r4)]
                rw [dropOneSpace_cons_ne '.' _ (by decide)]
                rw [M2_other '.' _ (by decide) (by decide) (by decide)]
                rw [Msub_cons_other '.' ';' _ (by decide) (by decide)]
                rw [Msub_space_p '.' (M2 (' ' :: g :: r4))]
                rw [dropOneSpace_M2_space (g :: r4)
                  (by intro d hd
                      simp only [List.head?_cons, Option.some.injEq] at hd
                      rw [← hd]
                      exact hg)]
                rw [ih (g :: r4) (some ' ') (by simp at hlen ⊢; omega)
                  hws3 hps3
                  (by rw [← lastOk_tail ' ' (g :: r4) (by simp),
                    ← lastOk_tail '.' (' ' :: g :: r4) (by simp),
                    ← lastOk_tail ';' ('.' :: ' ' :: g :: r4) (by simp)]
                      exact hlast) hpvsp]
      by_cases hc3 : c = '.'
      · subst hc3
        cases rest with
        | nil => exact absurd hlast (by decide)
        | cons x r2 =>
          rw [List.head?_cons, punctF_dot_some, if_pos (by decide)] at hp1
          have hx : x = ' ' := by simpa using hp1
          subst hx
          obtain ⟨hw2, hws2⟩ := scan_cons_elim wsF (some '.') ' ' r2 hws1
          obtain ⟨hp2, hps2⟩ := scan_cons_elim (punctF 3) (some '.') ' ' r2 hps1
          cases r2 with
          | nil => exact absurd hlast (by decide)
          | cons e2 r3 =>
            have hel := wsF_elim (some '.') ' ' (e2 :: r3).head? hw2 (by decide)
            have he2 : e2 ≠ ' ' := by
              intro hgx
              have := hel.2.2 e2 (by simp)
              rw [hgx] at this
              simp [pyIsSpace] at this
            rw [M2_other '.' _ (by decide) (by decide) (by decide)]
            rw [Msub_cons_p '.' (M2 (' ' :: e2 :: r3)) (by decide)]
            rw [dropOneSpace_M2_space (e2 :: r3)
              (by intro d hd
                  simp only [List.head?_cons, Option.some.injEq] at hd
                  rw [← hd]
                  exact he2)]
            rw [ih (e2 :: r3) (some ' ') (by simp at hlen ⊢; omega) hws2 hps2
              (by rw [← lastOk_tail ' ' (e2 :: r3) (by simp),
                ← lastOk_tail '.' (' ' :: e2 :: r3) (by simp)]
                  exact hlast) hpvsp]
      by_cases hc4 : c = ' '
      · subst hc4
        cases rest with
        | nil => exact absurd hlast (by decide)
        | cons e r2 =>
          rw [List.head?_cons, punctF_space_some] at hp1
          have hpe : (isPunct e && decide (rank e ≤ 3)) = false := by
            by_cases hb : (isPunct e && decide (rank e ≤ 3)) = true
            · rw [if_pos hb, hpv (rank e)] at hp1
              exact absurd hp1 (by simp)
            · simpa using hb
          have hip : isPunct e = false := by
            have h3 : decide (rank e ≤ 3) = true := by
              simp [rank_le_three e]
            rw [h3] at hpe
            simpa using hpe
          have he1 : e ≠ ',' := by
            intro hx
            rw [hx] at hip
            simp [isPunct] at hip
          have he2 : e ≠ ';' := by
            intro hx
            rw [hx] at hip
            simp [isPunct] at hip
          have he3 : e ≠ '.' := by
            intro hx
            rw [hx] at hip
            simp [isPunct] at hip
          obtain ⟨hw2, hws2⟩ := scan_cons_elim wsF (some ' ') e r2 hws1
          obtain ⟨hp2, hps2⟩ := scan_cons_elim (punctF 3) (some ' ') e r2 hps1
          rw [M2_space_other e r2 he1 he2]
          rw [Msub_space_nohead '.' (by decide) (M2 (e :: r2))
            (M2_head_ne_dot (e :: r2) (by simpa using he3))]
          rw [ih (e :: r2) (some ' ') (by simp at hlen ⊢; omega) hws1 hps1
            (by rw [← lastOk_tail ' ' (e :: r2) (by simp)]
                exact hlast) hpvsp]
      · have hip : isPunct c = false := by
          simp [isPunct, hc1, hc2, hc3]
        rw [M2_other c rest hc4 hc1 hc2]
        rw [Msub_cons_other '.' c (M2 rest) hc4 hc3]
        rw [ih rest (some c) (by simp at hlen; omega) hws1 hps1
          (by cases rest with
              | nil => rfl
              | cons d rr =>
                rw [← lastOk_tail c (d :: rr) (by simp)]
                exact hlast)
          (by intro m
              rw [prevPunctLe_some, hip]
              rfl)]

end Normalize

namespace Normalize

theorem subPunct_eq_Msub (p : Char) (hp : pyIsSpace p = false) (u : List Char)
    (h : scan wsF none u = true) : subPunct p u = Msub p u :=
  (subPunctGo_eq_Msub p hp u.length u none (le_refl _) h).1

theorem unify_quotes_pres_wsF (t : List Char) (h : scan wsF none t = true) :
    scan wsF none (unify_quotes t) = true := by
  cases t with
  | nil => rfl
  | cons a r =>
    rw [show unify_quotes (a :: r) = pyReplace unify_quotes_pattern [apostrophe]
      (pyReplace ['"'] ['"'] (pyReplace ['"'] ['"'] (a :: r))) from rfl]
    rw [pyReplace_self ['"'] (a :: r).length _ (le_refl _)]
    rw [pyReplace_self ['"'] (a :: r).length _ (le_refl _)]
    exact pyReplace_weird_pres_wsF (a :: r).length (a :: r) none (le_refl _) h

/-- Soundness of the normalization pipeline: every output of
normalize_prompt is in the normal form described by nfOk. -/
theorem normalize_prompt_nf (l : List Char) :
    nfOk (normalize_prompt l) = true := by
  cases l with
  | nil => rfl
  | cons a rest =>
    have h2 : scan wsF none
        (unify_quotes (normalize_whitespace (a :: rest))) = true :=
      unify_quotes_pres_wsF _ (normalize_whitespace_wsF _)
    have h4w : scan wsF none (subRun '.' (subRun ','
        (unify_quotes (normalize_whitespace (a :: rest))))) = true :=
      subRunGo_pres_wsF '.' (by decide) _ none none false
        (subRunGo_pres_wsF ',' (by decide) _ none none false h2
          (fun _ => rfl) (by intro h; cases h))
        (fun _ => rfl) (by intro h; cases h)
    rw [show normalize_prompt (a :: rest) = pyRstrip rstrip_chars
      (subPunct '.' (subPunct ';' (subPunct ',' (subRun '.' (subRun ','
        (unify_quotes (normalize_whitespace (a :: rest)))))))) from rfl]
    generalize hT4 : subRun '.' (subRun ','
      (unify_quotes (normalize_whitespace (a :: rest)))) = T4 at h4w ⊢
    rw [subPunct_eq_Msub ',' (by decide) T4 h4w]
    have h5w := Msub_pres_wsF ',' (by decide) T4.length T4 none none
      (le_refl _) h4w (Or.inl rfl)
    have h5p := Msub_comma_stage1 T4.length T4 none none (le_refl _) h4w
    rw [subPunct_eq_Msub ';' (by decide) _ h5w]
    have h6w := Msub_pres_wsF ';' (by decide) (Msub ',' T4).length _ none none
      (le_refl _) h5w (Or.inl rfl)
    have h6p := Msub_semi_stage2 (Msub ',' T4).length _ none none (le_refl _)
      h5w h5p (Or.inl rfl)
    rw [subPunct_eq_Msub '.' (by decide) _ h6w]
    have h7w := Msub_pres_wsF '.' (by decide)
      (Msub ';' (Msub ',' T4)).length _ none none (le_refl _) h6w (Or.inl rfl)
    have h7p := Msub_dot_stage3 (Msub ';' (Msub ',' T4)).length _ none none
      (le_refl _) h6w h6p (Or.inl rfl)
    generalize hT7 : Msub '.' (Msub ';' (Msub ',' T4)) = T7 at h7w h7p ⊢
    unfold nfOk stage3Ok
    rw [Bool.and_eq_true, Bool.and_eq_true]
    obtain ⟨tl, htl⟩ := pyRstrip_prefix rstrip_chars T7
    refine ⟨⟨?_, ?_⟩, ?_⟩
    · exact scan_prefix wsF wsF_nextWeak _ tl none (by rw [htl]; exact h7w)
    · exact scan_prefix (punctF 3) punctF3_nextWeak _ tl none
        (by rw [htl]; exact h7p)
    · exact pyRstrip_lastOk T7 h7w

/-- Fixpoint: normalize_prompt is the identity on normal-form strings. -/
theorem normalize_prompt_fix (R : List Char) (h : nfOk R = true) :
    normalize_prompt R = R := by
  cases R with
  | nil => rfl
  | cons c rest =>
    unfold nfOk stage3Ok at h
    rw [Bool.and_eq_true, Bool.and_eq_true] at h
    obtain ⟨⟨hws, hp3⟩, hlast⟩ := h
    have hnw : normalize_whitespace (c :: rest) = c :: rest := by
      rw [show normalize_whitespace (c :: rest) =
        pyStrip (subWsPlus (c :: rest)) from rfl]
      rw [show subWsPlus (c :: rest) = subWsPlusGo (c :: rest) false from rfl]
      rw [(subWsPlusGo_id (c :: rest) none hws).1]
      exact pyStrip_id (c :: rest)
        (fun d hd => scan_wsF_head _ d hws hd)
        (fun d hd => by
          rw [lastOk_some _ d hd] at hlast
          simp only [Bool.not_eq_true', Bool.or_eq_false_iff] at hlast
          exact hlast.2)
    have huq : unify_quotes (c :: rest) = c :: rest := unify_quotes_id _ hp3
    have hsrc : subRun ',' (c :: rest) = c :: rest :=
      (subRunGo_id ',' (c :: rest) none
        (scan_mono (punctF 3) (noRepF ',') punctF3_to_noRep_comma _ none
          hp3)).1
    have hsrd : subRun '.' (c :: rest) = c :: rest :=
      (subRunGo_id '.' (c :: rest) none
        (scan_mono (punctF 3) (noRepF '.') punctF3_to_noRep_dot _ none
          hp3)).1
    have h5w : scan wsF none (Msub ',' (c :: rest)) = true :=
      Msub_pres_wsF ',' (by decide) (c :: rest).length _ none none (le_refl _)
        hws (Or.inl rfl)
    have hE2 : Msub ';' (Msub ',' (c :: rest)) = M2 (c :: rest) :=
      Msub_semi_comma_eq_M2 (c :: rest).length (c :: rest) (le_refl _)
    have h6w : scan wsF none (M2 (c :: rest)) = true := by
      rw [← hE2]
      exact Msub_pres_wsF ';' (by decide) (Msub ',' (c :: rest)).length _
        none none (le_refl _) h5w (Or.inl rfl)
    have hE3 : Msub '.' (M2 (c :: rest)) = c :: rest :=
      Msub_dot_M2_id (c :: rest).length (c :: rest) none (le_refl _) hws hp3
        hlast (fun m => rfl)
    show pyRstrip rstrip_chars
      (subPunct '.' (subPunct ';' (subPunct ',' (subRun '.' (subRun ','
        (unify_quotes (normalize_whitespace (c :: rest)))))))) = c :: rest
    rw [hnw, huq, hsrc, hsrd]
    rw [subPunct_eq_Msub ',' (by decide) _ hws]
    rw [subPunct_eq_Msub ';' (by decide) _ h5w]
    rw [hE2]
    rw [subPunct_eq_Msub '.' (by decide) _ h6w]
    rw [hE3]
    exact pyRstrip_id _ hlast

end Normalize

/-- C7: prompt normalization is idempotent: for every input text,
normalize_prompt (normalize_prompt x) = normalize_prompt x. -/
theorem normalize_prompt_idempotent (l : List Char) :
    Normalize.normalize_prompt (Normalize.normalize_prompt l) =
      Normalize.normalize_prompt l :=
  Normalize.normalize_prompt_fix (Normalize.normalize_prompt l)
    (Normalize.normalize_prompt_nf l)
